import Mathlib

/-!
# The command pipeline of `cnc/listen.go`

A shallow embedding of `ReadLine` (line reader), `NewAttack` (command parser),
`Attack.Build` (wire encoder) and `attackSender` of `src/Botnet/cnc/listen.go`,
with the library functions they call, followed by theorems about them.

Conventions of the embedding.

* A Go `string` or `[]byte` is a `List Nat` of bytes (each below 256).
* Go machine integers are `Nat` or `Int`; a conversion that can truncate is
  written with an explicit `%`.
* A Go map is a list of key/value pairs without repeated keys.  A `range` loop
  over a map visits the entries in an order Go does not fix; the loops of the
  embedding visit the list in list order, and the theorems quantify over every
  list, hence over every order.
* A Go function returning `(T, error)` returns an `Outcome T`, which also
  records a run-time panic.
* Output on the process console (`fmt.Println`) is not modelled.
* The platform is a 64-bit one (`int` has 64 bits), and the libraries are the Go
  standard library as of release 1.22 and go-shellwords 1.0.12.
-/

namespace Botnet

/-! ## Strings and results -/

/-- UTF-8 encoding of one code point, as `string(r)` yields for a valid rune. -/
def encodeRune (r : Nat) : List Nat :=
  if r < 0x80 then [r]
  else if r < 0x800 then [0xC0 + r / 64, 0x80 + r % 64]
  else if r < 0x10000 then [0xE0 + r / 4096, 0x80 + r / 64 % 64, 0x80 + r % 64]
  else [0xF0 + r / 262144, 0x80 + r / 4096 % 64, 0x80 + r / 64 % 64, 0x80 + r % 64]

/-- The bytes of a string literal of the source. -/
def goStr (s : String) : List Nat :=
  (s.data.map (fun c => encodeRune c.toNat)).flatten

/-- What a Go function of result type `(T, error)` can do: return a value with a
nil error, return an error carrying a message, or panic at run time. -/
inductive Outcome (α : Type) where
  | ok (val : α)
  | error (msg : List Nat)
  | panic
  deriving DecidableEq, Repr

/-! ## Data model (`listen.go` lines 13-29) -/

/-- The struct `AttackInfo`. -/
structure AttackInfo where
  attackID : Nat
  attackFlags : List Nat
  attackDescription : List Nat
  deriving DecidableEq, Repr

/-- The struct `FlagInfo`. -/
structure FlagInfo where
  flagID : Nat
  flagDescription : List Nat
  deriving DecidableEq, Repr

/-- The struct `Attack`: `Duration` is a `uint32`, `Typ` (the field `Type` of the
source, a reserved word here) a `uint8`, `Targets` a
`map[uint32]uint8` (address to netmask) and `Flags` a `map[uint8]string`. -/
structure Attack where
  Duration : Nat
  Typ : Nat
  Targets : List (Nat × Nat)
  Flags : List (Nat × List Nat)
  deriving DecidableEq, Repr

/-- The ranges the Go field types of `Attack` impose. -/
def Attack.WellTyped (a : Attack) : Prop :=
  a.Duration < 2 ^ 32 ∧ a.Typ < 256 ∧
  (∀ t ∈ a.Targets, t.1 < 2 ^ 32 ∧ t.2 < 256) ∧
  (∀ f ∈ a.Flags, f.1 < 256 ∧ ∀ b ∈ f.2, b < 256)

/-- Assignment `m[k] = v` on a map. -/
def mapSet {κ ν : Type} [DecidableEq κ] : List (κ × ν) → κ → ν → List (κ × ν)
  | [], k, v => [(k, v)]
  | (k', v') :: rest, k, v =>
    if k' = k then (k, v) :: rest else (k', v') :: mapSet rest k v

/-! ## Encoder (`Attack.Build`, lines 332-380) -/

/-- The four bytes `binary.BigEndian.PutUint32` writes. -/
def PutUint32 (v : Nat) : List Nat :=
  [v / 2 ^ 24 % 256, v / 2 ^ 16 % 256, v / 2 ^ 8 % 256, v % 256]

/-- The two bytes `binary.BigEndian.PutUint16` writes. -/
def PutUint16 (v : Nat) : List Nat :=
  [v / 2 ^ 8 % 256, v % 256]

/-- The loop of lines 348-353: five bytes for each target. -/
def buildTargets : List (Nat × Nat) → List Nat → List Nat
  | [], buf => buf
  | (pfx, netmask) :: rest, buf =>
    buildTargets rest (buf ++ (PutUint32 pfx ++ [netmask]))

/-- The loop of lines 359-369: id, length and value of each flag; it returns
an error at the first value longer than 255 bytes. -/
def buildFlags : List (Nat × List Nat) → List Nat → Outcome (List Nat)
  | [], buf => .ok buf
  | (key, val) :: rest, buf =>
    if val.length > 255 then
      .error (goStr "Flag Value Cannot Be More Than 255 Bytes!")
    else
      buildFlags rest (buf ++ ([key, val.length % 256] ++ val))

/-- The method `Attack.Build`. -/
def Build (this : Attack) : Outcome (List Nat) :=
  let buf := PutUint32 this.Duration
  let buf := buf ++ [this.Typ]
  let buf := buf ++ [this.Targets.length % 256]
  let buf := buildTargets this.Targets buf
  let buf := buf ++ [this.Flags.length % 256]
  match buildFlags this.Flags buf with
  | .error msg => .error msg
  | .panic => .panic
  | .ok buf =>
    if buf.length > 4096 then
      .error (goStr "Max Buffer Is 4096")
    else
      .ok (PutUint16 ((buf.length + 2) % 2 ^ 16) ++ buf)

/-! ### The sections of the buffer, for stating what `Build` returns -/

/-- Bytes of the target section, in list order. -/
def targetBytes (ts : List (Nat × Nat)) : List Nat :=
  (ts.map (fun t => PutUint32 t.1 ++ [t.2])).flatten

/-- Bytes of the flag section, in list order. -/
def flagBytes (fs : List (Nat × List Nat)) : List Nat :=
  (fs.map (fun f => [f.1, f.2.length] ++ f.2)).flatten

/-- The buffer of `Build` before the length prefix is put in front. -/
def bodyBytes (a : Attack) : List Nat :=
  PutUint32 a.Duration ++ [a.Typ] ++ [a.Targets.length % 256] ++ targetBytes a.Targets
    ++ [a.Flags.length % 256] ++ flagBytes a.Flags

/-! ## Decoder of the documented wire layout

`Build` has no inverse in the source.  The decoder below follows the layout
table of the specification (section 4.3) and is the reference the round-trip
theorem compares `Build` with. -/

/-- Big-endian value of four bytes. -/
def Uint32 (b0 b1 b2 b3 : Nat) : Nat :=
  b0 * 2 ^ 24 + b1 * 2 ^ 16 + b2 * 2 ^ 8 + b3

/-- Reads `n` target records of five bytes; returns them with the unread rest. -/
def decodeTargets : Nat → List Nat → Option (List (Nat × Nat) × List Nat)
  | 0, bs => some ([], bs)
  | n + 1, b0 :: b1 :: b2 :: b3 :: m :: rest =>
    match decodeTargets n rest with
    | some (ts, r) => some ((Uint32 b0 b1 b2 b3, m) :: ts, r)
    | none => none
  | _ + 1, _ => none

/-- Reads `n` flag records (id, length `L`, `L` value bytes); returns them with
the unread rest. -/
def decodeFlags : Nat → List Nat → Option (List (Nat × List Nat) × List Nat)
  | 0, bs => some ([], bs)
  | n + 1, key :: len :: rest =>
    if rest.length < len then none
    else
      match decodeFlags n (rest.drop len) with
      | some (fs, r) => some ((key, rest.take len) :: fs, r)
      | none => none
  | _ + 1, _ => none

/-- Decodes a whole buffer by the layout: length prefix (which must equal the
size of the buffer), duration, type, targets, flags, and nothing after. -/
def decodeAttack (bs : List Nat) : Option Attack :=
  match bs with
  | l1 :: l0 :: d0 :: d1 :: d2 :: d3 :: ty :: n :: rest =>
    if l1 * 256 + l0 ≠ bs.length then none
    else
      match decodeTargets n rest with
      | some (ts, m :: rest2) =>
        match decodeFlags m rest2 with
        | some (fs, []) => some ⟨Uint32 d0 d1 d2 d3, ty, ts, fs⟩
        | _ => none
      | _ => none
  | _ => none

/-! ## Library functions called by `NewAttack`

These come from the Go standard library and from `github.com/mattn/go-shellwords`;
they are modelled from their documented behaviour on a 64-bit platform. -/

/-- The function `runtime.decoderune` at the start of a non-empty text: the rune
and the number of bytes it takes.  A byte below 0x80 is its own rune; a
well-formed sequence of two, three or four bytes (not over-long, not a surrogate,
at most U+10FFFF) yields its code point; anything else yields U+FFFD and a width
of one byte. -/
def decoderune (s : List Nat) : Nat × Nat :=
  match s with
  | [] => (0xFFFD, 1)
  | b0 :: rest =>
    if b0 < 0x80 then (b0, 1)
    else if 0xC0 ≤ b0 ∧ b0 < 0xE0 then
      match rest with
      | b1 :: _ =>
        if 0x80 ≤ b1 ∧ b1 ≤ 0xBF ∧ 0x7F < b0 % 32 * 64 + b1 % 64 then
          (b0 % 32 * 64 + b1 % 64, 2)
        else (0xFFFD, 1)
      | [] => (0xFFFD, 1)
    else if 0xE0 ≤ b0 ∧ b0 < 0xF0 then
      match rest with
      | b1 :: b2 :: _ =>
        if 0x80 ≤ b1 ∧ b1 ≤ 0xBF ∧ 0x80 ≤ b2 ∧ b2 ≤ 0xBF
            ∧ 0x7FF < b0 % 16 * 4096 + b1 % 64 * 64 + b2 % 64
            ∧ ¬ (0xD800 ≤ b0 % 16 * 4096 + b1 % 64 * 64 + b2 % 64
                  ∧ b0 % 16 * 4096 + b1 % 64 * 64 + b2 % 64 ≤ 0xDFFF) then
          (b0 % 16 * 4096 + b1 % 64 * 64 + b2 % 64, 3)
        else (0xFFFD, 1)
      | _ => (0xFFFD, 1)
    else if 0xF0 ≤ b0 ∧ b0 < 0xF8 then
      match rest with
      | b1 :: b2 :: b3 :: _ =>
        if 0x80 ≤ b1 ∧ b1 ≤ 0xBF ∧ 0x80 ≤ b2 ∧ b2 ≤ 0xBF ∧ 0x80 ≤ b3 ∧ b3 ≤ 0xBF
            ∧ 0xFFFF < b0 % 8 * 262144 + b1 % 64 * 4096 + b2 % 64 * 64 + b3 % 64
            ∧ b0 % 8 * 262144 + b1 % 64 * 4096 + b2 % 64 * 64 + b3 % 64 ≤ 0x10FFFF then
          (b0 % 8 * 262144 + b1 % 64 * 4096 + b2 % 64 * 64 + b3 % 64, 4)
        else (0xFFFD, 1)
      | _ => (0xFFFD, 1)
    else (0xFFFD, 1)

/-- The loop `for _, r := range s`, run for at most `fuel` runes. -/
def decodeRunesAux : Nat → List Nat → List Nat
  | 0, _ => []
  | fuel + 1, s =>
    match s with
    | [] => []
    | _ :: _ => (decoderune s).1 :: decodeRunesAux fuel (s.drop (decoderune s).2)

/-- The runes a `for _, r := range s` loop yields.  Each rune takes at least one
byte, so the length of the text bounds their number. -/
def decodeRunes (s : List Nat) : List Nat :=
  decodeRunesAux s.length s

/-- The string built by appending `string(r)` for each rune of a list. -/
def encodeRunes (rs : List Nat) : List Nat :=
  (rs.map encodeRune).flatten

/-! ### `shellwords.Parse`

The default parser of go-shellwords (`ParseEnv` and `ParseBacktick` both false),
release 1.0.12.  The variables `i`, `pos` and `backtick` of the library only feed
`Parser.Position` and the backtick expansion, which `NewAttack` does not use, and
are left out; `argSingle` and `argQuoted` differ only when `ParseEnv` is set, so
`got` records whether an argument has been started. -/

/-- The local variables of `Parser.Parse`; `buf` is kept as a list of runes. -/
structure ParserState where
  args : List (List Nat)
  buf : List Nat
  escaped : Bool
  doubleQuoted : Bool
  singleQuoted : Bool
  backQuote : Bool
  dollarQuote : Bool
  got : Bool
  deriving DecidableEq, Repr

/-- How one pass through the body of the loop of `Parser.Parse` ends. -/
inductive LoopStep where
  | next (st : ParserState)
  | stop (st : ParserState)
  | fail
  deriving DecidableEq, Repr

/-- The function `isSpace` of go-shellwords. -/
def isSpace (r : Nat) : Bool :=
  r = 32 || r = 9 || r = 13 || r = 10

/-- The test `len(buf) > 0` and `'0' <= buf[0] && buf[0] <= '9'`. -/
def startsWithDigit : List Nat → Bool
  | c :: _ => 48 ≤ c && c ≤ 57
  | [] => false

/-- The statements after the `switch`: the rune joins the current argument. -/
def appendRune (st : ParserState) (r : Nat) : LoopStep :=
  .next { st with got := true, buf := st.buf ++ [r] }

/-- The body of the loop of `Parser.Parse` for the rune `r`. -/
def parseStep (st : ParserState) (r : Nat) : LoopStep :=
  if st.escaped then
    .next { st with buf := st.buf ++ [r], escaped := false, got := true }
  else if r = 92 then
    if st.singleQuoted then .next { st with buf := st.buf ++ [r] }
    else .next { st with escaped := true }
  else if isSpace r then
    if st.singleQuoted || st.doubleQuoted || st.backQuote || st.dollarQuote then
      .next { st with buf := st.buf ++ [r] }
    else if st.got then
      .next { st with args := st.args ++ [encodeRunes st.buf], buf := [], got := false }
    else .next st
  else if r = 96 then
    if !st.singleQuoted && !st.doubleQuoted && !st.dollarQuote then
      appendRune { st with backQuote := !st.backQuote } r
    else appendRune st r
  else if r = 41 then
    if !st.singleQuoted && !st.doubleQuoted && !st.backQuote then
      appendRune { st with dollarQuote := !st.dollarQuote } r
    else appendRune st r
  else if r = 40 then
    if !st.singleQuoted && !st.doubleQuoted && !st.backQuote then
      if !st.dollarQuote && st.buf.getLast? = some 36 then
        .next { st with dollarQuote := true, buf := st.buf ++ [40] }
      else .fail
    else appendRune st r
  else if r = 34 then
    if !st.singleQuoted && !st.dollarQuote then
      .next { st with got := st.doubleQuoted || st.got, doubleQuoted := !st.doubleQuoted }
    else appendRune st r
  else if r = 39 then
    if !st.doubleQuoted && !st.dollarQuote then
      .next { st with got := st.singleQuoted || st.got, singleQuoted := !st.singleQuoted }
    else appendRune st r
  else if r = 59 ∨ r = 38 ∨ r = 124 ∨ r = 60 ∨ r = 62 then
    if !(st.escaped || st.singleQuoted || st.doubleQuoted || st.backQuote || st.dollarQuote) then
      if r = 62 ∧ startsWithDigit st.buf then
        .stop { st with got := false }
      else .stop st
    else appendRune st r
  else appendRune st r

/-- The loop of `Parser.Parse` over the runes of the line; `none` is the return
of an error from inside the loop. -/
def parseLoop : List Nat → ParserState → Option ParserState
  | [], st => some st
  | r :: rest, st =>
    match parseStep st r with
    | .next st' => parseLoop rest st'
    | .stop st' => some st'
    | .fail => none

/-- The function `shellwords.Parse`: the arguments of the line, or `none` where
the library returns an error (an unclosed quote, a dangling backslash, a stray
parenthesis). -/
def shellwordsParse (line : List Nat) : Option (List (List Nat)) :=
  match parseLoop (decodeRunes line) ⟨[], [], false, false, false, false, false, false⟩ with
  | none => none
  | some st =>
    let args := if st.got then st.args ++ [encodeRunes st.buf] else st.args
    if st.escaped || st.singleQuoted || st.doubleQuoted || st.backQuote || st.dollarQuote then
      none
    else some args

/-! ### `strings.Split`, `strings.SplitN`, `strconv.Atoi` -/

/-- The call `strings.Split(s, sep)` for a separator of one byte: the pieces
between the separators, one more than there are separators. -/
def Split : List Nat → Nat → List (List Nat)
  | [], _ => [[]]
  | c :: rest, sep =>
    if c = sep then [] :: Split rest sep
    else
      match Split rest sep with
      | [] => [[c]]
      | piece :: pieces => (c :: piece) :: pieces

/-- The call `strings.SplitN(s, sep, 2)` for a separator of one byte: `[s]` when
the separator does not occur, else the text before and the text after its first
occurrence. -/
def SplitN2 : List Nat → Nat → List (List Nat)
  | [], _ => [[]]
  | c :: rest, sep =>
    if c = sep then [[], rest]
    else
      match SplitN2 rest sep with
      | [before, after] => [c :: before, after]
      | _ => [c :: rest]

/-- Value of a run of decimal digits. -/
def digitsValue (ds : List Nat) : Nat :=
  ds.foldl (fun n c => n * 10 + (c - 48)) 0

/-- The call `strconv.Atoi(s)` with a 64-bit `int`; `none` stands for a non-nil
error.  The text is an optional sign followed by at least one decimal digit, and
the value must fit in 64 bits. -/
def Atoi (s : List Nat) : Option Int :=
  let neg : Bool := match s with
    | 45 :: _ => true
    | _ => false
  let ds : List Nat := match s with
    | 43 :: r => r
    | 45 :: r => r
    | _ => s
  if ds = [] ∨ ¬ (ds.all (fun c => 48 ≤ c ∧ c ≤ 57)) then none
  else if neg then
    if digitsValue ds ≤ 2 ^ 63 then some (-(digitsValue ds : Int)) else none
  else
    if digitsValue ds < 2 ^ 63 then some (digitsValue ds : Int) else none

/-! ### `net.ParseIP`

`net.ParseIP(s)` is `netip.ParseAddr(s)` restricted to addresses without a zone,
returned in the 16-byte form (`As16`).  `none` stands for the nil result.  An
octet written with a leading zero is refused, as the library has done since Go
1.17. -/

/-- The loop of `netip.parseIPv4Fields` over the bytes still to read: `prev` is the
byte before the current one (`none` at the start), `val`, `pos` and `digLen` are
the variables of the library, `fields` the octets stored so far. -/
def parseIPv4Fields : List Nat → Option Nat → Nat → Nat → Nat → List Nat → Option (List Nat)
  | [], _, val, pos, _, fields =>
    if pos < 3 then none else some (fields ++ [val])
  | c :: rest, prev, val, pos, digLen, fields =>
    if 48 ≤ c ∧ c ≤ 57 then
      if digLen = 1 ∧ val = 0 then none
      else if val * 10 + (c - 48) > 255 then none
      else parseIPv4Fields rest (some c) (val * 10 + (c - 48)) pos (digLen + 1) fields
    else if c = 46 then
      if prev = none ∨ rest = [] ∨ prev = some 46 then none
      else if pos = 3 then none
      else parseIPv4Fields rest (some c) 0 (pos + 1) 0 (fields ++ [val])
    else none

/-- Value of a hexadecimal digit. -/
def hexValue (c : Nat) : Option Nat :=
  if 48 ≤ c ∧ c ≤ 57 then some (c - 48)
  else if 97 ≤ c ∧ c ≤ 102 then some (c - 97 + 10)
  else if 65 ≤ c ∧ c ≤ 70 then some (c - 65 + 10)
  else none

/-- The inner loop of `netip.parseIPv6` reading one group of hexadecimal digits:
the number of digits read, their value and the unread rest; `none` for a group of
more than four digits. -/
def hexGroup : List Nat → Nat → Nat → Option (Nat × Nat × List Nat)
  | [], off, acc => some (off, acc, [])
  | c :: rest, off, acc =>
    match hexValue c with
    | none => some (off, acc, c :: rest)
    | some d =>
      if off > 3 then none
      else if acc * 16 + d > 65535 then none
      else hexGroup rest (off + 1) (acc * 16 + d)

/-- The outer loop of `netip.parseIPv6` (`for i < 16`); the index `i` is the length
of `ip`, `ellipsis` the place of a `::` seen so far.  It returns the unread text,
the bytes and the ellipsis at the exit of the loop.  Each pass adds two bytes, so
eight passes are enough. -/
def parseIPv6Loop : Nat → List Nat → List Nat → Option Nat →
    Option (List Nat × List Nat × Option Nat)
  | 0, s, ip, ellipsis => some (s, ip, ellipsis)
  | fuel + 1, s, ip, ellipsis =>
    if 16 ≤ ip.length then some (s, ip, ellipsis)
    else
      match hexGroup s 0 0 with
      | none => none
      | some (off, acc, rest) =>
        if off = 0 then none
        else if rest.head? = some 46 then
          if ellipsis = none ∧ ip.length ≠ 12 then none
          else if ip.length + 4 > 16 then none
          else
            match parseIPv4Fields s none 0 0 0 [] with
            | none => none
            | some fields => some ([], ip ++ fields, ellipsis)
        else
          match rest with
          | [] => some ([], ip ++ [acc / 256, acc % 256], ellipsis)
          | c :: rest1 =>
            if c ≠ 58 then none
            else
              match rest1 with
              | [] => none
              | 58 :: rest2 =>
                if ellipsis ≠ none then none
                else if rest2 = [] then
                  some ([], ip ++ [acc / 256, acc % 256], some (ip.length + 2))
                else
                  parseIPv6Loop fuel rest2 (ip ++ [acc / 256, acc % 256]) (some (ip.length + 2))
              | _ :: _ => parseIPv6Loop fuel rest1 (ip ++ [acc / 256, acc % 256]) ellipsis

/-- The function `netip.parseIPv6` as `net.ParseIP` uses it.  A text with a `%`
either fails to parse or carries a zone, and `net.ParseIP` returns nil on both. -/
def parseIPv6 (s : List Nat) : Option (List Nat) :=
  if 37 ∈ s then none
  else
    let ellipsis : Option Nat := match s with
      | 58 :: 58 :: _ => some 0
      | _ => none
    let s : List Nat := match s with
      | 58 :: 58 :: rest => rest
      | _ => s
    if ellipsis ≠ none ∧ s = [] then some (List.replicate 16 0)
    else
      match parseIPv6Loop 8 s [] ellipsis with
      | none => none
      | some (s, ip, ellipsis) =>
        if s ≠ [] then none
        else if ip.length < 16 then
          match ellipsis with
          | none => none
          | some e => some (ip.take e ++ List.replicate (16 - ip.length) 0 ++ ip.drop e)
        else if ellipsis ≠ none then none
        else some ip

/-- The first of the bytes `.`, `:` and `%` in the text, which decides how
`netip.ParseAddr` reads it. -/
def firstSeparator : List Nat → Option Nat
  | [] => none
  | c :: rest => if c = 46 ∨ c = 58 ∨ c = 37 then some c else firstSeparator rest

/-- The function `net.ParseIP`: the 16 bytes of the address; an IPv4 address is
returned in its IPv4-in-IPv6 form, whose last four bytes are the IPv4 octets. -/
def ParseIP (s : List Nat) : Option (List Nat) :=
  match firstSeparator s with
  | some 46 =>
    match parseIPv4Fields s none 0 0 0 [] with
    | none => none
    | some fields => some ([0, 0, 0, 0, 0, 0, 0, 0, 0, 0, 255, 255] ++ fields)
  | some 58 => parseIPv6 s
  | _ => none

/-! ## Catalogs (`listen.go` lines 31-200)

The two maps of the source, as lists in the order the source writes them. -/

/-- The map `flagInfoLookup`. -/
def flagInfoLookup : List (List Nat × FlagInfo) :=
  [ (goStr "len", ⟨0, goStr "Size of packet data, default is 512 bytes"⟩),
    (goStr "rand", ⟨1, goStr "Randomize packet data content, default is 1 (yes)"⟩),
    (goStr "tos", ⟨2, goStr "TOS field value in IP header, default is 0"⟩),
    (goStr "ident", ⟨3, goStr "ID field value in IP header, default is random"⟩),
    (goStr "ttl", ⟨4, goStr "TTL field in IP header, default is 255"⟩),
    (goStr "df", ⟨5, goStr "Set the Dont-Fragment bit in IP header, default is 0 (no)"⟩),
    (goStr "sport", ⟨6, goStr "Source port, default is random"⟩),
    (goStr "dport", ⟨7, goStr "Destination port, default is random"⟩),
    (goStr "domain", ⟨8, goStr "Domain name to attack"⟩),
    (goStr "dhid", ⟨9, goStr "Domain name transaction ID, default is random"⟩),
    (goStr "urg", ⟨11, goStr "Set the URG bit in IP header, default is 0 (no)"⟩),
    (goStr "ack",
      ⟨12, goStr "Set the ACK bit in IP header, default is 0 (no) except for ACK flood"⟩),
    (goStr "psh", ⟨13, goStr "Set the PSH bit in IP header, default is 0 (no)"⟩),
    (goStr "rst", ⟨14, goStr "Set the RST bit in IP header, default is 0 (no)"⟩),
    (goStr "syn",
      ⟨15, goStr "Set the ACK bit in IP header, default is 0 (no) except for SYN flood"⟩),
    (goStr "fin", ⟨16, goStr "Set the FIN bit in IP header, default is 0 (no)"⟩),
    (goStr "seqnum", ⟨17, goStr "Sequence number value in TCP header, default is random"⟩),
    (goStr "acknum", ⟨18, goStr "Ack number value in TCP header, default is random"⟩),
    (goStr "gcip", ⟨19, goStr "Set internal IP to destination ip, default is 0 (no)"⟩),
    (goStr "method", ⟨20, goStr "HTTP method name, default is get"⟩),
    (goStr "postdata", ⟨21, goStr "POST data, default is empty/none"⟩),
    (goStr "path", ⟨22, goStr "HTTP path, default is /"⟩),
    (goStr "ssl", ⟨23, goStr "Use HTTPS/SSL"⟩),
    (goStr "conns", ⟨24, goStr "Number of connections"⟩),
    (goStr "source", ⟨25, goStr "Source IP address, 255.255.255.255 for random"⟩) ]

/-- The map `attackInfoLookup`. -/
def attackInfoLookup : List (List Nat × AttackInfo) :=
  [ (goStr "udpflood", ⟨0, [2, 3, 4, 0, 1, 5, 6, 7, 25], goStr "UDP flood"⟩),
    (goStr "vseflood", ⟨1, [2, 3, 4, 5, 6, 7], goStr "Valve source engine specific flood"⟩),
    (goStr "synflood",
      ⟨2, [2, 3, 4, 5, 6, 7, 11, 12, 13, 14, 15, 16, 17, 18, 25], goStr "SYN Flood"⟩),
    (goStr "ackflood",
      ⟨3, [0, 1, 2, 3, 4, 5, 6, 7, 11, 12, 13, 14, 15, 16, 17, 18, 25], goStr "ACK Flood"⟩),
    (goStr "greip", ⟨5, [0, 1, 2, 3, 4, 5, 6, 7, 19, 25], goStr "GRE IP Flood"⟩),
    (goStr "greeth", ⟨6, [0, 1, 2, 3, 4, 5, 6, 7, 19, 25], goStr "GRE Ethernet Flood"⟩),
    (goStr "plainflood",
      ⟨7, [0, 1, 7], goStr "UDP Flood With Less Options. Optimized For Higher PPS"⟩),
    (goStr "hexflood", ⟨8, [0, 6, 7], goStr "STDHEX UDP Flood"⟩),
    (goStr "syndataflood",
      ⟨9, [0, 1, 2, 3, 4, 5, 6, 7, 11, 12, 13, 14, 15, 16, 17, 18, 25],
        goStr "SYN Data Flood"⟩),
    (goStr "wraflood",
      ⟨10, [2, 3, 4, 5, 6, 7, 11, 12, 13, 14, 15, 16, 17, 18, 25],
        goStr "TCP WRA Flood With Data"⟩),
    (goStr "icmpflood", ⟨11, [0], goStr "ICMP Echo Flood"⟩),
    (goStr "tcpbypass",
      ⟨12, [0, 2, 3, 4, 5, 6, 7, 11, 12, 13, 14, 15, 16, 17, 18, 19, 25], goStr "SYN Flood"⟩),
    (goStr "updateproc", ⟨96, [2, 3, 4, 0, 1, 5, 6, 7, 25], goStr "Update Processes"⟩) ]

/-- Map access `m[key]` with the comma-ok form: the value, or `none` when the key
is absent. -/
def mapGet {κ ν : Type} [DecidableEq κ] : List (κ × ν) → κ → Option ν
  | [], _ => none
  | (k, v) :: rest, key => if k = key then some v else mapGet rest key

/-- The function `uint8InSlice`. -/
def uint8InSlice (a : Nat) : List Nat → Bool
  | [] => false
  | b :: list => if b = a then true else uint8InSlice a list

/-! ## Command parser (`NewAttack`, lines 211-329) -/

/-- The message built by the loop of lines 222-224, one line for each attack of
the catalog (in the order of the list; the source visits the map in an order Go
does not fix). -/
def validCmdList : List (List Nat × AttackInfo) → List Nat
  | [] => []
  | (cmdName, atkInfo) :: rest =>
    cmdName ++ goStr ": " ++ atkInfo.attackDescription ++ goStr "\r\n" ++ validCmdList rest

/-- The inner loop of lines 293-298: the line of the first flag of the catalog
whose id is `flagID`, or nothing when there is none. -/
def flagHelpLine (flagID : Nat) : List (List Nat × FlagInfo) → List Nat
  | [] => []
  | (flagName, flagInfo) :: rest =>
    if flagID = flagInfo.flagID then
      flagName ++ goStr ": " ++ flagInfo.flagDescription ++ goStr "\r\n"
    else flagHelpLine flagID rest

/-- The outer loop of lines 292-299 over the flag ids an attack allows. -/
def validFlags : List Nat → List Nat
  | [] => []
  | flagID :: rest => flagHelpLine flagID flagInfoLookup ++ validFlags rest

/-- The conversion `uint8(n)` of an `int`. -/
def toUint8 (n : Int) : Nat := (n % 256).toNat

/-- The conversion `uint32(n)` of an `int`. -/
def toUint32 (n : Int) : Nat := (n % 4294967296).toNat

/-- The big-endian 32-bit value `binary.BigEndian.Uint32(ip[12:])` of the last four
of the sixteen bytes of an address. -/
def lastFour (ip : List Nat) : Nat :=
  Uint32 (ip.getD 12 0) (ip.getD 13 0) (ip.getD 14 0) (ip.getD 15 0)

/-- The loop of lines 247-270 over the comma-separated targets, adding to the map
`targets`.  The variable `netmask` holds 32 when the test of line 257 reads it,
the parsed value being assigned only on line 260. -/
def targetLoop : List (List Nat) → List (Nat × Nat) → Outcome (List (Nat × Nat))
  | [], targets => .ok targets
  | cidr :: rest, targets =>
    let netmask : Nat := 32
    let cidrInfo := Split cidr 47
    match cidrInfo with
    | [] => .error (goStr "Blank Target Specified!")
    | pfx :: more =>
      let step (netmask : Nat) : Outcome (List (Nat × Nat)) :=
        match ParseIP pfx with
        | none => .error (goStr "Failed To Parse IP address, Near " ++ cidr)
        | some ip => targetLoop rest (mapSet targets (lastFour ip) netmask)
      match more with
      | [] => step netmask
      | [mask] =>
        match Atoi mask with
        | none => .error (goStr "Invalid Netmask Was Supplied, Near " ++ cidr)
        | some netmaskTmp =>
          if netmask > 32 ∨ netmask < 0 then
            .error (goStr "Invalid Netmask Was Supplied, Near " ++ cidr)
          else step (toUint8 netmaskTmp)
      | _ :: _ :: _ => .error (goStr "Too Many /'s In Prefix, Near " ++ cidr)

/-- The loop of lines 289-323 over the flag arguments, adding to the map `flags`.
Indexing the value at 0 panics when it is empty, and slicing it from 1 to its
length minus 1 panics when it is a single byte. -/
def flagLoop (atkInfo : AttackInfo) (admin : Int) :
    List (List Nat) → List (Nat × List Nat) → Outcome (List (Nat × List Nat))
  | [], flags => .ok flags
  | arg :: rest, flags =>
    if arg = goStr "?" then
      .error (goStr ("\x1b[37;1mList Of Flags key=val Seperated By Spaces. " ++
          "Valid Flags For This Method Are\r\n\r\n")
        ++ validFlags atkInfo.attackFlags
        ++ goStr "\r\nValue Of 65535 For A Flag Denotes Random (for ports, etc)\r\n"
        ++ goStr "Ex: seq=0\r\nEx: sport=0 dport=65535")
    else
      match SplitN2 arg 61 with
      | [key, value] =>
        match mapGet flagInfoLookup key with
        | none => .error (goStr "Invalid Flag Key " ++ key ++ goStr ", Near " ++ arg)
        | some flagInfo =>
          if !uint8InSlice flagInfo.flagID atkInfo.attackFlags
              || (admin == 0 && flagInfo.flagID == 25) then
            .error (goStr "Invalid Flag Key " ++ key ++ goStr ", Near " ++ arg)
          else
            match value with
            | [] => .panic
            | first :: _ =>
              let store (value : List Nat) : Outcome (List (Nat × List Nat)) :=
                let value :=
                  if value = goStr "true" then goStr "1"
                  else if value = goStr "false" then goStr "0"
                  else value
                flagLoop atkInfo admin rest (mapSet flags flagInfo.flagID value)
              if first = 34 then
                if value.length - 1 < 1 then .panic
                else store ((value.take (value.length - 1)).drop 1)
              else store value
      | _ => .error (goStr "Invalid key=value Flag Combination Near " ++ arg)

/-- The body of `NewAttack` after the line has been split into `args`. -/
def NewAttackArgs (args : List (List Nat)) (admin : Int) : Outcome Attack :=
  match args with
  | [] => .error (goStr "Must Specify An Attack name")
  | name :: args =>
    if name = goStr "?" then
      .error (goStr "033[1;37mAvailable Method List\r\n\x1b[1;37m"
        ++ validCmdList attackInfoLookup)
    else
      match mapGet attackInfoLookup name with
      | none =>
        .error (goStr "\x1b[1;37m" ++ name ++ goStr " \x1b[31mIs Not A Valid Attack!")
      | some atkInfo =>
        match args with
        | [] => .error (goStr "Must Specify Prefix/Netmask As Targets")
        | targets :: args =>
          if targets = goStr "?" then
            .error (goStr ("\x1b[1;37mComma Delimited List Of Target Prefixes\r\n" ++
              "Ex: 192.168.0.1\r\nEx: 10.0.0.0/8\r\nEx: 8.8.8.8,127.0.0.0/29"))
          else if (Split targets 44).length > 255 then
            .error (goStr "Cannot Specify More Than 255 Targets In A Single Attack!")
          else
            match targetLoop (Split targets 44) [] with
            | .error msg => .error msg
            | .panic => .panic
            | .ok atkTargets =>
              match args with
              | [] => .error (goStr "Must Specify An Attack Duration")
              | durationArg :: args =>
                if durationArg = goStr "?" then
                  .error (goStr "\x1b[37;1mDuration Of The Attack, In Seconds")
                else
                  match Atoi durationArg with
                  | none =>
                    .error (goStr "Invalid Attack Duration, Near " ++ durationArg
                      ++ goStr ". Duration Must Be Between 0 And 86400 Seconds")
                  | some duration =>
                    if duration = 0 ∨ duration > 86400 then
                      .error (goStr "Invalid Attack Duration, Near " ++ durationArg
                        ++ goStr ". Duration Must Be Between 0 And 86400 Seconds")
                    else
                      match flagLoop atkInfo admin args [] with
                      | .error msg => .error msg
                      | .panic => .panic
                      | .ok atkFlags =>
                        if atkFlags.length > 255 then
                          .error (goStr "Cannot Have More Than 255 Flags")
                        else
                          .ok ⟨toUint32 duration, atkInfo.attackID, atkTargets, atkFlags⟩

/-- The function `NewAttack`.  The error of `shellwords.Parse` is discarded
(`args, _ :=`), so a line the library refuses leaves `args` empty. -/
def NewAttack (str : List Nat) (admin : Int) : Outcome Attack :=
  NewAttackArgs ((shellwordsParse str).getD []) admin

/-! ## Vocabulary for stating the claims about lines -/

/-- Worker of `decimal`: the digits of `n`, most significant first, in front of
`acc`. -/
def decimalAux : Nat → Nat → List Nat → List Nat
  | 0, _, acc => acc
  | fuel + 1, n, acc =>
    if n < 10 then (48 + n) :: acc
    else decimalAux fuel (n / 10) ((48 + n % 10) :: acc)

/-- The plain decimal text of a number, without sign and without leading zero. -/
def decimal (n : Nat) : List Nat :=
  decimalAux (n + 1) n []

/-- What makes `ds` the plain decimal text of `n`. -/
def IsDecimalOf (n : Nat) (ds : List Nat) : Prop :=
  ds ≠ [] ∧ (∀ c ∈ ds, 48 ≤ c ∧ c ≤ 57) ∧ digitsValue ds = n ∧
    (ds.head? = some 48 → ds = [48])

/-- The dotted-decimal text `a.b.c.d`. -/
def dotted (a b c d : Nat) : List Nat :=
  decimal a ++ [46] ++ decimal b ++ [46] ++ decimal c ++ [46] ++ decimal d

/-- The runes `shellwords.Parse` treats specially: backslash, backtick, the two
parentheses, the two quotes, and `;`, `&`, `|`, `<`, `>`. -/
def specialRune (r : Nat) : Bool :=
  r = 92 || r = 96 || r = 41 || r = 40 || r = 34 || r = 39 || r = 59 || r = 38 ||
    r = 124 || r = 60 || r = 62

/-- A rune that `shellwords.Parse` copies into the current argument: neither white
space nor special. -/
def plainRune (r : Nat) : Bool :=
  !isSpace r && !specialRune r

/-- A text of ASCII bytes that are all plain. -/
def PlainAscii (w : List Nat) : Prop :=
  ∀ b ∈ w, b < 128 ∧ plainRune b = true

/-- A text that is well-formed UTF-8 (decoding and encoding again gives it back)
and whose runes are all plain. -/
def PlainText (w : List Nat) : Prop :=
  encodeRunes (decodeRunes w) = w ∧ ∀ r ∈ decodeRunes w, plainRune r = true

instance (w : List Nat) : Decidable (PlainAscii w) := by
  unfold PlainAscii; infer_instance

instance (w : List Nat) : Decidable (PlainText w) := by
  unfold PlainText; infer_instance

/-- The line made of the given words, each followed by one space, and of a last
word. -/
def lineOf (ws : List (List Nat)) (last : List Nat) : List Nat :=
  (ws.map (fun w => w ++ [32])).flatten ++ last

/-- The value `flagLoop` stores for an accepted argument whose text after the
first `=` is `value`, when it does not panic. -/
def storedValue (value : List Nat) : List Nat :=
  let value := if value.head? = some 34 then (value.take (value.length - 1)).drop 1 else value
  if value = goStr "true" then goStr "1"
  else if value = goStr "false" then goStr "0"
  else value

/-- The stored value as claim C10 words it: the text between the quotes when the
value begins and ends with a double quote; `1` for `true` and `0` for `false`;
the value itself in every other case. -/
def claimedValue (value : List Nat) : List Nat :=
  if value.head? = some 34 ∧ value.getLast? = some 34 then (value.drop 1).dropLast
  else if value = goStr "true" then goStr "1"
  else if value = goStr "false" then goStr "0"
  else value

/-- The stored value as the amended claim C10 words it: `u` is the text between
the quotes when the value, of at least two bytes, begins and ends with a double
quote, and the value itself otherwise; what is stored is `1` when `u` is `true`,
`0` when `u` is `false`, and `u` in every other case. -/
def normalisedValue (value : List Nat) : List Nat :=
  let u :=
    if value.head? = some 34 ∧ value.getLast? = some 34 ∧ 2 ≤ value.length then
      (value.drop 1).dropLast
    else value
  if u = goStr "true" then goStr "1"
  else if u = goStr "false" then goStr "0"
  else u

/-! ## Sample attacks at the size limit of the encoder -/

/-- An Attack of one target and sixteen flags (ids allowed for `ackflood`) whose
encoding has a body of exactly 4096 bytes: 7 + 5 + 15 * 257 + 229. -/
def bodyOf4096 : Attack :=
  ⟨60, 3, [(0x08080808, 32)],
    ([0, 1, 2, 3, 4, 5, 6, 7, 11, 12, 13, 14, 15, 16, 17].map
      (fun k => (k, List.replicate 255 97))) ++ [(18, List.replicate 227 97)]⟩

/-- The same Attack with one more byte in the last flag value: a body of 4097
bytes. -/
def bodyOf4097 : Attack :=
  ⟨60, 3, [(0x08080808, 32)],
    ([0, 1, 2, 3, 4, 5, 6, 7, 11, 12, 13, 14, 15, 16, 17].map
      (fun k => (k, List.replicate 255 97))) ++ [(18, List.replicate 228 97)]⟩

/-! ## Vocabulary for stating the claims about targets -/

/-- A target sub-token as the claims describe it: a dotted-decimal address
`a.b.c.d`, bare or followed by `/` and a netmask. -/
structure Cidr where
  a : Nat
  b : Nat
  c : Nat
  d : Nat
  mask : Option Nat
  deriving DecidableEq, Repr

/-- The text of a sub-token. -/
def Cidr.text (t : Cidr) : List Nat :=
  dotted t.a t.b t.c t.d ++
    match t.mask with
    | none => []
    | some m => 47 :: decimal m

/-- The address of a sub-token as a big-endian 32-bit integer. -/
def Cidr.address (t : Cidr) : Nat :=
  Uint32 t.a t.b t.c t.d

/-- The netmask of a sub-token, a bare address counting as 32. -/
def Cidr.netmask (t : Cidr) : Nat :=
  t.mask.getD 32

/-- The octets are at most 255 and the netmask, when present, at most 32. -/
def Cidr.Valid (t : Cidr) : Prop :=
  t.a ≤ 255 ∧ t.b ≤ 255 ∧ t.c ≤ 255 ∧ t.d ≤ 255 ∧ t.netmask ≤ 32

instance (t : Cidr) : Decidable t.Valid := by
  unfold Cidr.Valid; infer_instance

/-- The texts joined by commas. -/
def joinCommas : List (List Nat) → List Nat
  | [] => []
  | [w] => w
  | w :: rest => w ++ 44 :: joinCommas rest

/-- The map obtained by assigning the sub-tokens one after the other. -/
def targetMap (ts : List Cidr) : List (Nat × Nat) :=
  ts.foldl (fun m t => mapSet m t.address t.netmask) []

/-- The netmask of the last sub-token of the list whose address is `k`. -/
def lastNetmask : List Cidr → Nat → Option Nat
  | [], _ => none
  | t :: rest, k =>
    match lastNetmask rest k with
    | some m => some m
    | none => if t.address = k then some t.netmask else none

/-! ## Line reader (`ReadLine`, lines 382-427) and `attackSender` (lines 429-451)

A connection is the list of bytes it still has to deliver and the list of bytes
written to it.  A read of one byte returns the next byte of the stream, or the
error `io.EOF` when the stream holds none.  A read of two bytes can return fewer
than it asks for with a nil error, as `net.Conn` allows: it returns one byte when
the stream holds one only, and also when the second byte has not arrived yet.
The arrival of the bytes in pieces is the parameter `short` of the reader:
`short bs` tells whether, when the bytes `bs` are the ones still to be delivered,
a read of two bytes returns the first of them alone.  Two places of a stream have
different remainders, so that `short` can describe every way in which a stream
is cut into pieces. -/

/-- The state of a `net.Conn` as `ReadLine` sees it. -/
structure Conn where
  input : List Nat
  output : List Nat
  deriving DecidableEq, Repr

/-- What `ReadLine` does: it returns a string and an error, `failed` telling
whether the error is non-nil, or it panics on an index or a slice out of the range
of its buffer. -/
inductive ReadResult where
  | returned (line : List Nat) (failed : Bool)
  | panic
  deriving DecidableEq, Repr

/-- The loop of `ReadLine` on the bytes `input` still to arrive, with the buffer
`buf`, the position `bufPos` and the bytes `output` written so far.  The slice
expressions `buf[bufPos:bufPos+1]` and `buf[bufPos:bufPos+2]` and the index
expression `buf[bufPos]` after `bufPos++` panic outside the 1024 bytes of the
buffer.  After a byte 0xFF the read of two bytes (line 392) returns `io.EOF` on
an empty stream; it returns one byte with a nil error when the stream holds one
byte or when `short` says that the second has not arrived, and line 394 then
returns the empty string with that nil error, the byte read being consumed. -/
def ReadLine.loop (masked : Bool) (short : List Nat → Bool) :
    List Nat → List Nat → Int → List Nat → ReadResult × Conn
  | [], _, bufPos, output =>
    if bufPos < 0 ∨ 1024 < bufPos + 1 then (.panic, ⟨[], output⟩)
    else (.returned [] true, ⟨[], output⟩)
  | b :: rest, buf, bufPos, output =>
    if bufPos < 0 ∨ 1024 < bufPos + 1 then (.panic, ⟨b :: rest, output⟩)
    else if b = 255 then
      if 1024 < bufPos + 2 then (.panic, ⟨rest, output⟩)
      else
        match rest with
        | [] => (.returned [] true, ⟨[], output⟩)
        | [_] => (.returned [] false, ⟨[], output⟩)
        | x :: y :: rest2 =>
          if short (x :: y :: rest2) then (.returned [] false, ⟨y :: rest2, output⟩)
          else
            ReadLine.loop masked short rest2
              (((buf.set bufPos.toNat b).set bufPos.toNat x).set (bufPos.toNat + 1) y)
              (bufPos - 1 + 1) output
    else if b = 127 ∨ b = 8 then
      ReadLine.loop masked short rest (buf.set bufPos.toNat b)
        ((if bufPos > 0 then bufPos - 1 else bufPos) - 1 + 1) output
    else if b = 13 ∨ b = 9 then
      ReadLine.loop masked short rest (buf.set bufPos.toNat b) (bufPos - 1 + 1) output
    else if b = 10 ∨ b = 0 then
      (.returned ((buf.set bufPos.toNat b).take bufPos.toNat) false, ⟨rest, output⟩)
    else if b = 3 then
      (.returned [] false, ⟨rest, output⟩)
    else if b = 27 then
      if 1024 ≤ bufPos + 1 then (.panic, ⟨rest, output ++ [94]⟩)
      else
        ReadLine.loop masked short rest ((buf.set bufPos.toNat 94).set (bufPos.toNat + 1) 91)
          (bufPos + 1 + 1) (output ++ [94] ++ [91])
    else if masked then
      ReadLine.loop masked short rest (buf.set bufPos.toNat b) (bufPos + 1) (output ++ [42])
    else
      ReadLine.loop masked short rest (buf.set bufPos.toNat b) (bufPos + 1) output

/-- The function `ReadLine`: the loop started on a buffer of 1024 zero bytes at
position 0.  It returns its result and the connection as it leaves it. -/
def ReadLine (masked : Bool) (short : List Nat → Bool) (conn : Conn) : ReadResult × Conn :=
  ReadLine.loop masked short conn.input (List.replicate 1024 0) 0 conn.output

/-- What a run of `attackSender` leaves behind: the bytes written to the
connection, whether the deferred `conn.Close()` ran, and whether the goroutine
ended in a panic. -/
structure SenderOutcome where
  output : List Nat
  closed : Bool
  aborted : Bool
  deriving DecidableEq, Repr

/-- The function `attackSender`.  The deferred `conn.Close()` runs on every
path, a panic included.  When `Build` fails the source evaluates `err.Error()`
on the error of `NewAttack`, which is nil at that point: a nil dereference. -/
def attackSender (short : List Nat → Bool) (conn : Conn) : SenderOutcome :=
  match ReadLine false short conn with
  | (.panic, conn) => ⟨conn.output, true, true⟩
  | (.returned cmd failed, conn) =>
    if failed then ⟨conn.output, true, false⟩
    else
      match NewAttack cmd 1 with
      | .panic => ⟨conn.output, true, true⟩
      | .error _ => ⟨conn.output, true, false⟩
      | .ok atk =>
        match Build atk with
        | .panic => ⟨conn.output, true, true⟩
        | .error _ => ⟨conn.output, true, true⟩
        | .ok buf => ⟨conn.output ++ buf, true, false⟩

/-- One keystroke of the reference editor of claim C17 and of its companions: a
backspace (0x7F or 0x08) removes the last byte of the line if there is one, a
carriage return or a tab leaves the line as it is, any other byte is appended. -/
def editStep (acc : List Nat) (b : Nat) : List Nat :=
  if b = 127 ∨ b = 8 then acc.dropLast
  else if b = 13 ∨ b = 9 then acc
  else acc ++ [b]

/-- One keystroke of the reference fold of claim C17: a backspace removes the last
accumulated byte if there is one and does nothing on an empty line, any other
byte is appended. -/
def backspaceStep (acc : List Nat) (b : Nat) : List Nat :=
  if b = 127 ∨ b = 8 then acc.dropLast else acc ++ [b]

/-- A byte the loop of `ReadLine` treats as a keystroke of the editor: not 0xFF,
not a terminator, not 0x03, not ESC. -/
def Editable (b : Nat) : Prop :=
  b ≠ 255 ∧ b ≠ 10 ∧ b ≠ 0 ∧ b ≠ 3 ∧ b ≠ 27

instance (b : Nat) : Decidable (Editable b) := by
  unfold Editable; infer_instance

/-- An ordinary byte in the sense of claim C16: any byte other than 0x00, 0x03,
0x08, 0x09, 0x0A, 0x0D, 0x1B, 0x7F and 0xFF. -/
def Ordinary (b : Nat) : Prop :=
  b ≠ 0 ∧ b ≠ 3 ∧ b ≠ 8 ∧ b ≠ 9 ∧ b ≠ 10 ∧ b ≠ 13 ∧ b ≠ 27 ∧ b ≠ 127 ∧ b ≠ 255

instance (b : Nat) : Decidable (Ordinary b) := by
  unfold Ordinary; infer_instance

/-- Two buffers of the same size that hold the same first `n` bytes. -/
def AgreeTo (n : Nat) (l1 l2 : List Nat) : Prop :=
  l1.length = l2.length ∧ l1.take n = l2.take n

/-! ## Encoder: auxiliary facts -/

theorem buildTargets_eq (ts : List (Nat × Nat)) (buf : List Nat) :
    buildTargets ts buf = buf ++ targetBytes ts := by
  induction ts generalizing buf with
  | nil => simp [buildTargets, targetBytes]
  | cons t rest ih =>
    obtain ⟨p, m⟩ := t
    simp [buildTargets, ih, targetBytes]

theorem buildFlags_ok (fs : List (Nat × List Nat)) (buf out : List Nat)
    (h : buildFlags fs buf = .ok out) :
    (∀ f ∈ fs, f.2.length ≤ 255) ∧ out = buf ++ flagBytes fs := by
  induction fs generalizing buf with
  | nil =>
    simp [buildFlags] at h
    simp [flagBytes, h]
  | cons f rest ih =>
    obtain ⟨k, v⟩ := f
    simp only [buildFlags] at h
    split at h
    · cases h
    · rename_i hv
      have hv' : v.length ≤ 255 := by omega
      obtain ⟨h1, h2⟩ := ih _ h
      refine ⟨?_, ?_⟩
      · intro f hf
        rcases List.mem_cons.mp hf with rfl | hf
        · exact hv'
        · exact h1 f hf
      · rw [h2, Nat.mod_eq_of_lt (by omega)]
        simp [flagBytes]

theorem buildFlags_of_short (fs : List (Nat × List Nat)) (buf : List Nat)
    (h : ∀ f ∈ fs, f.2.length ≤ 255) :
    buildFlags fs buf = .ok (buf ++ flagBytes fs) := by
  induction fs generalizing buf with
  | nil => simp [buildFlags, flagBytes]
  | cons f rest ih =>
    obtain ⟨k, v⟩ := f
    have hv : v.length ≤ 255 := h (k, v) (List.mem_cons_self _ _)
    have hrest : ∀ f ∈ rest, f.2.length ≤ 255 := fun f hf => h f (List.mem_cons_of_mem _ hf)
    simp only [buildFlags]
    rw [if_neg (by omega), ih _ hrest, Nat.mod_eq_of_lt (by omega)]
    simp [flagBytes]

theorem buildFlags_never_panics (fs : List (Nat × List Nat)) (buf : List Nat) :
    buildFlags fs buf ≠ .panic := by
  induction fs generalizing buf with
  | nil => simp [buildFlags]
  | cons f rest ih =>
    obtain ⟨k, v⟩ := f
    simp only [buildFlags]
    split
    · simp
    · exact ih _

theorem targetBytes_cons (t : Nat × Nat) (ts : List (Nat × Nat)) :
    targetBytes (t :: ts) = PutUint32 t.1 ++ [t.2] ++ targetBytes ts := by
  simp [targetBytes]

theorem flagBytes_cons (f : Nat × List Nat) (fs : List (Nat × List Nat)) :
    flagBytes (f :: fs) = [f.1, f.2.length] ++ f.2 ++ flagBytes fs := by
  simp [flagBytes]

theorem targetBytes_length (ts : List (Nat × Nat)) :
    (targetBytes ts).length = 5 * ts.length := by
  induction ts with
  | nil => simp [targetBytes]
  | cons t rest ih =>
    rw [targetBytes_cons]
    simp only [List.length_append, ih, PutUint32, List.length_cons, List.length_nil]
    omega

theorem flagBytes_length (fs : List (Nat × List Nat)) :
    (flagBytes fs).length = (fs.map (fun f => 2 + f.2.length)).sum := by
  induction fs with
  | nil => simp [flagBytes]
  | cons f rest ih =>
    rw [flagBytes_cons]
    simp only [List.length_append, ih, List.length_cons, List.length_nil, List.map_cons,
      List.sum_cons, Nat.add_comm]

theorem bodyBytes_length (a : Attack) :
    (bodyBytes a).length
      = 7 + 5 * a.Targets.length + (a.Flags.map (fun f => 2 + f.2.length)).sum := by
  simp only [bodyBytes, PutUint32, List.length_append, List.length_cons, List.length_nil,
    targetBytes_length, flagBytes_length]
  omega

/-- When `Build` returns a buffer: no flag value is longer than 255 bytes, the
body is at most 4096 bytes, and the buffer is the prefix followed by the body. -/
theorem Build_ok (a : Attack) (out : List Nat) (h : Build a = .ok out) :
    (∀ f ∈ a.Flags, f.2.length ≤ 255) ∧ (bodyBytes a).length ≤ 4096 ∧
      out = PutUint16 ((bodyBytes a).length + 2) ++ bodyBytes a := by
  unfold Build at h
  simp only [buildTargets_eq] at h
  split at h
  · cases h
  · cases h
  · rename_i buf hb
    obtain ⟨h1, h2⟩ := buildFlags_ok _ _ _ hb
    have hbody : buf = bodyBytes a := by
      rw [h2]; simp [bodyBytes]
    subst hbody
    split at h
    · cases h
    · rename_i hl
      have hl' : (bodyBytes a).length ≤ 4096 := by omega
      refine ⟨h1, hl', ?_⟩
      cases h
      rw [Nat.mod_eq_of_lt (by omega)]

/-- Conversely `Build` returns that buffer whenever every flag value fits in 255
bytes and the body fits in 4096 bytes. -/
theorem Build_of_fits (a : Attack) (h1 : ∀ f ∈ a.Flags, f.2.length ≤ 255)
    (h2 : (bodyBytes a).length ≤ 4096) :
    Build a = .ok (PutUint16 ((bodyBytes a).length + 2) ++ bodyBytes a) := by
  unfold Build
  simp only [buildTargets_eq]
  rw [buildFlags_of_short _ _ h1]
  have hbody : PutUint32 a.Duration ++ [a.Typ] ++ [a.Targets.length % 256]
      ++ targetBytes a.Targets ++ [a.Flags.length % 256] ++ flagBytes a.Flags = bodyBytes a := by
    simp [bodyBytes]
  simp only [hbody]
  rw [if_neg (by omega), Nat.mod_eq_of_lt (by omega)]

/-! ## Encoder: decoding what `Build` wrote -/

theorem Uint32_PutUint32 (v : Nat) (h : v < 2 ^ 32) :
    Uint32 (v / 2 ^ 24 % 256) (v / 2 ^ 16 % 256) (v / 2 ^ 8 % 256) (v % 256) = v := by
  unfold Uint32
  omega

theorem decodeTargets_targetBytes (ts : List (Nat × Nat)) (rest : List Nat)
    (h : ∀ t ∈ ts, t.1 < 2 ^ 32) :
    decodeTargets ts.length (targetBytes ts ++ rest) = some (ts, rest) := by
  induction ts with
  | nil => simp [decodeTargets, targetBytes]
  | cons t tl ih =>
    obtain ⟨p, m⟩ := t
    have hp : p < 2 ^ 32 := h (p, m) (List.mem_cons_self _ _)
    have htl : ∀ t ∈ tl, t.1 < 2 ^ 32 := fun t ht => h t (List.mem_cons_of_mem _ ht)
    have e : targetBytes ((p, m) :: tl) ++ rest = p / 2 ^ 24 % 256 :: p / 2 ^ 16 % 256 ::
        p / 2 ^ 8 % 256 :: p % 256 :: m :: (targetBytes tl ++ rest) := by
      simp [targetBytes_cons, PutUint32]
    rw [e, List.length_cons, decodeTargets, ih htl, Uint32_PutUint32 p hp]

theorem decodeFlags_flagBytes (fs : List (Nat × List Nat)) (rest : List Nat) :
    decodeFlags fs.length (flagBytes fs ++ rest) = some (fs, rest) := by
  induction fs with
  | nil => simp [decodeFlags, flagBytes]
  | cons f tl ih =>
    obtain ⟨k, v⟩ := f
    have e : flagBytes ((k, v) :: tl) ++ rest = k :: v.length :: (v ++ (flagBytes tl ++ rest)) := by
      simp [flagBytes_cons]
    rw [e, List.length_cons, decodeFlags, if_neg (by simp), List.drop_left, ih, List.take_left]

theorem decodeAttack_Build (a : Attack) (out : List Nat) (hd : a.Duration < 2 ^ 32)
    (hk : ∀ t ∈ a.Targets, t.1 < 2 ^ 32) (hT : a.Targets.length ≤ 255)
    (hF : a.Flags.length ≤ 255) (h : Build a = .ok out) :
    decodeAttack out = some a := by
  obtain ⟨_, hlen, rfl⟩ := Build_ok a out h
  have hL : (PutUint16 ((bodyBytes a).length + 2) ++ bodyBytes a).length
      = (bodyBytes a).length + 2 := by
    simp [PutUint16]
  have hpre : ((bodyBytes a).length + 2) / 2 ^ 8 % 256 * 256 + ((bodyBytes a).length + 2) % 256
      = (bodyBytes a).length + 2 := by omega
  have hbody : bodyBytes a = a.Duration / 2 ^ 24 % 256 :: a.Duration / 2 ^ 16 % 256 ::
      a.Duration / 2 ^ 8 % 256 :: a.Duration % 256 :: a.Typ :: a.Targets.length ::
        (targetBytes a.Targets ++ (a.Flags.length :: flagBytes a.Flags)) := by
    simp [bodyBytes, PutUint32, Nat.mod_eq_of_lt (show a.Targets.length < 256 by omega),
      Nat.mod_eq_of_lt (show a.Flags.length < 256 by omega)]
  have hL2 : (((bodyBytes a).length + 2) / 2 ^ 8 % 256 :: ((bodyBytes a).length + 2) % 256 ::
      bodyBytes a).length = (bodyBytes a).length + 2 := by simp
  have hfl : decodeFlags a.Flags.length (flagBytes a.Flags) = some (a.Flags, []) := by
    have := decodeFlags_flagBytes a.Flags []
    simpa using this
  simp only [PutUint16, List.cons_append, List.nil_append]
  generalize hB : bodyBytes a = body at *
  subst hbody
  simp only [decodeAttack, hL2, hpre, ne_eq, not_true_eq_false, if_false,
    decodeTargets_targetBytes a.Targets _ hk, hfl, Uint32_PutUint32 a.Duration hd]

/-! ## Maps -/

theorem mem_mapSet {κ ν : Type} [DecidableEq κ] (m : List (κ × ν)) (k : κ) (v : ν)
    (p : κ × ν) (h : p ∈ mapSet m k v) : p = (k, v) ∨ p ∈ m := by
  induction m with
  | nil =>
    simp [mapSet] at h
    exact Or.inl h
  | cons e rest ih =>
    obtain ⟨k', v'⟩ := e
    simp only [mapSet] at h
    split at h
    · rcases List.mem_cons.mp h with h | h
      · exact Or.inl h
      · exact Or.inr (List.mem_cons_of_mem _ h)
    · rcases List.mem_cons.mp h with h | h
      · exact Or.inr (h ▸ List.mem_cons_self _ _)
      · rcases ih h with h | h
        · exact Or.inl h
        · exact Or.inr (List.mem_cons_of_mem _ h)

theorem mapGet_mapSet_self {κ ν : Type} [DecidableEq κ] (m : List (κ × ν)) (k : κ) (v : ν) :
    mapGet (mapSet m k v) k = some v := by
  induction m with
  | nil => simp [mapSet, mapGet]
  | cons e rest ih =>
    obtain ⟨k', v'⟩ := e
    simp only [mapSet]
    split
    · simp [mapGet]
    · rename_i hne
      simp [mapGet, hne, ih]

theorem mapGet_mapSet_ne {κ ν : Type} [DecidableEq κ] (m : List (κ × ν)) (k k' : κ) (v : ν)
    (h : k ≠ k') : mapGet (mapSet m k v) k' = mapGet m k' := by
  induction m with
  | nil => simp [mapSet, mapGet, h]
  | cons e rest ih =>
    obtain ⟨k₀, v₀⟩ := e
    simp only [mapSet]
    split
    · rename_i heq
      subst heq
      simp [mapGet, h]
    · simp [mapGet, ih]

/-! ## The flag loop -/

/-- One pass of `flagLoop` that does not stop: the argument is split at its first
`=` into a known, allowed key and a value, and the loop goes on with the map
updated. -/
theorem flagLoop_cons_ok (atkInfo : AttackInfo) (admin : Int) (arg : List Nat)
    (rest : List (List Nat)) (flags out : List (Nat × List Nat))
    (h : flagLoop atkInfo admin (arg :: rest) flags = .ok out) :
    ∃ key value flagInfo, SplitN2 arg 61 = [key, value] ∧ arg ≠ goStr "?" ∧
      mapGet flagInfoLookup key = some flagInfo ∧
      uint8InSlice flagInfo.flagID atkInfo.attackFlags = true ∧
      ¬ (admin = 0 ∧ flagInfo.flagID = 25) ∧ value ≠ [] ∧
      (value.head? = some 34 → 2 ≤ value.length) ∧
      flagLoop atkInfo admin rest (mapSet flags flagInfo.flagID (storedValue value)) = .ok out := by
  unfold flagLoop at h
  split at h
  · cases h
  · rename_i hq
    split at h
    · rename_i key value hsplit
      split at h
      · cases h
      · rename_i flagInfo hget
        split at h
        · cases h
        · rename_i hallowed
          simp only [Bool.or_eq_true, Bool.not_eq_true', Bool.and_eq_true, beq_iff_eq,
            not_or, Bool.not_eq_false, not_and] at hallowed
          split at h
          · cases h
          · rename_i first tl
            refine ⟨key, first :: tl, flagInfo, hsplit, hq, hget, hallowed.1, ?_, by simp, ?_, ?_⟩
            · rintro ⟨h0, h25⟩
              exact hallowed.2 h0 h25
            · intro hfirst
              simp only [List.head?_cons, Option.some.injEq] at hfirst
              subst hfirst
              simp only [if_true] at h
              split at h
              · cases h
              · rename_i hlen
                simp only [List.length_cons] at hlen ⊢
                omega
            · by_cases hfirst : first = 34
              · subst hfirst
                simp only [if_true] at h
                split at h
                · cases h
                · simpa [storedValue] using h
              · simp only [hfirst, if_false] at h
                simpa [storedValue, hfirst] using h
    · cases h

/-! ## What a successful parse went through -/

/-- A successful `NewAttackArgs` read a known attack name, a target argument the
target loop accepted, a duration argument `Atoi` read as a non-zero integer of at
most 86400, and flag arguments the flag loop accepted. -/
theorem NewAttackArgs_ok (args : List (List Nat)) (admin : Int) (atk : Attack)
    (h : NewAttackArgs args admin = .ok atk) :
    ∃ name targets durationArg flagArgs atkInfo duration,
      args = name :: targets :: durationArg :: flagArgs ∧
      name ≠ goStr "?" ∧ mapGet attackInfoLookup name = some atkInfo ∧
      targets ≠ goStr "?" ∧ (Split targets 44).length ≤ 255 ∧
      targetLoop (Split targets 44) [] = .ok atk.Targets ∧
      durationArg ≠ goStr "?" ∧ Atoi durationArg = some duration ∧
      duration ≠ 0 ∧ duration ≤ 86400 ∧
      flagLoop atkInfo admin flagArgs [] = .ok atk.Flags ∧ atk.Flags.length ≤ 255 ∧
      atk.Duration = toUint32 duration ∧ atk.Typ = atkInfo.attackID := by
  unfold NewAttackArgs at h
  split at h
  · cases h
  · rename_i name args1
    split at h
    · cases h
    · rename_i hname
      split at h
      · cases h
      · rename_i atkInfo hinfo
        split at h
        · cases h
        · rename_i targets args2
          split at h
          · cases h
          · rename_i htq
            split at h
            · cases h
            · rename_i hcount
              split at h
              · cases h
              · cases h
              · rename_i atkTargets htl
                split at h
                · cases h
                · rename_i durationArg args3
                  split at h
                  · cases h
                  · rename_i hdq
                    split at h
                    · cases h
                    · rename_i duration hatoi
                      split at h
                      · cases h
                      · rename_i hrange
                        split at h
                        · cases h
                        · cases h
                        · rename_i atkFlags hfl
                          split at h
                          · cases h
                          · rename_i hflen
                            cases h
                            refine ⟨name, targets, durationArg, args3, atkInfo, duration, rfl,
                              hname, hinfo, htq, by omega, htl, hdq, hatoi, ?_, ?_, hfl,
                              by simpa using hflen, rfl, rfl⟩
                            · intro h0; exact hrange (Or.inl h0)
                            · by_contra hgt
                              exact hrange (Or.inr (by omega))

/-- Conversely, the result of `NewAttackArgs` on arguments each stage accepts. -/
theorem NewAttackArgs_of (name targets durationArg : List Nat) (flagArgs : List (List Nat))
    (admin : Int) (atkInfo : AttackInfo) (duration : Int) (atkTargets : List (Nat × Nat))
    (hname : name ≠ goStr "?") (hinfo : mapGet attackInfoLookup name = some atkInfo)
    (htq : targets ≠ goStr "?") (hcount : (Split targets 44).length ≤ 255)
    (htl : targetLoop (Split targets 44) [] = .ok atkTargets)
    (hdq : durationArg ≠ goStr "?") (hatoi : Atoi durationArg = some duration)
    (h0 : duration ≠ 0) (hmax : duration ≤ 86400) :
    NewAttackArgs (name :: targets :: durationArg :: flagArgs) admin =
      match flagLoop atkInfo admin flagArgs [] with
      | .error msg => .error msg
      | .panic => .panic
      | .ok atkFlags =>
        if atkFlags.length > 255 then .error (goStr "Cannot Have More Than 255 Flags")
        else .ok ⟨toUint32 duration, atkInfo.attackID, atkTargets, atkFlags⟩ := by
  unfold NewAttackArgs
  simp only [hname, if_false, hinfo, htq, htl, hdq, hatoi]
  rw [if_neg (by omega), if_neg (by omega)]

/-- Every key the flag loop adds names a flag of the catalog, is allowed for the
attack, and is not 25 when `admin` is 0. -/
theorem flagLoop_keys (atkInfo : AttackInfo) (admin : Int) (args : List (List Nat))
    (flags out : List (Nat × List Nat)) (Q : Nat → Prop)
    (hQ : ∀ key flagInfo, mapGet flagInfoLookup key = some flagInfo →
      uint8InSlice flagInfo.flagID atkInfo.attackFlags = true →
      ¬ (admin = 0 ∧ flagInfo.flagID = 25) → Q flagInfo.flagID)
    (hflags : ∀ f ∈ flags, Q f.1)
    (h : flagLoop atkInfo admin args flags = .ok out) : ∀ f ∈ out, Q f.1 := by
  induction args generalizing flags with
  | nil =>
    simp only [flagLoop] at h
    cases h
    exact hflags
  | cons arg rest ih =>
    obtain ⟨key, value, flagInfo, _, _, hget, hallowed, hadmin, _, _, hrest⟩ :=
      flagLoop_cons_ok atkInfo admin arg rest flags out h
    refine ih _ ?_ hrest
    intro f hf
    rcases mem_mapSet _ _ _ _ hf with rfl | hf
    · exact hQ key flagInfo hget hallowed hadmin
    · exact hflags f hf

theorem uint8InSlice_iff (a : Nat) (list : List Nat) : uint8InSlice a list = true ↔ a ∈ list := by
  induction list with
  | nil => simp [uint8InSlice]
  | cons b rest ih =>
    simp only [uint8InSlice, List.mem_cons]
    split
    · rename_i h
      simp [h]
    · rename_i h
      rw [ih]
      constructor
      · exact Or.inr
      · rintro (h' | h')
        · exact absurd h'.symm h
        · exact h'

theorem mapGet_mem {κ ν : Type} [DecidableEq κ] (m : List (κ × ν)) (k : κ) (v : ν)
    (h : mapGet m k = some v) : (k, v) ∈ m := by
  induction m with
  | nil => simp [mapGet] at h
  | cons e rest ih =>
    obtain ⟨k', v'⟩ := e
    simp only [mapGet] at h
    split at h
    · rename_i hk
      cases h
      subst hk
      exact List.mem_cons_self _ _
    · exact List.mem_cons_of_mem _ (ih h)

/-- The arguments of a line on which `NewAttack` succeeds. -/
theorem NewAttack_ok (str : List Nat) (admin : Int) (atk : Attack)
    (h : NewAttack str admin = .ok atk) :
    ∃ args, shellwordsParse str = some args ∧ NewAttackArgs args admin = .ok atk := by
  unfold NewAttack at h
  cases hp : shellwordsParse str with
  | none =>
    rw [hp] at h
    simp [NewAttackArgs] at h
  | some args =>
    rw [hp] at h
    exact ⟨args, rfl, h⟩

/-- The flag loop never stops at an accepted argument: it goes on with the map
updated. -/
theorem flagLoop_cons_of (atkInfo : AttackInfo) (admin : Int) (arg key value : List Nat)
    (flagInfo : FlagInfo) (rest : List (List Nat)) (flags : List (Nat × List Nat))
    (hq : arg ≠ goStr "?") (hsplit : SplitN2 arg 61 = [key, value])
    (hget : mapGet flagInfoLookup key = some flagInfo)
    (hallowed : uint8InSlice flagInfo.flagID atkInfo.attackFlags = true)
    (hadmin : ¬ (admin = 0 ∧ flagInfo.flagID = 25)) (hne : value ≠ [])
    (hlen : value.head? = some 34 → 2 ≤ value.length) :
    flagLoop atkInfo admin (arg :: rest) flags
      = flagLoop atkInfo admin rest (mapSet flags flagInfo.flagID (storedValue value)) := by
  rw [flagLoop, if_neg hq]
  simp only [hsplit, hget]
  have hcond : (!uint8InSlice flagInfo.flagID atkInfo.attackFlags
      || (admin == 0 && flagInfo.flagID == 25)) = false := by
    simp only [hallowed, Bool.not_true, Bool.false_or, Bool.and_eq_false_iff, beq_eq_false_iff_ne]
    by_cases h0 : admin = 0
    · right
      intro h25
      exact hadmin ⟨h0, h25⟩
    · left; exact h0
  rw [hcond]
  cases value with
  | nil => exact absurd rfl hne
  | cons first tl =>
    simp only [Bool.false_eq_true, if_false]
    by_cases hfirst : first = 34
    · subst hfirst
      have h2 := hlen (by simp)
      simp only [List.length_cons] at h2
      simp only [if_true]
      rw [if_neg (by simp only [List.length_cons]; omega)]
      simp [storedValue]
    · simp only [hfirst, if_false]
      simp [storedValue, hfirst]

/-- An accepted run of the flag loop over `pre ++ rest` is an accepted run over
`pre` followed by an accepted run over `rest`. -/
theorem flagLoop_append_ok (atkInfo : AttackInfo) (admin : Int) (pre rest : List (List Nat))
    (flags out : List (Nat × List Nat))
    (h : flagLoop atkInfo admin (pre ++ rest) flags = .ok out) :
    ∃ mid, flagLoop atkInfo admin pre flags = .ok mid ∧
      flagLoop atkInfo admin rest mid = .ok out := by
  induction pre generalizing flags with
  | nil => exact ⟨flags, by simp [flagLoop], h⟩
  | cons a tl ih =>
    rw [List.cons_append] at h
    obtain ⟨key, value, flagInfo, hsplit, hq, hget, hallowed, hadmin, hne, hlen, hrest⟩ :=
      flagLoop_cons_ok atkInfo admin a (tl ++ rest) flags out h
    obtain ⟨mid, hmid, hlast⟩ := ih _ hrest
    refine ⟨mid, ?_, hlast⟩
    rw [flagLoop_cons_of atkInfo admin a key value flagInfo tl flags hq hsplit hget hallowed
      hadmin hne hlen]
    exact hmid

/-- An accepted run of the flag loop leaves the value under `id` as it was when none
of its arguments names a flag of that id. -/
theorem flagLoop_keeps (atkInfo : AttackInfo) (admin : Int) (id : Nat) (post : List (List Nat))
    (flags out : List (Nat × List Nat))
    (h : flagLoop atkInfo admin post flags = .ok out)
    (hno : ∀ a ∈ post, ∀ key value flagInfo, SplitN2 a 61 = [key, value] →
      mapGet flagInfoLookup key = some flagInfo → flagInfo.flagID ≠ id) :
    mapGet out id = mapGet flags id := by
  induction post generalizing flags with
  | nil =>
    simp only [flagLoop, Outcome.ok.injEq] at h
    rw [h]
  | cons a tl ih =>
    obtain ⟨key, value, flagInfo, hsplit, _, hget, _, _, _, _, hrest⟩ :=
      flagLoop_cons_ok atkInfo admin a tl flags out h
    rw [ih _ hrest (fun b hb => hno b (List.mem_cons_of_mem _ hb))]
    exact mapGet_mapSet_ne _ _ _ _ (hno a (List.mem_cons_self _ _) key value flagInfo hsplit hget)

theorem storedValue_eq_normalisedValue (value : List Nat)
    (hlen : value.head? = some 34 → 2 ≤ value.length)
    (hshape : value.head? = some 34 → value.getLast? = some 34) :
    storedValue value = normalisedValue value := by
  unfold storedValue normalisedValue
  by_cases hq : value.head? = some 34
  · have h1 := hlen hq
    have h2 := hshape hq
    have hinner : (value.take (value.length - 1)).drop 1 = (value.drop 1).dropLast := by
      rw [List.dropLast_eq_take, List.length_drop, List.drop_take]
    simp only [hq, h2, h1, and_self, if_true, hinner]
  · simp only [hq, false_and, if_false]

/-! ## Tokenising a line of plain words -/

theorem decodeRunes_ascii_cons (b : Nat) (s : List Nat) (hb : b < 128) :
    decodeRunes (b :: s) = b :: decodeRunes s := by
  simp [decodeRunes, decodeRunesAux, decoderune, hb]

theorem decodeRunes_ascii_append (p s : List Nat) (hp : ∀ b ∈ p, b < 128) :
    decodeRunes (p ++ s) = p ++ decodeRunes s := by
  induction p with
  | nil => rfl
  | cons b rest ih =>
    have hb : b < 128 := hp b (List.mem_cons_self _ _)
    have hrest : ∀ b ∈ rest, b < 128 := fun b hb => hp b (List.mem_cons_of_mem _ hb)
    rw [List.cons_append, decodeRunes_ascii_cons _ _ hb, ih hrest, List.cons_append]

theorem encodeRunes_append (a b : List Nat) :
    encodeRunes (a ++ b) = encodeRunes a ++ encodeRunes b := by
  simp [encodeRunes]

theorem encodeRunes_ascii (p : List Nat) (hp : ∀ b ∈ p, b < 128) : encodeRunes p = p := by
  induction p with
  | nil => rfl
  | cons b rest ih =>
    have hb : b < 128 := hp b (List.mem_cons_self _ _)
    have hrest : ∀ b ∈ rest, b < 128 := fun b hb => hp b (List.mem_cons_of_mem _ hb)
    have := ih hrest
    simp only [encodeRunes] at this ⊢
    simp [encodeRune, hb, this]

theorem parseStep_plain (args : List (List Nat)) (buf : List Nat) (got : Bool) (r : Nat)
    (hr : plainRune r = true) :
    parseStep ⟨args, buf, false, false, false, false, false, got⟩ r
      = .next ⟨args, buf ++ [r], false, false, false, false, false, true⟩ := by
  simp only [plainRune, isSpace, specialRune, Bool.and_eq_true, Bool.not_eq_true',
    Bool.or_eq_false_iff, decide_eq_false_iff_not] at hr
  obtain ⟨⟨⟨⟨h32, h9⟩, h13⟩, h10⟩, ⟨⟨⟨⟨⟨⟨⟨⟨⟨⟨h92, h96⟩, h41⟩, h40⟩, h34⟩, h39⟩, h59⟩, h38⟩,
    h124⟩, h60⟩, h62⟩⟩ := hr
  have hsp : isSpace r = false := by simp [isSpace, h32, h9, h13, h10]
  have hor : ¬ (r = 59 ∨ r = 38 ∨ r = 124 ∨ r = 60 ∨ r = 62) := by
    rintro (h | h | h | h | h)
    · exact h59 h
    · exact h38 h
    · exact h124 h
    · exact h60 h
    · exact h62 h
  simp only [parseStep, appendRune, hsp, h92, h96, h41, h40, h34, h39, hor, if_false,
    Bool.false_eq_true]

theorem parseLoop_plain (w rest : List Nat) (args : List (List Nat)) (buf : List Nat)
    (got : Bool) (hw : ∀ r ∈ w, plainRune r = true) (hne : w ≠ []) :
    parseLoop (w ++ rest) ⟨args, buf, false, false, false, false, false, got⟩
      = parseLoop rest ⟨args, buf ++ w, false, false, false, false, false, true⟩ := by
  induction w generalizing buf got with
  | nil => exact absurd rfl hne
  | cons r tl ih =>
    have hr : plainRune r = true := hw r (List.mem_cons_self _ _)
    have htl : ∀ r ∈ tl, plainRune r = true := fun r hr => hw r (List.mem_cons_of_mem _ hr)
    rw [List.cons_append, parseLoop, parseStep_plain args buf got r hr]
    by_cases hnil : tl = []
    · subst hnil
      simp
    · simp only
      rw [ih (buf ++ [r]) true htl hnil]
      simp

theorem parseLoop_space (rest : List Nat) (args : List (List Nat)) (buf : List Nat) :
    parseLoop (32 :: rest) ⟨args, buf, false, false, false, false, false, true⟩
      = parseLoop rest ⟨args ++ [encodeRunes buf], [], false, false, false, false, false, false⟩ := by
  rw [parseLoop]
  simp [parseStep, isSpace]

theorem parseLoop_words (ws : List (List Nat)) (rest : List Nat) (args : List (List Nat))
    (hws : ∀ w ∈ ws, PlainAscii w ∧ w ≠ []) :
    parseLoop ((ws.map (fun w => w ++ [32])).flatten ++ rest)
        ⟨args, [], false, false, false, false, false, false⟩
      = parseLoop rest ⟨args ++ ws, [], false, false, false, false, false, false⟩ := by
  induction ws generalizing args with
  | nil => simp
  | cons w tl ih =>
    obtain ⟨hw, hne⟩ := hws w (List.mem_cons_self _ _)
    have htl : ∀ w ∈ tl, PlainAscii w ∧ w ≠ [] := fun w hw => hws w (List.mem_cons_of_mem _ hw)
    have hplain : ∀ r ∈ w, plainRune r = true := fun r hr => (hw r hr).2
    have hascii : ∀ r ∈ w, r < 128 := fun r hr => (hw r hr).1
    have e : ((w :: tl).map (fun w => w ++ [32])).flatten ++ rest
        = w ++ (32 :: ((tl.map (fun w => w ++ [32])).flatten ++ rest)) := by simp
    rw [e, parseLoop_plain w _ args [] false hplain hne, parseLoop_space, List.nil_append,
      encodeRunes_ascii w hascii, ih (args ++ [w]) htl]
    simp

/-- A line of non-empty plain ASCII words separated by single spaces, ending in a
non-empty word of plain well-formed text, is split into exactly these words. -/
theorem shellwordsParse_lineOf (ws : List (List Nat)) (last : List Nat)
    (hws : ∀ w ∈ ws, PlainAscii w ∧ w ≠ []) (hlast : PlainText last) (hne : last ≠ []) :
    shellwordsParse (lineOf ws last) = some (ws ++ [last]) := by
  have hdec : decodeRunes (lineOf ws last)
      = (ws.map (fun w => w ++ [32])).flatten ++ decodeRunes last := by
    unfold lineOf
    apply decodeRunes_ascii_append
    intro b hb
    simp only [List.mem_flatten, List.mem_map] at hb
    obtain ⟨l, ⟨w, hw, rfl⟩, hb⟩ := hb
    rcases List.mem_append.mp hb with hb | hb
    · exact ((hws w hw).1 b hb).1
    · simp only [List.mem_singleton] at hb
      omega
  have hrunes : decodeRunes last ≠ [] := by
    intro h
    have := hlast.1
    rw [h] at this
    exact hne this.symm
  unfold shellwordsParse
  rw [hdec, parseLoop_words ws _ [] hws]
  have := parseLoop_plain (decodeRunes last) [] ([] ++ ws) [] false hlast.2 hrunes
  rw [List.append_nil] at this
  rw [this]
  simp [parseLoop, hlast.1]

/-! ## Decimal texts -/

theorem digitsValue_append_singleton (xs : List Nat) (c : Nat) :
    digitsValue (xs ++ [c]) = digitsValue xs * 10 + (c - 48) := by
  simp [digitsValue, List.foldl_append]

theorem decimalAux_spec (fuel n : Nat) (acc : List Nat) (h : n < fuel) :
    ∃ ds, decimalAux fuel n acc = ds ++ acc ∧ IsDecimalOf n ds ∧ (n ≠ 0 → ds.head? ≠ some 48) := by
  induction fuel generalizing n acc with
  | zero => omega
  | succ fuel ih =>
    rw [decimalAux]
    split
    · rename_i hlt
      refine ⟨[48 + n], rfl, ⟨by simp, ?_, ?_, ?_⟩, ?_⟩
      · intro c hc
        simp only [List.mem_singleton] at hc
        omega
      · simp [digitsValue]
      · intro hh
        simp only [List.head?_cons, Option.some.injEq] at hh
        have : n = 0 := by omega
        subst this
        rfl
      · intro hn hh
        simp only [List.head?_cons, Option.some.injEq] at hh
        omega
    · rename_i hge
      obtain ⟨ds, hds, ⟨hne, hdig, hval, _⟩, hhead⟩ :=
        ih (n / 10) ((48 + n % 10) :: acc) (by omega)
      have hq : n / 10 ≠ 0 := by omega
      have hhead' : (ds ++ [48 + n % 10]).head? = ds.head? := by
        cases ds with
        | nil => exact absurd rfl hne
        | cons c tl => rfl
      refine ⟨ds ++ [48 + n % 10], by simp [hds], ⟨by simp, ?_, ?_, ?_⟩, ?_⟩
      · intro c hc
        rcases List.mem_append.mp hc with hc | hc
        · exact hdig c hc
        · simp only [List.mem_singleton] at hc
          omega
      · rw [digitsValue_append_singleton, hval]
        omega
      · intro hh
        rw [hhead'] at hh
        exact absurd hh (hhead hq)
      · intro _ hh
        rw [hhead'] at hh
        exact absurd hh (hhead hq)

theorem decimal_spec (n : Nat) : IsDecimalOf n (decimal n) := by
  obtain ⟨ds, hds, h, _⟩ := decimalAux_spec (n + 1) n [] (by omega)
  unfold decimal
  rw [hds, List.append_nil]
  exact h

theorem digit_plainAscii (ds : List Nat) (h : ∀ c ∈ ds, 48 ≤ c ∧ c ≤ 57) : PlainAscii ds := by
  intro b hb
  obtain ⟨h1, h2⟩ := h b hb
  refine ⟨by omega, ?_⟩
  have : b = 48 ∨ b = 49 ∨ b = 50 ∨ b = 51 ∨ b = 52 ∨ b = 53 ∨ b = 54 ∨ b = 55 ∨ b = 56 ∨ b = 57 := by
    omega
  rcases this with h | h | h | h | h | h | h | h | h | h <;> subst h <;> decide

/-! ## Splitting a text without separator -/

theorem Split_of_not_mem (w : List Nat) (sep : Nat) (h : sep ∉ w) : Split w sep = [w] := by
  induction w with
  | nil => rfl
  | cons c rest ih =>
    have hc : c ≠ sep := fun hc => h (hc ▸ List.mem_cons_self _ _)
    have hrest : sep ∉ rest := fun hr => h (List.mem_cons_of_mem _ hr)
    simp [Split, hc, ih hrest]

/-! ## `Atoi` and `ParseIP` on decimal texts -/

theorem Atoi_of_digits (ds : List Nat) (hne : ds ≠ []) (hd : ∀ c ∈ ds, 48 ≤ c ∧ c ≤ 57)
    (hval : digitsValue ds < 2 ^ 63) : Atoi ds = some (digitsValue ds : Int) := by
  cases ds with
  | nil => exact absurd rfl hne
  | cons c tl =>
    obtain ⟨h1, h2⟩ := hd c (List.mem_cons_self _ _)
    have h43 : c ≠ 43 := by omega
    have h45 : c ≠ 45 := by omega
    have hall : (c :: tl).all (fun c => decide (48 ≤ c ∧ c ≤ 57)) = true := by
      rw [List.all_eq_true]
      intro x hx
      exact decide_eq_true (hd x hx)
    unfold Atoi
    have e1 : (match c :: tl with
      | 45 :: _ => true
      | _ => false) = false := by
      split
      · rename_i heq
        simp only [List.cons.injEq] at heq
        exact absurd heq.1 h45
      · rfl
    have e2 : (match c :: tl with
      | 43 :: r => r
      | 45 :: r => r
      | _ => c :: tl) = c :: tl := by
      split
      · rename_i heq
        simp only [List.cons.injEq] at heq
        exact absurd heq.1 h43
      · rename_i heq
        simp only [List.cons.injEq] at heq
        exact absurd heq.1 h45
      · rfl
    simp only [e1, e2, hall, hval]
    simp

theorem le_digitsValue_fold (ds : List Nat) (v : Nat) :
    v ≤ ds.foldl (fun n c => n * 10 + (c - 48)) v := by
  induction ds generalizing v with
  | nil => exact Nat.le_refl _
  | cons c tl ih =>
    simp only [List.foldl_cons]
    exact Nat.le_trans (by omega) (ih _)

/-- The loop of `parseIPv4Fields` over the digits `c :: tl` of one octet. -/
theorem parseIPv4Fields_octet (c : Nat) (tl rest : List Nat) (prev : Option Nat)
    (val pos digLen : Nat) (fields : List Nat)
    (hd : ∀ x ∈ c :: tl, 48 ≤ x ∧ x ≤ 57)
    (h0 : digLen = 0 → val = 0 ∧ (c = 48 → tl = []))
    (h1 : digLen = 1 → val ≠ 0)
    (hval : (c :: tl).foldl (fun n c => n * 10 + (c - 48)) val ≤ 255) :
    ∃ p, p ≠ 46 ∧ parseIPv4Fields (c :: tl ++ rest) prev val pos digLen fields
      = parseIPv4Fields rest (some p) ((c :: tl).foldl (fun n c => n * 10 + (c - 48)) val) pos
          (digLen + (c :: tl).length) fields := by
  induction tl generalizing c prev val digLen with
  | nil =>
    obtain ⟨hc1, hc2⟩ := hd c (List.mem_cons_self _ _)
    simp only [List.foldl_cons, List.foldl_nil] at hval
    refine ⟨c, by omega, ?_⟩
    rw [List.cons_append, parseIPv4Fields]
    simp only [hc1, hc2, and_self, if_true, List.nil_append, List.foldl_cons, List.foldl_nil,
      List.length_cons, List.length_nil]
    rw [if_neg (by intro hh; exact h1 hh.1 hh.2), if_neg (by omega)]
  | cons c2 tl2 ih =>
    obtain ⟨hc1, hc2⟩ := hd c (List.mem_cons_self _ _)
    have hd2 : ∀ x ∈ c2 :: tl2, 48 ≤ x ∧ x ≤ 57 := fun x hx => hd x (List.mem_cons_of_mem _ hx)
    simp only [List.foldl_cons] at hval
    have hle := le_digitsValue_fold (c2 :: tl2) (val * 10 + (c - 48))
    simp only [List.foldl_cons] at hle
    obtain ⟨p, hp, heq⟩ := ih c2 (some c) (val * 10 + (c - 48)) (digLen + 1) hd2
      (by omega)
      (by
        intro hdl
        have hz : digLen = 0 := by omega
        obtain ⟨hv, hc⟩ := h0 hz
        have : c ≠ 48 := fun h48 => by simpa using hc h48
        omega)
      (by simpa using hval)
    refine ⟨p, hp, ?_⟩
    rw [List.cons_append, parseIPv4Fields]
    simp only [hc1, hc2, and_self, if_true]
    rw [if_neg (by intro hh; exact h1 hh.1 hh.2), if_neg (by omega), heq]
    simp only [List.foldl_cons, List.length_cons]
    congr 1
    omega

theorem parseIPv4Fields_decimal (n : Nat) (ds rest : List Nat) (prev : Option Nat)
    (pos : Nat) (fields : List Nat) (h : IsDecimalOf n ds) (hn : n ≤ 255) :
    ∃ p digLen, p ≠ 46 ∧ parseIPv4Fields (ds ++ rest) prev 0 pos 0 fields
      = parseIPv4Fields rest (some p) n pos digLen fields := by
  obtain ⟨hne, hd, hval, hhead⟩ := h
  cases ds with
  | nil => exact absurd rfl hne
  | cons c tl =>
    have hv : (c :: tl).foldl (fun n c => n * 10 + (c - 48)) 0 = n := hval
    obtain ⟨p, hp, heq⟩ := parseIPv4Fields_octet c tl rest prev 0 pos 0 fields hd
      (by
        intro _
        refine ⟨rfl, fun hc => ?_⟩
        have := hhead (by simp [hc])
        simp only [List.cons.injEq] at this
        exact this.2)
      (by omega) (by omega)
    rw [hv] at heq
    exact ⟨p, _, hp, heq⟩

theorem parseIPv4Fields_dot (rest : List Nat) (p val pos digLen : Nat) (fields : List Nat)
    (hp : p ≠ 46) (hrest : rest ≠ []) (hpos : pos < 3) :
    parseIPv4Fields (46 :: rest) (some p) val pos digLen fields
      = parseIPv4Fields rest (some 46) 0 (pos + 1) 0 (fields ++ [val]) := by
  rw [parseIPv4Fields]
  simp only [show ¬ (48 ≤ 46 ∧ 46 ≤ 57) by omega, if_false, if_true]
  rw [if_neg (by simp [hrest, hp]), if_neg (by omega)]

theorem parseIPv4Fields_dotted (a b c d : Nat) (ha : a ≤ 255) (hb : b ≤ 255) (hc : c ≤ 255)
    (hd : d ≤ 255) : parseIPv4Fields (dotted a b c d) none 0 0 0 [] = some [a, b, c, d] := by
  have hnb := (decimal_spec b).1
  have hnc := (decimal_spec c).1
  have hnd := (decimal_spec d).1
  have e : dotted a b c d
      = decimal a ++ (46 :: (decimal b ++ (46 :: (decimal c ++ (46 :: (decimal d ++ [])))))) := by
    simp [dotted]
  obtain ⟨p1, l1, hp1, h1⟩ := parseIPv4Fields_decimal a (decimal a)
    (46 :: (decimal b ++ (46 :: (decimal c ++ (46 :: (decimal d ++ [])))))) none 0 []
    (decimal_spec a) ha
  obtain ⟨p2, l2, hp2, h2⟩ := parseIPv4Fields_decimal b (decimal b)
    (46 :: (decimal c ++ (46 :: (decimal d ++ [])))) (some 46) 1 ([] ++ [a])
    (decimal_spec b) hb
  obtain ⟨p3, l3, hp3, h3⟩ := parseIPv4Fields_decimal c (decimal c)
    (46 :: (decimal d ++ [])) (some 46) 2 ([] ++ [a] ++ [b]) (decimal_spec c) hc
  obtain ⟨p4, l4, hp4, h4⟩ := parseIPv4Fields_decimal d (decimal d) [] (some 46) 3
    ([] ++ [a] ++ [b] ++ [c]) (decimal_spec d) hd
  rw [e, h1, parseIPv4Fields_dot _ p1 a 0 l1 [] hp1 (by simp [hnb]) (by omega), h2,
    parseIPv4Fields_dot _ p2 b 1 l2 _ hp2 (by simp [hnc]) (by omega), h3,
    parseIPv4Fields_dot _ p3 c 2 l3 _ hp3 (by simp [hnd]) (by omega), h4, parseIPv4Fields]
  simp

theorem firstSeparator_digits (ds rest : List Nat) (hd : ∀ c ∈ ds, 48 ≤ c ∧ c ≤ 57) :
    firstSeparator (ds ++ 46 :: rest) = some 46 := by
  induction ds with
  | nil => simp [firstSeparator]
  | cons c tl ih =>
    obtain ⟨h1, h2⟩ := hd c (List.mem_cons_self _ _)
    have htl : ∀ c ∈ tl, 48 ≤ c ∧ c ≤ 57 := fun c hc => hd c (List.mem_cons_of_mem _ hc)
    rw [List.cons_append, firstSeparator, if_neg (by omega), ih htl]

theorem ParseIP_dotted (a b c d : Nat) (ha : a ≤ 255) (hb : b ≤ 255) (hc : c ≤ 255)
    (hd : d ≤ 255) :
    ParseIP (dotted a b c d) = some [0, 0, 0, 0, 0, 0, 0, 0, 0, 0, 255, 255, a, b, c, d] := by
  have hsep : firstSeparator (dotted a b c d) = some 46 := by
    have e : dotted a b c d
        = decimal a ++ 46 :: (decimal b ++ [46] ++ decimal c ++ [46] ++ decimal d) := by
      simp [dotted]
    rw [e]
    exact firstSeparator_digits _ _ (decimal_spec a).2.1
  unfold ParseIP
  rw [hsep]
  simp only [parseIPv4Fields_dotted a b c d ha hb hc hd]
  rfl

theorem dotted_chars (a b c d : Nat) : ∀ x ∈ dotted a b c d, (48 ≤ x ∧ x ≤ 57) ∨ x = 46 := by
  intro x hx
  simp only [dotted, List.mem_append, List.mem_singleton] at hx
  rcases hx with ((((((h | h) | h) | h) | h) | h) | h)
  · exact Or.inl ((decimal_spec a).2.1 x h)
  · exact Or.inr h
  · exact Or.inl ((decimal_spec b).2.1 x h)
  · exact Or.inr h
  · exact Or.inl ((decimal_spec c).2.1 x h)
  · exact Or.inr h
  · exact Or.inl ((decimal_spec d).2.1 x h)

theorem dotted_plainAscii (a b c d : Nat) : PlainAscii (dotted a b c d) := by
  intro x hx
  rcases dotted_chars a b c d x hx with h | h
  · exact digit_plainAscii [x] (by simpa using h) x (List.mem_singleton_self x)
  · subst h
    decide

theorem dotted_ne_nil (a b c d : Nat) : dotted a b c d ≠ [] := by
  simp [dotted]

theorem plainText_of_plainAscii (w : List Nat) (h : PlainAscii w) : PlainText w := by
  have hascii : ∀ b ∈ w, b < 128 := fun b hb => (h b hb).1
  have hdec : decodeRunes w = w := by
    have := decodeRunes_ascii_append w [] hascii
    simpa [decodeRunes, decodeRunesAux] using this
  refine ⟨?_, ?_⟩
  · rw [hdec, encodeRunes_ascii w hascii]
  · rw [hdec]
    exact fun r hr => (h r hr).2

theorem catalog_names :
    ∀ e ∈ attackInfoLookup, mapGet attackInfoLookup e.1 = some e.2 ∧ e.1 ≠ goStr "?" ∧
      PlainAscii e.1 ∧ e.1 ≠ [] := by
  decide

theorem targetLoop_dotted (a b c d : Nat) (ha : a ≤ 255) (hb : b ≤ 255) (hc : c ≤ 255)
    (hd : d ≤ 255) :
    targetLoop (Split (dotted a b c d) 44) [] = .ok [(Uint32 a b c d, 32)] := by
  have h44 : 44 ∉ dotted a b c d := by
    intro h
    rcases dotted_chars a b c d 44 h with h | h <;> omega
  have h47 : 47 ∉ dotted a b c d := by
    intro h
    rcases dotted_chars a b c d 47 h with h | h <;> omega
  rw [Split_of_not_mem _ _ h44, targetLoop]
  simp only [Split_of_not_mem _ _ h47, ParseIP_dotted a b c d ha hb hc hd, targetLoop, mapSet]
  rfl

theorem plainText_append (p v : List Nat) (hp : PlainAscii p) (hv : PlainText v) :
    PlainText (p ++ v) := by
  have hascii : ∀ b ∈ p, b < 128 := fun b hb => (hp b hb).1
  have hdec := decodeRunes_ascii_append p v hascii
  refine ⟨?_, ?_⟩
  · rw [hdec, encodeRunes_append, encodeRunes_ascii p hascii, hv.1]
  · rw [hdec]
    intro r hr
    rcases List.mem_append.mp hr with hr | hr
    · exact (hp r hr).2
    · exact hv.2 r hr

theorem plainText_head (v : List Nat) (hv : PlainText v) : v.head? ≠ some 34 := by
  intro h
  cases v with
  | nil => simp at h
  | cons c tl =>
    simp only [List.head?_cons, Option.some.injEq] at h
    subst h
    have hdec := decodeRunes_ascii_cons 34 tl (by omega)
    have := hv.2 34 (by rw [hdec]; exact List.mem_cons_self _ _)
    exact absurd this (by decide)

theorem storedValue_plain (v : List Nat) (hhead : v.head? ≠ some 34)
    (htrue : v ≠ goStr "true") (hfalse : v ≠ goStr "false") : storedValue v = v := by
  simp [storedValue, hhead, htrue, hfalse]

theorem toUint32_of_small (n : Nat) (h : n < 4294967296) : toUint32 (n : Int) = n := by
  unfold toUint32
  omega

theorem targets_ne_question (targets : List Nat) (atkTargets : List (Nat × Nat))
    (htl : targetLoop (Split targets 44) [] = .ok atkTargets) : targets ≠ goStr "?" := by
  intro h
  subst h
  have e : targetLoop (Split (goStr "?") 44) []
      = .error (goStr "Failed To Parse IP address, Near ?") := by decide
  rw [e] at htl
  cases htl

theorem duration_ne_question (durationArg : List Nat) (duration : Int)
    (hatoi : Atoi durationArg = some duration) : durationArg ≠ goStr "?" := by
  intro h
  subst h
  have e : Atoi (goStr "?") = none := by decide
  rw [e] at hatoi
  cases hatoi

/-- The parse of a line made of an attack name, a target argument and a duration
argument that the tokeniser leaves as they are. -/
theorem NewAttack_lineOf_three (name targets durationArg : List Nat) (atkInfo : AttackInfo)
    (admin : Int) (duration : Int) (atkTargets : List (Nat × Nat))
    (hname : (name, atkInfo) ∈ attackInfoLookup)
    (htp : PlainAscii targets) (htne : targets ≠ [])
    (hdp : PlainAscii durationArg) (hdne : durationArg ≠ [])
    (hcount : (Split targets 44).length ≤ 255)
    (htl : targetLoop (Split targets 44) [] = .ok atkTargets)
    (hatoi : Atoi durationArg = some duration) (h0 : duration ≠ 0) (hmax : duration ≤ 86400) :
    NewAttack (lineOf [name, targets] durationArg) admin
      = .ok ⟨toUint32 duration, atkInfo.attackID, atkTargets, []⟩ := by
  obtain ⟨hget, hq, hnp, hnne⟩ := catalog_names _ hname
  have hparse : shellwordsParse (lineOf [name, targets] durationArg)
      = some ([name, targets] ++ [durationArg]) := by
    apply shellwordsParse_lineOf _ _ _ (plainText_of_plainAscii _ hdp) hdne
    intro w hw
    simp only [List.mem_cons, List.mem_singleton, List.not_mem_nil, or_false] at hw
    rcases hw with rfl | rfl
    · exact ⟨hnp, hnne⟩
    · exact ⟨htp, htne⟩
  unfold NewAttack
  rw [hparse]
  have := NewAttackArgs_of name targets durationArg [] admin atkInfo duration atkTargets
    hq hget (targets_ne_question _ _ htl) hcount htl (duration_ne_question _ _ hatoi) hatoi h0 hmax
  simpa [flagLoop] using this

/-- The parse of a line that also has flag arguments, the last of which may hold
text that is not ASCII. -/
theorem NewAttack_lineOf_flags (name targets durationArg : List Nat) (atkInfo : AttackInfo)
    (pre : List (List Nat)) (last : List Nat) (admin : Int) (duration : Int)
    (atkTargets : List (Nat × Nat))
    (hname : (name, atkInfo) ∈ attackInfoLookup)
    (htp : PlainAscii targets) (htne : targets ≠ [])
    (hdp : PlainAscii durationArg) (hdne : durationArg ≠ [])
    (hpre : ∀ w ∈ pre, PlainAscii w ∧ w ≠ [])
    (hlast : PlainText last) (hlne : last ≠ [])
    (hcount : (Split targets 44).length ≤ 255)
    (htl : targetLoop (Split targets 44) [] = .ok atkTargets)
    (hatoi : Atoi durationArg = some duration) (h0 : duration ≠ 0) (hmax : duration ≤ 86400) :
    NewAttack (lineOf ([name, targets, durationArg] ++ pre) last) admin =
      match flagLoop atkInfo admin (pre ++ [last]) [] with
      | .error msg => .error msg
      | .panic => .panic
      | .ok atkFlags =>
        if atkFlags.length > 255 then .error (goStr "Cannot Have More Than 255 Flags")
        else .ok ⟨toUint32 duration, atkInfo.attackID, atkTargets, atkFlags⟩ := by
  obtain ⟨hget, hq, hnp, hnne⟩ := catalog_names _ hname
  have hparse : shellwordsParse (lineOf ([name, targets, durationArg] ++ pre) last)
      = some (([name, targets, durationArg] ++ pre) ++ [last]) := by
    apply shellwordsParse_lineOf _ _ _ hlast hlne
    intro w hw
    simp only [List.cons_append, List.nil_append, List.mem_cons] at hw
    rcases hw with rfl | rfl | rfl | hw
    · exact ⟨hnp, hnne⟩
    · exact ⟨htp, htne⟩
    · exact ⟨hdp, hdne⟩
    · exact hpre w hw
  unfold NewAttack
  rw [hparse]
  exact NewAttackArgs_of name targets durationArg (pre ++ [last]) admin atkInfo duration
    atkTargets hq hget (targets_ne_question _ _ htl) hcount htl (duration_ne_question _ _ hatoi)
    hatoi h0 hmax

/-! ## Claims about the encoder -/

/-- C1. Round trip of the wire format: for every well-typed Attack with at most
255 targets, at most 255 flags and flag values of at most 255 bytes, and for
every order `ts`, `fs` in which the two maps are visited, a buffer returned by
`Build` decodes by the documented layout, the whole buffer being consumed, to the
same duration, the same type, and the records in the order they were written;
these are the same targets and the same flags as those of the Attack. -/
theorem Build_round_trip (a : Attack) (ts : List (Nat × Nat)) (fs : List (Nat × List Nat))
    (out : List Nat) (hwt : a.WellTyped) (hts : ts.Perm a.Targets) (hfs : fs.Perm a.Flags)
    (hT : a.Targets.length ≤ 255) (hF : a.Flags.length ≤ 255)
    (_hV : ∀ f ∈ a.Flags, f.2.length ≤ 255)
    (h : Build ⟨a.Duration, a.Typ, ts, fs⟩ = .ok out) :
    decodeAttack out = some ⟨a.Duration, a.Typ, ts, fs⟩ ∧
      (∀ t, t ∈ ts ↔ t ∈ a.Targets) ∧ (∀ f, f ∈ fs ↔ f ∈ a.Flags) := by
  obtain ⟨hd, _, hk, _⟩ := hwt
  refine ⟨?_, fun t => hts.mem_iff, fun f => hfs.mem_iff⟩
  refine decodeAttack_Build ⟨a.Duration, a.Typ, ts, fs⟩ out hd ?_ ?_ ?_ h
  · intro t ht
    exact (hk t (hts.mem_iff.mp ht)).1
  · simpa [hts.length_eq] using hT
  · simpa [hfs.length_eq] using hF

/-- Instance of C1: two targets and two flags, each map visited in the order
opposite to the one it is written in. -/
theorem Build_round_trip_witness :
    Build ⟨120, 0, [(0x08080808, 32), (0x0A000000, 8)], [(1, [48]), (0, [49, 48, 48])]⟩
        = .ok [0, 27, 0, 0, 0, 120, 0, 2, 8, 8, 8, 8, 32, 10, 0, 0, 0, 8, 2, 1, 1, 48,
            0, 3, 49, 48, 48] ∧
      decodeAttack [0, 27, 0, 0, 0, 120, 0, 2, 8, 8, 8, 8, 32, 10, 0, 0, 0, 8, 2, 1, 1, 48,
            0, 3, 49, 48, 48]
        = some ⟨120, 0, [(0x08080808, 32), (0x0A000000, 8)], [(1, [48]), (0, [49, 48, 48])]⟩ :=
  ⟨by decide,
    (Build_round_trip ⟨120, 0, [(0x0A000000, 8), (0x08080808, 32)], [(0, [49, 48, 48]), (1, [48])]⟩
      [(0x08080808, 32), (0x0A000000, 8)] [(1, [48]), (0, [49, 48, 48])] _
      (by simp [Attack.WellTyped]) (by decide) (by decide) (by decide) (by decide) (by decide)
      (by decide)).1⟩

/-- C3. The length prefix is exact: when `Build` returns a buffer, its size is
9 + 5 * (number of targets) + the sum over the flags of (2 + size of the value),
its first two bytes are the big-endian form of that size, and the size is below
2^16, so the conversion to 16 bits does not wrap. -/
theorem Build_length_prefix_exact (a : Attack) (out : List Nat) (h : Build a = .ok out) :
    out.length = 9 + 5 * a.Targets.length + (a.Flags.map (fun f => 2 + f.2.length)).sum ∧
      (∃ b0 b1 rest, out = b0 :: b1 :: rest ∧ b0 < 256 ∧ b1 < 256 ∧
        b0 * 256 + b1 = out.length) ∧
      out.length < 2 ^ 16 ∧ (out.length - 2 + 2) % 2 ^ 16 = out.length := by
  obtain ⟨_, hlen, rfl⟩ := Build_ok a out h
  have hL : (PutUint16 ((bodyBytes a).length + 2) ++ bodyBytes a).length
      = (bodyBytes a).length + 2 := by
    simp [PutUint16]
  have hb := bodyBytes_length a
  refine ⟨by omega, ⟨_, _, bodyBytes a, rfl, ?_, ?_, ?_⟩, by omega, by omega⟩
  · omega
  · omega
  · rw [hL]; omega

/-- Instance of C3: one target, no flag, fourteen bytes. -/
theorem Build_length_prefix_exact_witness :
    Build ⟨60, 11, [(0x08080808, 32)], []⟩
        = .ok [0, 14, 0, 0, 0, 60, 11, 1, 8, 8, 8, 8, 32, 0] ∧
      [0, 14, 0, 0, 0, 60, 11, 1, 8, 8, 8, 8, 32, 0].length = 9 + 5 * 1 + 0 :=
  ⟨by decide,
    (Build_length_prefix_exact ⟨60, 11, [(0x08080808, 32)], []⟩
      [0, 14, 0, 0, 0, 60, 11, 1, 8, 8, 8, 8, 32, 0] (by decide)).1⟩

set_option maxRecDepth 20000 in
/-- C4, counterexample. `Build` accepts an Attack whose body is 4096 bytes long
and returns a buffer of 4098 bytes whose prefix holds 4098 (bytes 0x10 0x02):
the limit of 4096 is applied before the two prefix bytes are added. -/
theorem Build_total_size_counterexample :
    Build bodyOf4096 = .ok (PutUint16 4098 ++ bodyBytes bodyOf4096) ∧
      (PutUint16 4098 ++ bodyBytes bodyOf4096).length = 4098 ∧
      PutUint16 4098 = [16, 2] ∧
      ¬ (PutUint16 4098 ++ bodyBytes bodyOf4096).length ≤ 4096 := by
  have hlen : (bodyBytes bodyOf4096).length = 4096 := by
    rw [bodyBytes_length]; decide
  have hfits : ∀ f ∈ bodyOf4096.Flags, f.2.length ≤ 255 := by decide
  have hb := Build_of_fits bodyOf4096 hfits (by omega)
  rw [hlen] at hb
  have hL : (PutUint16 4098 ++ bodyBytes bodyOf4096).length = 4098 := by
    simp [PutUint16, hlen]
  refine ⟨hb, hL, by decide, by omega⟩

/-- C4, amended. The limit of 4096 bytes applies to the body, the buffer
without its two prefix bytes.  When `Build` returns a buffer, the body is at most
4096 bytes, the buffer at most 4098 bytes, and the value `v` in its first two
bytes satisfies 2 ≤ v ≤ 4098; and when the encoding with its prefix would be
longer than 4098 bytes, `Build` returns an error and no buffer. -/
theorem Build_total_size_bound (a : Attack) :
    (∀ out, Build a = .ok out →
      out.length - 2 ≤ 4096 ∧ out.length ≤ 4098 ∧
        ∃ b0 b1 rest, out = b0 :: b1 :: rest ∧ b0 < 256 ∧ b1 < 256 ∧
          2 ≤ b0 * 256 + b1 ∧ b0 * 256 + b1 ≤ 4098) ∧
    (4098 < 9 + 5 * a.Targets.length + (a.Flags.map (fun f => 2 + f.2.length)).sum →
      ∃ msg, Build a = .error msg) := by
  constructor
  · intro out h
    obtain ⟨_, hlen, rfl⟩ := Build_ok a out h
    have hL : (PutUint16 ((bodyBytes a).length + 2) ++ bodyBytes a).length
        = (bodyBytes a).length + 2 := by
      simp [PutUint16]
    refine ⟨by omega, by omega, _, _, bodyBytes a, rfl, ?_, ?_, ?_, ?_⟩ <;> omega
  · intro hbig
    cases hB : Build a with
    | error msg => exact ⟨msg, rfl⟩
    | ok out =>
      obtain ⟨_, hlen, _⟩ := Build_ok a out hB
      have := bodyBytes_length a
      omega
    | panic =>
      exfalso
      unfold Build at hB
      simp only [buildTargets_eq] at hB
      split at hB
      · cases hB
      · rename_i hp
        exact buildFlags_never_panics _ _ hp
      · split at hB <;> cases hB

set_option maxRecDepth 20000 in
/-- Instance of the amended C4: the fourteen-byte buffer of a one-target Attack
is within the bound, and an Attack whose encoding would take 4099 bytes is
refused. -/
theorem Build_total_size_bound_witness :
    ([0, 14, 0, 0, 0, 60, 11, 1, 8, 8, 8, 8, 32, 0].length ≤ 4098) ∧
      ∃ msg, Build bodyOf4097 = .error msg :=
  ⟨((Build_total_size_bound ⟨60, 11, [(0x08080808, 32)], []⟩).1
      [0, 14, 0, 0, 0, 60, 11, 1, 8, 8, 8, 8, 32, 0] (by decide)).2.1,
    (Build_total_size_bound bodyOf4097).2 (by decide)⟩

/-! ## Claims about the parser -/

/-- C5, the code at a failing input. The duration test of line 281 rejects zero
and values above 86400 but not negative values: the line `udpflood 8.8.8.8 -1` is
accepted, and the conversion to `uint32` stores the duration 4294967295. -/
theorem NewAttack_negative_duration :
    NewAttack (goStr "udpflood 8.8.8.8 -1") 1
      = .ok ⟨4294967295, 0, [(0x08080808, 32)], []⟩ := by
  decide

/-- C6, the code at a failing input. The range test of line 257 reads the variable
`netmask`, which still holds 32, and not the value just parsed: the line
`udpflood 8.8.8.8/99 60` is accepted and the netmask 99 is stored. -/
theorem NewAttack_netmask_out_of_range :
    NewAttack (goStr "udpflood 8.8.8.8/99 60") 1
      = .ok ⟨60, 0, [(0x08080808, 99)], []⟩ := by
  decide

/-- C7, the code at two failing inputs. A flag argument with an allowed key and an
empty value makes line 312 index an empty string, and one whose value is a single
double quote makes line 313 slice from 1 to 0: `NewAttack` panics on both. -/
theorem NewAttack_panics :
    NewAttack (goStr "udpflood 8.8.8.8 60 len=") 1 = .panic ∧
      shellwordsParse (goStr "udpflood 8.8.8.8 60 len=\\\"")
        = some [goStr "udpflood", goStr "8.8.8.8", goStr "60", goStr "len=\""] ∧
      NewAttack (goStr "udpflood 8.8.8.8 60 len=\\\"") 1 = .panic := by
  decide

/-- C8. Capability-table invariant: when `NewAttack` succeeds, the first argument
of the line names an entry of the attack catalog and `Typ` is its id, every key
of `Flags` is the id of an entry of the flag catalog and belongs to the allowed
flags of that attack, and with `admin = 0` no key of `Flags` is 25. -/
theorem NewAttack_capability (str : List Nat) (admin : Int) (atk : Attack)
    (h : NewAttack str admin = .ok atk) :
    ∃ name rest atkInfo, shellwordsParse str = some (name :: rest) ∧
      (name, atkInfo) ∈ attackInfoLookup ∧ atk.Typ = atkInfo.attackID ∧
      ∀ f ∈ atk.Flags,
        (∃ flagName flagInfo, (flagName, flagInfo) ∈ flagInfoLookup ∧ flagInfo.flagID = f.1) ∧
        f.1 ∈ atkInfo.attackFlags ∧ (admin = 0 → f.1 ≠ 25) := by
  obtain ⟨args, hparse, hargs⟩ := NewAttack_ok str admin atk h
  obtain ⟨name, targets, durationArg, flagArgs, atkInfo, duration, rfl, _, hinfo, _, _, _, _, _,
    _, _, hfl, _, _, htyp⟩ := NewAttackArgs_ok args admin atk hargs
  refine ⟨name, _, atkInfo, hparse, mapGet_mem _ _ _ hinfo, htyp, ?_⟩
  refine flagLoop_keys atkInfo admin flagArgs [] atk.Flags
    (fun k => (∃ flagName flagInfo, (flagName, flagInfo) ∈ flagInfoLookup ∧ flagInfo.flagID = k) ∧
        k ∈ atkInfo.attackFlags ∧ (admin = 0 → k ≠ 25)) ?_ ?_ hfl
  · intro key flagInfo hget hallowed hadmin
    refine ⟨⟨key, flagInfo, mapGet_mem _ _ _ hget, rfl⟩, (uint8InSlice_iff _ _).mp hallowed, ?_⟩
    intro h0 h25
    exact hadmin ⟨h0, h25⟩
  · intro f hf
    cases hf

/-- Instance of C8: an unprivileged `udpflood` with the flag `len`. -/
theorem NewAttack_capability_witness :
    NewAttack (goStr "udpflood 8.8.8.8 60 len=100") 0
        = .ok ⟨60, 0, [(0x08080808, 32)], [(0, goStr "100")]⟩ ∧
      ∃ name rest atkInfo,
        shellwordsParse (goStr "udpflood 8.8.8.8 60 len=100") = some (name :: rest) ∧
        (name, atkInfo) ∈ attackInfoLookup ∧ (0 : Nat) = atkInfo.attackID ∧
        ∀ f ∈ [((0 : Nat), goStr "100")],
          (∃ flagName flagInfo, (flagName, flagInfo) ∈ flagInfoLookup ∧ flagInfo.flagID = f.1) ∧
          f.1 ∈ atkInfo.attackFlags ∧ ((0 : Int) = 0 → f.1 ≠ 25) :=
  ⟨by decide,
    NewAttack_capability (goStr "udpflood 8.8.8.8 60 len=100") 0
      ⟨60, 0, [(0x08080808, 32)], [(0, goStr "100")]⟩ (by decide)⟩

/-- C10, counterexample. For the line `udpflood 8.8.8.8 60 len=\"true\"` the
argument after tokenisation is `len="true"`, whose value begins and ends with a
double quote; the text between the quotes is `true`, but the value stored under
id 0 is `1`: the test for `true` and `false` is applied after the quotes are
removed. -/
theorem flag_value_counterexample :
    shellwordsParse (goStr "udpflood 8.8.8.8 60 len=\\\"true\\\"")
        = some [goStr "udpflood", goStr "8.8.8.8", goStr "60", goStr "len=\"true\""] ∧
      SplitN2 (goStr "len=\"true\"") 61 = [goStr "len", goStr "\"true\""] ∧
      NewAttack (goStr "udpflood 8.8.8.8 60 len=\\\"true\\\"") 1
        = .ok ⟨60, 0, [(0x08080808, 32)], [(0, goStr "1")]⟩ ∧
      claimedValue (goStr "\"true\"") = goStr "true" ∧
      goStr "1" ≠ claimedValue (goStr "\"true\"") := by
  decide

/-- C10, amended. Let `key=value` be any flag argument of an accepted line, `value`
being the text after the first `=`, where a value that begins with a double quote
also ends with one.  Let `u` be the text between the quotes when the value is
quoted and the value itself otherwise, and let `w` be `1` when `u` is `true`, `0`
when `u` is `false`, and `u`, byte for byte, in every other case.  The parser
stores `w` under the id of the flag when it reads the argument: the returned
`Flags` is what the loop over the later arguments makes of the map of the earlier
ones with `w` assigned under that id.  Hence `Flags` holds `w` under that id,
unless a later argument of the line names a flag of the same id, whose value then
takes its place. -/
theorem flag_value_normalisation (str : List Nat) (admin : Int) (atk : Attack)
    (name targets durationArg : List Nat) (pre : List (List Nat)) (arg : List Nat)
    (post : List (List Nat)) (key value : List Nat) (flagInfo : FlagInfo)
    (hargs : shellwordsParse str
      = some (name :: targets :: durationArg :: (pre ++ arg :: post)))
    (h : NewAttack str admin = .ok atk)
    (hsplit : SplitN2 arg 61 = [key, value])
    (hkey : mapGet flagInfoLookup key = some flagInfo)
    (hshape : value.head? = some 34 → value.getLast? = some 34) :
    (∃ atkInfo mid, mapGet attackInfoLookup name = some atkInfo ∧
      flagLoop atkInfo admin pre [] = .ok mid ∧
      flagLoop atkInfo admin post (mapSet mid flagInfo.flagID (normalisedValue value))
        = .ok atk.Flags) ∧
    ((∀ a ∈ post, ∀ key' value' flagInfo', SplitN2 a 61 = [key', value'] →
        mapGet flagInfoLookup key' = some flagInfo' → flagInfo'.flagID ≠ flagInfo.flagID) →
      mapGet atk.Flags flagInfo.flagID = some (normalisedValue value)) := by
  obtain ⟨args, hparse, hok⟩ := NewAttack_ok str admin atk h
  rw [hargs] at hparse
  cases hparse
  obtain ⟨name', targets', durationArg', flagArgs, atkInfo, duration, hshape', _, hinfo, _, _, _,
    _, _, _, _, hfl, _, _, _⟩ := NewAttackArgs_ok _ admin atk hok
  simp only [List.cons.injEq] at hshape'
  obtain ⟨rfl, _, _, rfl⟩ := hshape'
  obtain ⟨mid, hmid, hlast⟩ := flagLoop_append_ok atkInfo admin pre (arg :: post) [] atk.Flags hfl
  obtain ⟨key', value', flagInfo', hsplit', _, hget', _, _, _, hlen, hrest⟩ :=
    flagLoop_cons_ok atkInfo admin arg post mid atk.Flags hlast
  rw [hsplit] at hsplit'
  simp only [List.cons.injEq, and_true] at hsplit'
  obtain ⟨rfl, rfl⟩ := hsplit'
  rw [hkey] at hget'
  cases hget'
  rw [storedValue_eq_normalisedValue value hlen hshape] at hrest
  refine ⟨⟨atkInfo, mid, hinfo, hmid, hrest⟩, ?_⟩
  intro hno
  rw [flagLoop_keeps atkInfo admin flagInfo.flagID post _ atk.Flags hrest hno,
    mapGet_mapSet_self]

/-- Instance of the amended C10, on the line `udpflood 8.8.8.8 60 rand=true
len=\"512\"`: the value `true` of the first flag argument is stored as `1`, and
the value of the last, wrapped in a pair of escaped quotes that the tokeniser
keeps, is stored as `512`. -/
theorem flag_value_normalisation_witness :
    NewAttack (goStr "udpflood 8.8.8.8 60 rand=true len=\\\"512\\\"") 1
        = .ok ⟨60, 0, [(0x08080808, 32)], [(1, goStr "1"), (0, goStr "512")]⟩ ∧
      (mapGet [(1, goStr "1"), (0, goStr "512")] 1 = some (normalisedValue (goStr "true")) ∧
        normalisedValue (goStr "true") = goStr "1") ∧
      (mapGet [(1, goStr "1"), (0, goStr "512")] 0 = some (normalisedValue (goStr "\"512\"")) ∧
        normalisedValue (goStr "\"512\"") = goStr "512") :=
  ⟨by decide,
    ⟨(flag_value_normalisation (goStr "udpflood 8.8.8.8 60 rand=true len=\\\"512\\\"") 1
      ⟨60, 0, [(0x08080808, 32)], [(1, goStr "1"), (0, goStr "512")]⟩
      (goStr "udpflood") (goStr "8.8.8.8") (goStr "60") [] (goStr "rand=true")
      [goStr "len=\"512\""] (goStr "rand") (goStr "true")
      ⟨1, goStr "Randomize packet data content, default is 1 (yes)"⟩
      (by decide) (by decide) (by decide) (by decide) (by decide)).2
      (fun a ha key' value' flagInfo' hs hk => by
        rw [List.mem_singleton.mp ha] at hs
        have e : SplitN2 (goStr "len=\"512\"") 61 = [goStr "len", goStr "\"512\""] := by decide
        rw [e] at hs
        simp only [List.cons.injEq, and_true] at hs
        rw [← hs.1] at hk
        have e2 : mapGet flagInfoLookup (goStr "len")
            = some ⟨0, goStr "Size of packet data, default is 512 bytes"⟩ := by decide
        rw [e2] at hk
        cases hk
        decide), by decide⟩,
    ⟨(flag_value_normalisation (goStr "udpflood 8.8.8.8 60 rand=true len=\\\"512\\\"") 1
      ⟨60, 0, [(0x08080808, 32)], [(1, goStr "1"), (0, goStr "512")]⟩
      (goStr "udpflood") (goStr "8.8.8.8") (goStr "60") [goStr "rand=true"]
      (goStr "len=\"512\"") [] (goStr "len") (goStr "\"512\"")
      ⟨0, goStr "Size of packet data, default is 512 bytes"⟩
      (by decide) (by decide) (by decide) (by decide) (by decide)).2
      (fun a ha => absurd ha (List.not_mem_nil a)), by decide⟩⟩

/-- C2. End-to-end encoding of a single target: for every attack `name` of the
catalog, with id `atkInfo.attackID`, every dotted-decimal address `a.b.c.d` with
octets of at most 255 written without leading zeros, and every duration `dur` with
1 ≤ dur ≤ 86400 written in plain decimal, `NewAttack` on the line
`<name> a.b.c.d <dur>` succeeds, whatever `admin` is, with that id as type, the
single target `a.b.c.d` with netmask 32, the duration `dur` and no flag; and
`Build` returns for it the fourteen bytes 00 0E, `dur` on four bytes, the id, 01,
`a b c d`, 20 (hexadecimal), 00. -/
theorem NewAttack_Build_single_target (name : List Nat) (atkInfo : AttackInfo)
    (a b c d dur : Nat) (admin : Int) (hname : (name, atkInfo) ∈ attackInfoLookup)
    (ha : a ≤ 255) (hb : b ≤ 255) (hc : c ≤ 255) (hd : d ≤ 255)
    (h1 : 1 ≤ dur) (h2 : dur ≤ 86400) :
    NewAttack (lineOf [name, dotted a b c d] (decimal dur)) admin
        = .ok ⟨dur, atkInfo.attackID, [(a * 2 ^ 24 + b * 2 ^ 16 + c * 2 ^ 8 + d, 32)], []⟩ ∧
      Build ⟨dur, atkInfo.attackID, [(a * 2 ^ 24 + b * 2 ^ 16 + c * 2 ^ 8 + d, 32)], []⟩
        = .ok [0, 14, dur / 2 ^ 24 % 256, dur / 2 ^ 16 % 256, dur / 2 ^ 8 % 256, dur % 256,
            atkInfo.attackID, 1, a, b, c, d, 32, 0] := by
  obtain ⟨hdne, hddig, hdval, _⟩ := decimal_spec dur
  have hatoi : Atoi (decimal dur) = some (dur : Int) := by
    have := Atoi_of_digits (decimal dur) hdne hddig (by rw [hdval]; omega)
    rwa [hdval] at this
  constructor
  · have := NewAttack_lineOf_three name (dotted a b c d) (decimal dur) atkInfo admin dur
      [(Uint32 a b c d, 32)] hname (dotted_plainAscii a b c d) (dotted_ne_nil a b c d)
      (digit_plainAscii _ hddig) hdne
      (by
        have h44 : 44 ∉ dotted a b c d := by
          intro h
          rcases dotted_chars a b c d 44 h with h | h <;> omega
        rw [Split_of_not_mem _ _ h44]
        simp)
      (targetLoop_dotted a b c d ha hb hc hd) hatoi (by omega) (by omega)
    rw [this, toUint32_of_small dur (by omega)]
    rfl
  · have e1 : (a * 2 ^ 24 + b * 2 ^ 16 + c * 2 ^ 8 + d) / 2 ^ 24 % 256 = a := by omega
    have e2 : (a * 2 ^ 24 + b * 2 ^ 16 + c * 2 ^ 8 + d) / 2 ^ 16 % 256 = b := by omega
    have e3 : (a * 2 ^ 24 + b * 2 ^ 16 + c * 2 ^ 8 + d) / 2 ^ 8 % 256 = c := by omega
    have e4 : (a * 2 ^ 24 + b * 2 ^ 16 + c * 2 ^ 8 + d) % 256 = d := by omega
    simp only [Build, buildTargets, buildFlags, PutUint32, PutUint16, e1, e2, e3, e4]
    simp

/-- Instance of C2: the line `icmpflood 8.8.8.8 60`, unprivileged. -/
theorem NewAttack_Build_single_target_witness :
    lineOf [goStr "icmpflood", dotted 8 8 8 8] (decimal 60) = goStr "icmpflood 8.8.8.8 60" ∧
      NewAttack (lineOf [goStr "icmpflood", dotted 8 8 8 8] (decimal 60)) 0
        = .ok ⟨60, 11, [(8 * 2 ^ 24 + 8 * 2 ^ 16 + 8 * 2 ^ 8 + 8, 32)], []⟩ ∧
      Build ⟨60, 11, [(8 * 2 ^ 24 + 8 * 2 ^ 16 + 8 * 2 ^ 8 + 8, 32)], []⟩
        = .ok [0, 14, 60 / 2 ^ 24 % 256, 60 / 2 ^ 16 % 256, 60 / 2 ^ 8 % 256, 60 % 256,
            11, 1, 8, 8, 8, 8, 32, 0] ∧
      [0, 14, 60 / 2 ^ 24 % 256, 60 / 2 ^ 16 % 256, 60 / 2 ^ 8 % 256, 60 % 256,
            11, 1, 8, 8, 8, 8, 32, 0] = [0x00, 0x0E, 0x00, 0x00, 0x00, 0x3C, 0x0B, 0x01, 0x08, 0x08,
            0x08, 0x08, 0x20, 0x00] :=
  ⟨by decide,
    (NewAttack_Build_single_target (goStr "icmpflood") ⟨11, [0], goStr "ICMP Echo Flood"⟩
      8 8 8 8 60 0 (by decide) (by decide) (by decide) (by decide) (by decide) (by decide)
      (by decide)).1,
    (NewAttack_Build_single_target (goStr "icmpflood") ⟨11, [0], goStr "ICMP Echo Flood"⟩
      8 8 8 8 60 0 (by decide) (by decide) (by decide) (by decide) (by decide) (by decide)
      (by decide)).2,
    by decide⟩

/-- C9, counterexample. The value `true` is non-empty and free of quotes and white
space, yet with `admin = 1` the flag 25 does not hold it: the parser stores `1`. -/
theorem source_flag_counterexample :
    NewAttack (goStr "udpflood 8.8.8.8 60 source=true") 1
        = .ok ⟨60, 0, [(0x08080808, 32)], [(25, goStr "1")]⟩ ∧
      goStr "1" ≠ goStr "true" := by
  decide

/-- C9, amended. For every attack of the catalog whose allowed flags contain 25,
every target argument and duration argument of plain ASCII characters that the
parser accepts (the duration between 1 and 86400), and every non-empty value `v`
that is well-formed UTF-8 text free of white space, quotes, backslash, backtick,
parentheses and `; & | < >`, and is neither `true` nor `false`: on the line
`<name> <targets> <duration> source=<v>`, `NewAttack` with `admin = 0` fails with
exactly the message of an unknown flag key, and with `admin = 1` it succeeds and
`Flags` maps 25 to `v`. -/
theorem source_flag_privilege (name targets durationArg v : List Nat) (atkInfo : AttackInfo)
    (duration : Int) (atkTargets : List (Nat × Nat))
    (hname : (name, atkInfo) ∈ attackInfoLookup) (h25 : 25 ∈ atkInfo.attackFlags)
    (htp : PlainAscii targets) (hcount : (Split targets 44).length ≤ 255)
    (htl : targetLoop (Split targets 44) [] = .ok atkTargets)
    (hdp : PlainAscii durationArg) (hatoi : Atoi durationArg = some duration)
    (h0 : 0 < duration) (hmax : duration ≤ 86400)
    (hv : PlainText v) (hvne : v ≠ []) (htrue : v ≠ goStr "true") (hfalse : v ≠ goStr "false") :
    NewAttack (lineOf [name, targets, durationArg] (goStr "source=" ++ v)) 0
        = .error (goStr "Invalid Flag Key source, Near source=" ++ v) ∧
      NewAttack (lineOf [name, targets, durationArg] (goStr "source=" ++ v)) 1
        = .ok ⟨toUint32 duration, atkInfo.attackID, atkTargets, [(25, v)]⟩ := by
  have htne : targets ≠ [] := by
    intro h
    subst h
    have e : targetLoop (Split [] 44) []
        = .error (goStr "Failed To Parse IP address, Near ") := by decide
    rw [e] at htl
    cases htl
  have hdne : durationArg ≠ [] := by
    intro h
    subst h
    have e : Atoi [] = none := by decide
    rw [e] at hatoi
    cases hatoi
  have hlast : PlainText (goStr "source=" ++ v) :=
    plainText_append _ _ (by decide) hv
  have hlne : goStr "source=" ++ v ≠ [] := by
    intro h
    have := (List.append_eq_nil.mp h).2
    exact hvne this
  have hsplit : SplitN2 (goStr "source=" ++ v) 61 = [goStr "source", v] := rfl
  have hq : goStr "source=" ++ v ≠ goStr "?" := by
    intro h
    have hh : (goStr "source=" ++ v).head? = (goStr "?").head? := by rw [h]
    have e1 : (goStr "source=" ++ v).head? = some 115 := rfl
    rw [e1] at hh
    revert hh
    decide
  have hget : mapGet flagInfoLookup (goStr "source")
      = some ⟨25, goStr "Source IP address, 255.255.255.255 for random"⟩ := by decide
  have hallowed : uint8InSlice 25 atkInfo.attackFlags = true := (uint8InSlice_iff _ _).mpr h25
  have hline : ∀ admin : Int,
      NewAttack (lineOf [name, targets, durationArg] (goStr "source=" ++ v)) admin =
      match flagLoop atkInfo admin [goStr "source=" ++ v] [] with
      | .error msg => .error msg
      | .panic => .panic
      | .ok atkFlags =>
        if atkFlags.length > 255 then .error (goStr "Cannot Have More Than 255 Flags")
        else .ok ⟨toUint32 duration, atkInfo.attackID, atkTargets, atkFlags⟩ := by
    intro admin
    have := NewAttack_lineOf_flags name targets durationArg atkInfo [] (goStr "source=" ++ v)
      admin duration atkTargets hname htp htne hdp hdne (by simp) hlast hlne hcount htl hatoi
      (by omega) hmax
    simpa using this
  constructor
  · rw [hline 0, flagLoop, if_neg hq]
    simp only [hsplit, hget, hallowed]
    have emsg : goStr "Invalid Flag Key " ++ goStr "source" ++ goStr ", Near "
        = goStr "Invalid Flag Key source, Near " := by decide
    have emsg2 : goStr "Invalid Flag Key source, Near source="
        = goStr "Invalid Flag Key source, Near " ++ goStr "source=" := by decide
    simp only [Bool.not_true, Bool.false_or, beq_self_eq_true, Bool.and_self, if_true]
    rw [emsg2, ← emsg]
    simp only [List.append_assoc]
  · rw [hline 1, flagLoop_cons_of atkInfo 1 (goStr "source=" ++ v) (goStr "source") v
      ⟨25, goStr "Source IP address, 255.255.255.255 for random"⟩ [] [] hq hsplit hget hallowed
      (by omega) hvne (fun h => absurd h (plainText_head v hv)),
      storedValue_plain v (plainText_head v hv) htrue hfalse]
    simp [flagLoop, mapSet]

/-- Instance of the amended C9: the value `1.2.3.4` with the attack `udpflood`. -/
theorem source_flag_privilege_witness :
    lineOf [goStr "udpflood", goStr "8.8.8.8", goStr "60"] (goStr "source=" ++ goStr "1.2.3.4")
        = goStr "udpflood 8.8.8.8 60 source=1.2.3.4" ∧
      NewAttack (lineOf [goStr "udpflood", goStr "8.8.8.8", goStr "60"]
          (goStr "source=" ++ goStr "1.2.3.4")) 0
        = .error (goStr "Invalid Flag Key source, Near source=" ++ goStr "1.2.3.4") ∧
      NewAttack (lineOf [goStr "udpflood", goStr "8.8.8.8", goStr "60"]
          (goStr "source=" ++ goStr "1.2.3.4")) 1
        = .ok ⟨toUint32 60, 0, [(0x08080808, 32)], [(25, goStr "1.2.3.4")]⟩ :=
  ⟨by decide,
    source_flag_privilege (goStr "udpflood") (goStr "8.8.8.8") (goStr "60") (goStr "1.2.3.4")
      ⟨0, [2, 3, 4, 0, 1, 5, 6, 7, 25], goStr "UDP flood"⟩ 60 [(0x08080808, 32)]
      (by decide) (by decide) (by decide) (by decide) (by decide) (by decide) (by decide)
      (by decide) (by decide) (by decide) (by decide) (by decide) (by decide)⟩

/-! ## Over-long flag values and the duration test -/

theorem buildFlags_of_long (fs : List (Nat × List Nat)) (buf : List Nat)
    (h : ∃ f ∈ fs, 255 < f.2.length) :
    buildFlags fs buf = .error (goStr "Flag Value Cannot Be More Than 255 Bytes!") := by
  induction fs generalizing buf with
  | nil =>
    obtain ⟨f, hf, _⟩ := h
    cases hf
  | cons g rest ih =>
    obtain ⟨k, v⟩ := g
    simp only [buildFlags]
    split
    · rfl
    · rename_i hv
      apply ih
      obtain ⟨f, hf, hlen⟩ := h
      rcases List.mem_cons.mp hf with rfl | hf
      · exact absurd hlen hv
      · exact ⟨f, hf, hlen⟩

theorem plainText_replicate (n : Nat) : PlainText (List.replicate n 97) := by
  apply plainText_of_plainAscii
  intro b hb
  rw [List.eq_of_mem_replicate hb]
  decide

theorem Atoi_digits (ds : List Nat) (hne : ds ≠ []) (hd : ∀ c ∈ ds, 48 ≤ c ∧ c ≤ 57) :
    Atoi ds = if digitsValue ds < 2 ^ 63 then some (digitsValue ds : Int) else none := by
  by_cases hval : digitsValue ds < 2 ^ 63
  · rw [if_pos hval]
    exact Atoi_of_digits ds hne hd hval
  · rw [if_neg hval]
    cases ds with
    | nil => exact absurd rfl hne
    | cons c tl =>
      obtain ⟨h1, h2⟩ := hd c (List.mem_cons_self _ _)
      have h43 : c ≠ 43 := by omega
      have h45 : c ≠ 45 := by omega
      have hall : (c :: tl).all (fun c => decide (48 ≤ c ∧ c ≤ 57)) = true := by
        rw [List.all_eq_true]
        intro x hx
        exact decide_eq_true (hd x hx)
      unfold Atoi
      have e1 : (match c :: tl with
        | 45 :: _ => true
        | _ => false) = false := by
        split
        · rename_i heq
          simp only [List.cons.injEq] at heq
          exact absurd heq.1 h45
        · rfl
      have e2 : (match c :: tl with
        | 43 :: r => r
        | 45 :: r => r
        | _ => c :: tl) = c :: tl := by
        split
        · rename_i heq
          simp only [List.cons.injEq] at heq
          exact absurd heq.1 h43
        · rename_i heq
          simp only [List.cons.injEq] at heq
          exact absurd heq.1 h45
        · rfl
      simp only [e1, e2, hall, hval]
      simp

theorem name_ne_question (name : List Nat) (atkInfo : AttackInfo)
    (h : mapGet attackInfoLookup name = some atkInfo) : name ≠ goStr "?" := by
  intro hq
  subst hq
  have e : mapGet attackInfoLookup (goStr "?") = none := by decide
  rw [e] at h
  cases h

/-- The result of `NewAttackArgs` when the duration argument is refused. -/
theorem NewAttackArgs_bad_duration (name targets durationArg : List Nat)
    (flagArgs : List (List Nat)) (admin : Int) (atkInfo : AttackInfo)
    (atkTargets : List (Nat × Nat))
    (hinfo : mapGet attackInfoLookup name = some atkInfo)
    (hcount : (Split targets 44).length ≤ 255)
    (htl : targetLoop (Split targets 44) [] = .ok atkTargets)
    (hdq : durationArg ≠ goStr "?")
    (hbad : Atoi durationArg = none ∨
      ∃ duration, Atoi durationArg = some duration ∧ (duration = 0 ∨ duration > 86400)) :
    NewAttackArgs (name :: targets :: durationArg :: flagArgs) admin =
      .error (goStr "Invalid Attack Duration, Near " ++ durationArg
        ++ goStr ". Duration Must Be Between 0 And 86400 Seconds") := by
  unfold NewAttackArgs
  simp only [name_ne_question name atkInfo hinfo, if_false, hinfo,
    targets_ne_question _ _ htl, htl, hdq]
  rw [if_neg (by omega)]
  rcases hbad with hnone | ⟨duration, hsome, hrange⟩
  · simp only [hnone]
  · simp only [hsome]
    rw [if_pos hrange]

/-- The parse of the line `udpflood 8.8.8.8 60 len=<v>` for a value `v` of 256
bytes of plain text. -/
theorem NewAttack_len_value (v : List Nat) (admin : Int) (hv : PlainText v)
    (hlen : v.length = 256) :
    NewAttack (lineOf [goStr "udpflood", goStr "8.8.8.8", goStr "60"] (goStr "len=" ++ v)) admin
      = .ok ⟨60, 0, [(0x08080808, 32)], [(0, v)]⟩ := by
  have hvne : v ≠ [] := by
    intro h
    rw [h] at hlen
    cases hlen
  have htrue : v ≠ goStr "true" := by
    intro h
    rw [h] at hlen
    revert hlen
    decide
  have hfalse : v ≠ goStr "false" := by
    intro h
    rw [h] at hlen
    revert hlen
    decide
  have hlast : PlainText (goStr "len=" ++ v) := plainText_append _ _ (by decide) hv
  have hlne : goStr "len=" ++ v ≠ [] := by
    intro h
    exact hvne (List.append_eq_nil.mp h).2
  have hq : goStr "len=" ++ v ≠ goStr "?" := by
    intro h
    have hh : (goStr "len=" ++ v).head? = (goStr "?").head? := by rw [h]
    have e1 : (goStr "len=" ++ v).head? = some 108 := rfl
    rw [e1] at hh
    revert hh
    decide
  have hsplit : SplitN2 (goStr "len=" ++ v) 61 = [goStr "len", v] := rfl
  have hget : mapGet flagInfoLookup (goStr "len")
      = some ⟨0, goStr "Size of packet data, default is 512 bytes"⟩ := by decide
  have hline := NewAttack_lineOf_flags (goStr "udpflood") (goStr "8.8.8.8") (goStr "60")
    ⟨0, [2, 3, 4, 0, 1, 5, 6, 7, 25], goStr "UDP flood"⟩ [] (goStr "len=" ++ v) admin 60
    [(0x08080808, 32)] (by decide) (by decide) (by decide) (by decide) (by decide) (by simp)
    hlast hlne (by decide) (by decide) (by decide) (by decide) (by decide)
  simp only [List.append_nil, List.nil_append] at hline
  rw [hline, flagLoop_cons_of ⟨0, [2, 3, 4, 0, 1, 5, 6, 7, 25], goStr "UDP flood"⟩ admin
    (goStr "len=" ++ v) (goStr "len") v ⟨0, goStr "Size of packet data, default is 512 bytes"⟩
    [] [] hq hsplit hget (by decide) (by simp) hvne
    (fun h => absurd h (plainText_head v hv)),
    storedValue_plain v (plainText_head v hv) htrue hfalse]
  simp only [flagLoop, mapSet, List.length_cons, List.length_nil]
  rfl

/-! ## The target loop on lists of dotted-decimal sub-tokens -/

theorem Split_append_sep (w1 w2 : List Nat) (sep : Nat) (h : sep ∉ w1) :
    Split (w1 ++ sep :: w2) sep = w1 :: Split w2 sep := by
  induction w1 with
  | nil => simp [Split]
  | cons c rest ih =>
    have hc : c ≠ sep := fun hc => h (hc ▸ List.mem_cons_self _ _)
    have hrest : sep ∉ rest := fun hr => h (List.mem_cons_of_mem _ hr)
    rw [List.cons_append, Split, if_neg hc, ih hrest]

theorem Cidr_text_chars (t : Cidr) :
    ∀ x ∈ t.text, (48 ≤ x ∧ x ≤ 57) ∨ x = 46 ∨ x = 47 := by
  intro x hx
  unfold Cidr.text at hx
  rcases List.mem_append.mp hx with h | h
  · rcases dotted_chars _ _ _ _ x h with h | h
    · exact Or.inl h
    · exact Or.inr (Or.inl h)
  · cases hm : t.mask with
    | none =>
      rw [hm] at h
      cases h
    | some m =>
      rw [hm] at h
      rcases List.mem_cons.mp h with h | h
      · exact Or.inr (Or.inr h)
      · exact Or.inl ((decimal_spec m).2.1 x h)

theorem Split_joinCommas (ws : List (List Nat)) (hne : ws ≠ []) (h : ∀ w ∈ ws, 44 ∉ w) :
    Split (joinCommas ws) 44 = ws := by
  induction ws with
  | nil => exact absurd rfl hne
  | cons w rest ih =>
    have hw : 44 ∉ w := h w (List.mem_cons_self _ _)
    cases rest with
    | nil => exact Split_of_not_mem w 44 hw
    | cons w2 rest2 =>
      have hrest : ∀ x ∈ w2 :: rest2, 44 ∉ x := fun x hx => h x (List.mem_cons_of_mem _ hx)
      have e : joinCommas (w :: w2 :: rest2) = w ++ 44 :: joinCommas (w2 :: rest2) := rfl
      rw [e, Split_append_sep _ _ _ hw, ih (by simp) hrest]

theorem toUint8_of_small (n : Nat) (h : n < 256) : toUint8 (n : Int) = n := by
  unfold toUint8
  omega

/-- One pass of the target loop over the text of a valid sub-token. -/
theorem targetLoop_cons_valid (t : Cidr) (rest : List (List Nat)) (targets : List (Nat × Nat))
    (ht : t.Valid) :
    targetLoop (t.text :: rest) targets
      = targetLoop rest (mapSet targets t.address t.netmask) := by
  obtain ⟨ha, hb, hc, hd, hm⟩ := ht
  have h47 : 47 ∉ dotted t.a t.b t.c t.d := by
    intro h
    rcases dotted_chars _ _ _ _ 47 h with h | h <;> omega
  have hip := ParseIP_dotted t.a t.b t.c t.d ha hb hc hd
  have hlast : lastFour [0, 0, 0, 0, 0, 0, 0, 0, 0, 0, 255, 255, t.a, t.b, t.c, t.d]
      = t.address := rfl
  rw [targetLoop]
  cases hmask : t.mask with
  | none =>
    have htext : t.text = dotted t.a t.b t.c t.d := by
      simp [Cidr.text, hmask]
    have hnet : t.netmask = 32 := by simp [Cidr.netmask, hmask]
    rw [htext, hnet]
    simp only [Split_of_not_mem _ _ h47, hip, hlast]
  | some m =>
    have hm32 : m ≤ 32 := by
      have e : t.netmask = m := by simp [Cidr.netmask, hmask]
      rw [e] at hm
      exact hm
    have htext : t.text = dotted t.a t.b t.c t.d ++ 47 :: decimal m := by
      simp [Cidr.text, hmask]
    have hnet : t.netmask = m := by simp [Cidr.netmask, hmask]
    obtain ⟨hdne, hddig, hdval, _⟩ := decimal_spec m
    have h47m : 47 ∉ decimal m := by
      intro h
      have := hddig 47 h
      omega
    have hatoi : Atoi (decimal m) = some (m : Int) := by
      have := Atoi_of_digits (decimal m) hdne hddig (by rw [hdval]; omega)
      rwa [hdval] at this
    rw [htext, hnet]
    simp only [Split_append_sep _ _ _ h47, Split_of_not_mem _ _ h47m, hatoi, hip, hlast,
      toUint8_of_small m (by omega)]
    rw [if_neg (by omega)]

theorem targetLoop_valid (ts : List Cidr) (targets : List (Nat × Nat))
    (hts : ∀ t ∈ ts, t.Valid) :
    targetLoop (ts.map Cidr.text) targets
      = .ok (ts.foldl (fun m t => mapSet m t.address t.netmask) targets) := by
  induction ts generalizing targets with
  | nil => simp [targetLoop]
  | cons t rest ih =>
    have ht := hts t (List.mem_cons_self _ _)
    have hrest : ∀ t ∈ rest, t.Valid := fun t h => hts t (List.mem_cons_of_mem _ h)
    rw [List.map_cons, targetLoop_cons_valid t _ _ ht, ih _ hrest, List.foldl_cons]

theorem Split_targets (ts : List Cidr) (hne : ts ≠ []) :
    Split (joinCommas (ts.map Cidr.text)) 44 = ts.map Cidr.text := by
  apply Split_joinCommas
  · simpa using hne
  · intro w hw h44
    obtain ⟨t, _, rfl⟩ := List.mem_map.mp hw
    rcases Cidr_text_chars t 44 h44 with h | h | h <;> omega

theorem mem_keys_mapSet {κ ν : Type} [DecidableEq κ] (m : List (κ × ν)) (k k' : κ) (v : ν) :
    k' ∈ (mapSet m k v).map Prod.fst ↔ k' = k ∨ k' ∈ m.map Prod.fst := by
  induction m with
  | nil => simp [mapSet]
  | cons e rest ih =>
    obtain ⟨k₀, v₀⟩ := e
    simp only [mapSet]
    split
    · rename_i heq
      subst heq
      simp
    · simp only [List.map_cons, List.mem_cons, ih]
      constructor
      · rintro (h | h | h)
        · exact Or.inr (Or.inl h)
        · exact Or.inl h
        · exact Or.inr (Or.inr h)
      · rintro (h | h | h)
        · exact Or.inr (Or.inl h)
        · exact Or.inl h
        · exact Or.inr (Or.inr h)

theorem nodup_keys_mapSet {κ ν : Type} [DecidableEq κ] (m : List (κ × ν)) (k : κ) (v : ν)
    (h : (m.map Prod.fst).Nodup) : ((mapSet m k v).map Prod.fst).Nodup := by
  induction m with
  | nil => simp [mapSet]
  | cons e rest ih =>
    obtain ⟨k₀, v₀⟩ := e
    simp only [List.map_cons, List.nodup_cons] at h
    simp only [mapSet]
    split
    · rename_i heq
      subst heq
      simpa using h
    · rename_i hne
      simp only [List.map_cons, List.nodup_cons]
      refine ⟨?_, ih h.2⟩
      intro hmem
      rcases (mem_keys_mapSet rest k k₀ v).mp hmem with h' | h'
      · exact hne h'
      · exact h.1 h'

theorem foldl_mapSet_spec (ts : List Cidr) (m : List (Nat × Nat))
    (hm : (m.map Prod.fst).Nodup) :
    ((ts.foldl (fun m t => mapSet m t.address t.netmask) m).map Prod.fst).Nodup ∧
    (∀ k, k ∈ (ts.foldl (fun m t => mapSet m t.address t.netmask) m).map Prod.fst ↔
      k ∈ m.map Prod.fst ∨ k ∈ ts.map Cidr.address) ∧
    (∀ k, mapGet (ts.foldl (fun m t => mapSet m t.address t.netmask) m) k =
      match lastNetmask ts k with
      | some v => some v
      | none => mapGet m k) := by
  induction ts generalizing m with
  | nil => simp [lastNetmask, hm]
  | cons t rest ih =>
    rw [List.foldl_cons]
    obtain ⟨h1, h2, h3⟩ := ih (mapSet m t.address t.netmask) (nodup_keys_mapSet m _ _ hm)
    refine ⟨h1, ?_, ?_⟩
    · intro k
      rw [h2 k, mem_keys_mapSet]
      simp only [List.map_cons, List.mem_cons]
      constructor
      · rintro ((h | h) | h)
        · exact Or.inr (Or.inl h)
        · exact Or.inl h
        · exact Or.inr (Or.inr h)
      · rintro (h | h | h)
        · exact Or.inl (Or.inr h)
        · exact Or.inl (Or.inl h)
        · exact Or.inr h
    · intro k
      rw [h3 k, lastNetmask]
      cases hl : lastNetmask rest k with
      | some v => rfl
      | none =>
        simp only
        by_cases hk : t.address = k
        · subst hk
          simp [mapGet_mapSet_self]
        · simp [hk, mapGet_mapSet_ne _ _ _ _ hk]

theorem targetMap_spec (ts : List Cidr) :
    ((targetMap ts).map Prod.fst).Nodup ∧
    (∀ k, k ∈ (targetMap ts).map Prod.fst ↔ k ∈ ts.map Cidr.address) ∧
    (∀ k, mapGet (targetMap ts) k = lastNetmask ts k) ∧
    (targetMap ts).length = (ts.map Cidr.address).dedup.length := by
  obtain ⟨h1, h2, h3⟩ := foldl_mapSet_spec ts [] (by simp)
  have h2' : ∀ k, k ∈ (targetMap ts).map Prod.fst ↔ k ∈ ts.map Cidr.address := by
    intro k
    have := h2 k
    simpa [targetMap] using this
  refine ⟨h1, h2', ?_, ?_⟩
  · intro k
    have := h3 k
    unfold targetMap
    rw [this]
    cases lastNetmask ts k <;> simp [mapGet]
  · have hperm : ((targetMap ts).map Prod.fst).Perm (ts.map Cidr.address).dedup := by
      have h1' : ((targetMap ts).map Prod.fst).Nodup := h1
      rw [List.perm_ext_iff_of_nodup h1' (List.nodup_dedup _)]
      intro k
      rw [h2' k, List.mem_dedup]
    have := hperm.length_eq
    simpa using this

theorem take_set_ge (l : List Nat) (n i v : Nat) (h : n ≤ i) :
    (l.set i v).take n = l.take n := by
  induction l generalizing n i with
  | nil => simp
  | cons a tl ih =>
    cases n with
    | zero => simp
    | succ n =>
      cases i with
      | zero => omega
      | succ i =>
        simp only [List.set_cons_succ, List.take_succ_cons, ih n i (by omega)]

theorem take_set_succ (l : List Nat) (n v : Nat) (h : n < l.length) :
    (l.set n v).take (n + 1) = l.take n ++ [v] := by
  induction l generalizing n with
  | nil => simp at h
  | cons a tl ih =>
    cases n with
    | zero => simp
    | succ n =>
      simp only [List.length_cons] at h
      simp only [List.set_cons_succ, List.take_succ_cons, ih n (by omega), List.cons_append]

theorem AgreeTo.mono {n k : Nat} {l1 l2 : List Nat} (h : AgreeTo n l1 l2) (hk : k ≤ n) :
    AgreeTo k l1 l2 := by
  refine ⟨h.1, ?_⟩
  have := congrArg (List.take k) h.2
  simpa [List.take_take, Nat.min_eq_left hk] using this

theorem AgreeTo.set_both {n i : Nat} {l1 l2 : List Nat} (h : AgreeTo n l1 l2) (hi : n ≤ i)
    (v w : Nat) : AgreeTo n (l1.set i v) (l2.set i w) := by
  refine ⟨by simp [h.1], ?_⟩
  rw [take_set_ge _ _ _ _ hi, take_set_ge _ _ _ _ hi, h.2]

theorem AgreeTo.set_left {n i : Nat} {l1 l2 : List Nat} (h : AgreeTo n l1 l2) (hi : n ≤ i)
    (v : Nat) : AgreeTo n (l1.set i v) l2 := by
  refine ⟨by simp [h.1], ?_⟩
  rw [take_set_ge _ _ _ _ hi, h.2]

theorem AgreeTo.set_succ {n : Nat} {l1 l2 : List Nat} (h : AgreeTo n l1 l2) (v : Nat) :
    AgreeTo (n + 1) (l1.set n v) (l2.set n v) := by
  refine ⟨by simp [h.1], ?_⟩
  by_cases hn : n < l1.length
  · rw [take_set_succ _ _ _ hn, take_set_succ _ _ _ (h.1 ▸ hn), h.2]
  · have h1 : l1.length ≤ n := by omega
    have h2 : l2.length ≤ n := by rw [← h.1]; exact h1
    rw [List.set_eq_of_length_le h1, List.set_eq_of_length_le h2,
      List.take_of_length_le (by omega), List.take_of_length_le (by omega)]
    have e1 := List.take_of_length_le h1
    have e2 := List.take_of_length_le h2
    rw [← e1, ← e2]
    exact h.2

/-! ## One pass through the loop of `ReadLine` -/

/-- The loop panics at its first slice expression when the position is outside
the buffer. -/
theorem ReadLine_loop_outside (masked : Bool) (short : List Nat → Bool)
    (input buf : List Nat) (bufPos : Int) (output : List Nat) (h : bufPos < 0 ∨ 1024 < bufPos + 1) :
    ReadLine.loop masked short input buf bufPos output = (.panic, ⟨input, output⟩) := by
  rw [ReadLine.loop.eq_def]
  cases input with
  | nil => simp [h]
  | cons b rest => simp [h]

/-- The pass for a byte other than 0xFF. -/
theorem ReadLine_loop_cons (masked : Bool) (short : List Nat → Bool) (b : Nat)
    (rest buf : List Nat) (bufPos : Int) (output : List Nat) (hin : ¬ (bufPos < 0 ∨ 1024 < bufPos + 1)) (hb : b ≠ 255) :
    ReadLine.loop masked short (b :: rest) buf bufPos output =
      if b = 127 ∨ b = 8 then
        ReadLine.loop masked short rest (buf.set bufPos.toNat b)
          ((if bufPos > 0 then bufPos - 1 else bufPos) - 1 + 1) output
      else if b = 13 ∨ b = 9 then
        ReadLine.loop masked short rest (buf.set bufPos.toNat b) (bufPos - 1 + 1) output
      else if b = 10 ∨ b = 0 then
        (.returned ((buf.set bufPos.toNat b).take bufPos.toNat) false, ⟨rest, output⟩)
      else if b = 3 then
        (.returned [] false, ⟨rest, output⟩)
      else if b = 27 then
        if 1024 ≤ bufPos + 1 then (.panic, ⟨rest, output ++ [94]⟩)
        else
          ReadLine.loop masked short rest ((buf.set bufPos.toNat 94).set (bufPos.toNat + 1) 91)
            (bufPos + 1 + 1) (output ++ [94] ++ [91])
      else if masked then
        ReadLine.loop masked short rest (buf.set bufPos.toNat b) (bufPos + 1) (output ++ [42])
      else
        ReadLine.loop masked short rest (buf.set bufPos.toNat b) (bufPos + 1) output := by
  rw [ReadLine.loop.eq_def]
  simp only [hin, hb, if_false]

/-- The pass for the byte 0xFF followed by two more bytes that the read of two
bytes returns together. -/
theorem ReadLine_loop_escape (masked : Bool) (short : List Nat → Bool) (x y : Nat)
    (rest buf : List Nat) (bufPos : Int) (output : List Nat) (h0 : 0 ≤ bufPos)
    (h : bufPos ≤ 1022) (hboth : short (x :: y :: rest) = false) :
    ReadLine.loop masked short (255 :: x :: y :: rest) buf bufPos output =
      ReadLine.loop masked short rest
        (((buf.set bufPos.toNat 255).set bufPos.toNat x).set (bufPos.toNat + 1) y)
        bufPos output := by
  rw [ReadLine.loop]
  rw [if_neg (by omega), if_pos rfl, if_neg (by omega), hboth]
  have e : bufPos - 1 + 1 = bufPos := by omega
  rw [e]
  rfl

/-- The pass for the byte 0xFF followed by two more bytes of which the read of
two bytes returns the first alone. -/
theorem ReadLine_loop_escape_short (masked : Bool) (short : List Nat → Bool) (x y : Nat)
    (rest buf : List Nat) (bufPos : Int) (output : List Nat) (h0 : 0 ≤ bufPos)
    (h : bufPos ≤ 1022) (hone : short (x :: y :: rest) = true) :
    ReadLine.loop masked short (255 :: x :: y :: rest) buf bufPos output =
      (.returned [] false, ⟨y :: rest, output⟩) := by
  rw [ReadLine.loop]
  rw [if_neg (by omega), if_pos rfl, if_neg (by omega), hone]
  rfl

/-! ## The loop of `ReadLine` and the content of its buffer -/

/-- The loop of `ReadLine` does not depend on what the buffer holds at and after
the position `bufPos`. -/
theorem ReadLine_loop_agree_aux (masked : Bool) (short : List Nat → Bool) :
    ∀ (n : Nat) (input : List Nat), input.length = n →
      ∀ (buf1 buf2 : List Nat) (bufPos : Int) (output : List Nat),
        AgreeTo bufPos.toNat buf1 buf2 →
        ReadLine.loop masked short input buf1 bufPos output
          = ReadLine.loop masked short input buf2 bufPos output := by
  intro n
  induction n using Nat.strong_induction_on with
  | _ n ih =>
    intro input hn buf1 buf2 bufPos output hag
    by_cases hpanic : bufPos < 0 ∨ 1024 < bufPos + 1
    · rw [ReadLine_loop_outside _ _ _ _ _ _ hpanic, ReadLine_loop_outside _ _ _ _ _ _ hpanic]
    · cases input with
      | nil => simp [ReadLine.loop]
      | cons b rest =>
        have hrest : ∀ (buf1 buf2 : List Nat) (p : Int) (out : List Nat),
            AgreeTo p.toNat buf1 buf2 →
            ReadLine.loop masked short rest buf1 p out = ReadLine.loop masked short rest buf2 p out :=
          ih rest.length (by simp [← hn]) rest rfl
        by_cases h255 : b = 255
        · subst h255
          by_cases hcap : 1024 < bufPos + 2
          · cases rest with
            | nil => simp [ReadLine.loop, hcap]
            | cons x rest1 =>
              cases rest1 with
              | nil => simp [ReadLine.loop, hcap]
              | cons y rest2 => simp [ReadLine.loop, hcap]
          · cases rest with
            | nil => simp [ReadLine.loop]
            | cons x rest1 =>
              cases rest1 with
              | nil => simp [ReadLine.loop]
              | cons y rest2 =>
                cases hs : short (x :: y :: rest2) with
                | true =>
                  rw [ReadLine_loop_escape_short _ _ _ _ _ _ _ _ (by omega) (by omega) hs,
                    ReadLine_loop_escape_short _ _ _ _ _ _ _ _ (by omega) (by omega) hs]
                | false =>
                  rw [ReadLine_loop_escape _ _ _ _ _ _ _ _ (by omega) (by omega) hs,
                    ReadLine_loop_escape _ _ _ _ _ _ _ _ (by omega) (by omega) hs]
                  apply ih rest2.length (by simp [← hn]; omega) rest2 rfl
                  exact ((hag.set_both (Nat.le_refl _) 255 255).set_both (Nat.le_refl _)
                    x x).set_both (Nat.le_succ _) y y
        · rw [ReadLine_loop_cons _ _ _ _ _ _ _ hpanic h255, ReadLine_loop_cons _ _ _ _ _ _ _ hpanic h255]
          have hset := hag.set_both (Nat.le_refl _) b b
          have hnext : AgreeTo (bufPos + 1).toNat (buf1.set bufPos.toNat b)
              (buf2.set bufPos.toNat b) := by
            have e : (bufPos + 1).toNat = bufPos.toNat + 1 := by omega
            rw [e]
            exact hag.set_succ b
          split
          · apply hrest
            exact hset.mono (by split <;> omega)
          · split
            · apply hrest
              exact hset.mono (by omega)
            · split
              · rw [hset.2]
              · split
                · rfl
                · split
                  · split
                    · rfl
                    · apply hrest
                      have e : (bufPos + 1 + 1).toNat = bufPos.toNat + 1 + 1 := by omega
                      rw [e]
                      exact (hag.set_succ 94).set_succ 91
                  · split
                    · exact hrest _ _ _ _ hnext
                    · exact hrest _ _ _ _ hnext

theorem ReadLine_loop_agree (masked : Bool) (short : List Nat → Bool)
    (input buf1 buf2 : List Nat) (bufPos : Int) (output : List Nat) (h : AgreeTo bufPos.toNat buf1 buf2) :
    ReadLine.loop masked short input buf1 bufPos output
      = ReadLine.loop masked short input buf2 bufPos output :=
  ReadLine_loop_agree_aux masked short input.length input rfl buf1 buf2 bufPos output h

theorem editStep_length_le (acc : List Nat) (b : Nat) :
    (editStep acc b).length ≤ acc.length + 1 := by
  unfold editStep
  split
  · simp
    omega
  · split
    · omega
    · simp

/-- The loop of `ReadLine`, not masked, over bytes that are keystrokes of the
editor: it reaches the rest of the stream with the edited line in its buffer,
provided the line never grows beyond 1023 bytes. -/
theorem ReadLine_loop_edit (short : List Nat → Bool) (body : List Nat) :
    ∀ (buf acc : List Nat), buf.length = 1024 → buf.take acc.length = acc →
      (∀ b ∈ body, Editable b) →
      (∀ pre, pre <+: body → (pre.foldl editStep acc).length ≤ 1023) →
      ∃ buf', buf'.length = 1024 ∧
        buf'.take (body.foldl editStep acc).length = body.foldl editStep acc ∧
        ∀ rest output, ReadLine.loop false short (body ++ rest) buf (acc.length : Int) output
          = ReadLine.loop false short rest buf' ((body.foldl editStep acc).length : Int) output := by
  induction body with
  | nil =>
    intro buf acc hlen hacc _ _
    exact ⟨buf, hlen, hacc, fun _ _ => rfl⟩
  | cons b tl ih =>
    intro buf acc hlen hacc hbytes hfit
    have hb : Editable b := hbytes b (List.mem_cons_self _ _)
    have htl : ∀ b ∈ tl, Editable b := fun b h => hbytes b (List.mem_cons_of_mem _ h)
    obtain ⟨h255, h10, h0, h3, h27⟩ := hb
    have hpos : acc.length ≤ 1023 := hfit [] List.nil_prefix
    have hfit' : ∀ pre, pre <+: tl → (pre.foldl editStep (editStep acc b)).length ≤ 1023 := by
      intro pre hpre
      have := hfit (b :: pre) (by
        obtain ⟨s, hs⟩ := hpre
        exact ⟨s, by simp [← hs]⟩)
      simpa using this
    have hin : ¬ ((acc.length : Int) < 0 ∨ 1024 < (acc.length : Int) + 1) := by omega
    have hnat : ((acc.length : Int)).toNat = acc.length := by omega
    have hstep : (buf.set acc.length b).take (editStep acc b).length = editStep acc b ∧
        ∀ rest output, ReadLine.loop false short (b :: rest) buf (acc.length : Int) output
          = ReadLine.loop false short rest (buf.set acc.length b) ((editStep acc b).length : Int)
              output := by
      by_cases hbs : b = 127 ∨ b = 8
      · have hed : editStep acc b = acc.dropLast := by simp [editStep, hbs]
        have hl : (acc.dropLast).length = acc.length - 1 := by simp
        refine ⟨?_, ?_⟩
        · rw [hed, hl, take_set_ge _ _ _ _ (by omega), List.dropLast_eq_take]
          have := congrArg (List.take (acc.length - 1)) hacc
          rw [List.take_take, Nat.min_eq_left (by omega)] at this
          exact this
        · intro rest output
          rw [ReadLine_loop_cons _ _ _ _ _ _ _ hin h255, hnat, if_pos hbs, hed, hl]
          congr 1
          split <;> omega
      · by_cases hcr : b = 13 ∨ b = 9
        · have hed : editStep acc b = acc := by simp [editStep, hbs, hcr]
          refine ⟨?_, ?_⟩
          · rw [hed, take_set_ge _ _ _ _ (Nat.le_refl _), hacc]
          · intro rest output
            rw [ReadLine_loop_cons _ _ _ _ _ _ _ hin h255, hnat, if_neg hbs, if_pos hcr, hed]
            congr 1
            omega
        · have hed : editStep acc b = acc ++ [b] := by simp [editStep, hbs, hcr]
          refine ⟨?_, ?_⟩
          · rw [hed, List.length_append, List.length_singleton,
              take_set_succ _ _ _ (by omega), hacc]
          · intro rest output
            rw [ReadLine_loop_cons _ _ _ _ _ _ _ hin h255, hnat, if_neg hbs, if_neg hcr,
              if_neg (by omega), if_neg h3, if_neg h27, hed]
            simp
    obtain ⟨hacc1, heq1⟩ := hstep
    obtain ⟨buf', hlen', hacc', heq'⟩ := ih (buf.set acc.length b) (editStep acc b)
      (by simp [hlen]) hacc1 htl hfit'
    refine ⟨buf', hlen', by simpa using hacc', ?_⟩
    intro rest output
    rw [List.cons_append, heq1, heq']
    simp

/-- The pass for a terminator byte. -/
theorem ReadLine_loop_terminator (masked : Bool) (short : List Nat → Bool) (term : Nat)
    (rest buf acc output : List Nat)
    (hterm : term = 10 ∨ term = 0) (hpos : acc.length ≤ 1023)
    (hacc : buf.take acc.length = acc) :
    ReadLine.loop masked short (term :: rest) buf (acc.length : Int) output
      = (.returned acc false, ⟨rest, output⟩) := by
  have hin : ¬ ((acc.length : Int) < 0 ∨ 1024 < (acc.length : Int) + 1) := by omega
  have hnat : ((acc.length : Int)).toNat = acc.length := by omega
  rw [ReadLine_loop_cons _ _ _ _ _ _ _ hin (by omega), hnat, if_neg (by omega), if_neg (by omega),
    if_pos hterm, take_set_ge _ _ _ _ (Nat.le_refl _), hacc]

/-- An edited line, followed by a terminator: what `ReadLine` returns. -/
theorem ReadLine_edit_line (short : List Nat → Bool) (body rest output : List Nat) (term : Nat)
    (hterm : term = 10 ∨ term = 0) (hbytes : ∀ b ∈ body, Editable b)
    (hfit : ∀ pre, pre <+: body → (pre.foldl editStep []).length ≤ 1023) :
    ReadLine false short ⟨body ++ term :: rest, output⟩
      = (.returned (body.foldl editStep []) false, ⟨rest, output⟩) := by
  obtain ⟨buf', _, hacc', heq⟩ := ReadLine_loop_edit short body
    (List.replicate 1024 0) [] (List.length_replicate 1024 0) (List.take_zero _) hbytes hfit
  have heq := heq (term :: rest) output
  unfold ReadLine
  simp only [List.length_nil, Nat.cast_zero] at heq
  simp only
  rw [heq]
  exact ReadLine_loop_terminator false short term rest buf' _ output hterm
    (hfit body (List.prefix_refl _)) hacc'

/-! ## Lines without escape bytes -/

theorem editable_of_ordinary (b : Nat) (h : Ordinary b) : Editable b := by
  obtain ⟨h0, h3, _, _, h10, _, h27, _, h255⟩ := h
  exact ⟨h255, h10, h0, h3, h27⟩

theorem foldl_editStep_plain (body : List Nat) :
    ∀ acc : List Nat, (∀ b ∈ body, Ordinary b ∨ b = 13 ∨ b = 9) →
      body.foldl editStep acc = acc ++ body.filter (fun b => decide (Ordinary b)) := by
  induction body with
  | nil => intro acc _; simp
  | cons b tl ih =>
    intro acc h
    have htl : ∀ b ∈ tl, Ordinary b ∨ b = 13 ∨ b = 9 :=
      fun b hb => h b (List.mem_cons_of_mem _ hb)
    rw [List.foldl_cons, ih _ htl]
    rcases h b (List.mem_cons_self _ _) with hb | hb
    · have hed : editStep acc b = acc ++ [b] := by
        obtain ⟨_, _, h8, h9, _, h13, _, h127, _⟩ := hb
        simp [editStep, h8, h9, h13, h127]
      rw [hed, List.filter_cons_of_pos (by simpa using hb)]
      simp
    · have hno : ¬ Ordinary b := by
        intro ho
        obtain ⟨_, _, _, h9, _, h13, _, _, _⟩ := ho
        rcases hb with hb | hb
        · exact h13 hb
        · exact h9 hb
      have hed : editStep acc b = acc := by
        have h1 : ¬ (b = 127 ∨ b = 8) := by omega
        simp [editStep, h1, hb]
      rw [hed, List.filter_cons_of_neg (by simpa using hno)]

theorem foldl_editStep_backspace (body : List Nat) :
    ∀ acc : List Nat, (∀ b ∈ body, Ordinary b ∨ b = 127 ∨ b = 8) →
      body.foldl editStep acc = body.foldl backspaceStep acc := by
  induction body with
  | nil => intro acc _; rfl
  | cons b tl ih =>
    intro acc h
    have htl : ∀ b ∈ tl, Ordinary b ∨ b = 127 ∨ b = 8 :=
      fun b hb => h b (List.mem_cons_of_mem _ hb)
    have hstep : editStep acc b = backspaceStep acc b := by
      rcases h b (List.mem_cons_self _ _) with hb | hb
      · obtain ⟨_, _, h8, h9, _, h13, _, h127, _⟩ := hb
        simp [editStep, backspaceStep, h8, h9, h13, h127]
      · simp [editStep, backspaceStep, hb]
    rw [List.foldl_cons, List.foldl_cons, hstep, ih _ htl]

theorem filter_prefix_length (body pre : List Nat) (p : Nat → Bool) (h : pre <+: body) :
    (pre.filter p).length ≤ (body.filter p).length := by
  obtain ⟨s, rfl⟩ := h
  simp

/-- A stream that begins with at most 1023 ordinary bytes: `ReadLine` reaches the
rest of the stream with these bytes in its buffer. -/
theorem ReadLine_ordinary_prefix (short : List Nat → Bool) (body : List Nat)
    (hbytes : ∀ b ∈ body, Ordinary b) (hlen : body.length ≤ 1023) :
    ∃ buf', buf'.length = 1024 ∧ buf'.take body.length = body ∧
      ∀ rest output, ReadLine false short ⟨body ++ rest, output⟩
        = ReadLine.loop false short rest buf' (body.length : Int) output := by
  have hfold : ∀ pre, pre <+: body → pre.foldl editStep [] = pre := by
    intro pre hpre
    have hpb : ∀ b ∈ pre, Ordinary b ∨ b = 13 ∨ b = 9 := by
      intro b hb
      exact Or.inl (hbytes b (hpre.subset hb))
    rw [foldl_editStep_plain pre [] hpb, List.nil_append, List.filter_eq_self]
    intro b hb
    exact decide_eq_true (hbytes b (hpre.subset hb))
  obtain ⟨buf', hl, hacc, heq⟩ := ReadLine_loop_edit short body (List.replicate 1024 0) []
    (List.length_replicate 1024 0) (List.take_zero _)
    (fun b hb => editable_of_ordinary b (hbytes b hb))
    (by
      intro pre hpre
      rw [hfold pre hpre]
      exact Nat.le_trans hpre.length_le hlen)
  rw [hfold body (List.prefix_refl _)] at hacc heq
  refine ⟨buf', hl, hacc, ?_⟩
  intro rest output
  have heq := heq rest output
  unfold ReadLine
  simp only [List.length_nil, Nat.cast_zero] at heq
  exact heq

theorem ordinary_replicate (n : Nat) : ∀ b ∈ List.replicate n 97, Ordinary b := by
  intro b hb
  rw [List.eq_of_mem_replicate hb]
  decide

/-- The line with a flag value of 256 letters, as `attackSender` reads, parses and
encodes it. -/
theorem attackSender_overlong_steps (short : List Nat → Bool) :
    ReadLine false short
        ⟨lineOf [goStr "udpflood", goStr "8.8.8.8", goStr "60"]
          (goStr "len=" ++ List.replicate 256 97) ++ [10], []⟩
      = (.returned (lineOf [goStr "udpflood", goStr "8.8.8.8", goStr "60"]
          (goStr "len=" ++ List.replicate 256 97)) false, ⟨[], []⟩) ∧
    NewAttack (lineOf [goStr "udpflood", goStr "8.8.8.8", goStr "60"]
        (goStr "len=" ++ List.replicate 256 97)) 1
      = .ok ⟨60, 0, [(0x08080808, 32)], [(0, List.replicate 256 97)]⟩ ∧
    Build ⟨60, 0, [(0x08080808, 32)], [(0, List.replicate 256 97)]⟩
      = .error (goStr "Flag Value Cannot Be More Than 255 Bytes!") := by
  have hline : lineOf [goStr "udpflood", goStr "8.8.8.8", goStr "60"]
      (goStr "len=" ++ List.replicate 256 97)
      = goStr "udpflood 8.8.8.8 60 len=" ++ List.replicate 256 97 := by
    have e : ∀ v : List Nat, lineOf [goStr "udpflood", goStr "8.8.8.8", goStr "60"]
        (goStr "len=" ++ v) = goStr "udpflood 8.8.8.8 60 len=" ++ v := fun _ => rfl
    exact e _
  have hord : ∀ b ∈ goStr "udpflood 8.8.8.8 60 len=" ++ List.replicate 256 97, Ordinary b := by
    intro b hb
    rcases List.mem_append.mp hb with hb | hb
    · have hall : ∀ b ∈ goStr "udpflood 8.8.8.8 60 len=", Ordinary b := by decide
      exact hall b hb
    · exact ordinary_replicate 256 b hb
  have hlen : (goStr "udpflood 8.8.8.8 60 len=" ++ List.replicate 256 97).length ≤ 1023 := by
    rw [List.length_append, List.length_replicate]
    have : (goStr "udpflood 8.8.8.8 60 len=").length = 24 := by decide
    omega
  refine ⟨?_, NewAttack_len_value _ 1 (plainText_replicate 256) (List.length_replicate 256 97), ?_⟩
  · rw [hline]
    obtain ⟨buf', _, hacc, heq⟩ := ReadLine_ordinary_prefix short _ hord hlen
    rw [heq [10] []]
    exact ReadLine_loop_terminator false short 10 [] buf' _ [] (Or.inl rfl) hlen hacc
  · unfold Build
    simp only [buildFlags_of_long _ _ ⟨(0, List.replicate 256 97), List.mem_singleton_self _,
      by rw [List.length_replicate]; exact Nat.lt_succ_self 255⟩]

/-! ## Claims about capacity and boundaries of the parser -/

/-- C11. Over-long flag value: `Build` returns an error, and no buffer, for every
Attack in which some flag value is longer than 255 bytes, whatever the other
fields are and in whatever order the flags are visited; and `NewAttack` accepts
such a value: for every value `v` of 256 bytes of plain text (256 letters, say)
the line `udpflood 8.8.8.8 60 len=<v>` parses, with flag 0 holding `v`. -/
theorem overlong_flag_value (a : Attack) (v : List Nat) (admin : Int)
    (hlong : ∃ f ∈ a.Flags, 255 < f.2.length) (hv : PlainText v) (hlen : v.length = 256) :
    Build a = .error (goStr "Flag Value Cannot Be More Than 255 Bytes!") ∧
      NewAttack (lineOf [goStr "udpflood", goStr "8.8.8.8", goStr "60"] (goStr "len=" ++ v)) admin
        = .ok ⟨60, 0, [(0x08080808, 32)], [(0, v)]⟩ := by
  constructor
  · unfold Build
    simp only [buildFlags_of_long _ _ hlong]
  · exact NewAttack_len_value v admin hv hlen

/-- Instance of C11: the value of 256 letters `a`, and the Attack it parses to. -/
theorem overlong_flag_value_witness :
    Build ⟨60, 0, [(0x08080808, 32)], [(0, List.replicate 256 97)]⟩
        = .error (goStr "Flag Value Cannot Be More Than 255 Bytes!") ∧
      NewAttack (lineOf [goStr "udpflood", goStr "8.8.8.8", goStr "60"]
          (goStr "len=" ++ List.replicate 256 97)) 1
        = .ok ⟨60, 0, [(0x08080808, 32)], [(0, List.replicate 256 97)]⟩ :=
  overlong_flag_value ⟨60, 0, [(0x08080808, 32)], [(0, List.replicate 256 97)]⟩
    (List.replicate 256 97) 1
    ⟨(0, List.replicate 256 97), List.mem_singleton_self _,
      by rw [List.length_replicate]; exact Nat.lt_succ_self 255⟩
    (plainText_replicate 256) (List.length_replicate 256 97)

/-- The last stage of `NewAttack` returns an Attack exactly when the loop over the
flag arguments returns a map of at most 255 flags. -/
theorem flagStage_ok_iff (r : Outcome (List (Nat × List Nat))) (d id : Nat)
    (tg : List (Nat × Nat)) (atk : Attack) :
    (match r with
      | .error msg => Outcome.error msg
      | .panic => Outcome.panic
      | .ok atkFlags =>
        if atkFlags.length > 255 then Outcome.error (goStr "Cannot Have More Than 255 Flags")
        else Outcome.ok ⟨d, id, tg, atkFlags⟩) = Outcome.ok atk ↔
      ∃ atkFlags, r = .ok atkFlags ∧ atkFlags.length ≤ 255 ∧ atk = ⟨d, id, tg, atkFlags⟩ := by
  cases r with
  | error msg => simp
  | panic => simp
  | ok atkFlags =>
    by_cases h : atkFlags.length > 255
    · simp only [h, if_true, Outcome.ok.injEq, false_iff, not_exists, not_and, reduceCtorEq]
      intro fl hfl hle
      subst hfl
      omega
    · simp only [h, if_false, Outcome.ok.injEq]
      constructor
      · intro e
        exact ⟨atkFlags, rfl, by omega, e.symm⟩
      · rintro ⟨fl, hfl, _, rfl⟩
        rw [hfl]

/-- C12, counterexample. The line `udpflood 8.8.8.8 60 x` has an attack name of the
catalog, a target argument the parser accepts and the numeral 60, which is within
1..86400, for its duration; `NewAttack` does not succeed on it, and the failure
is not the one about the duration: the fourth argument is refused as a flag. -/
theorem duration_boundary_counterexample :
    shellwordsParse (goStr "udpflood 8.8.8.8 60 x")
        = some [goStr "udpflood", goStr "8.8.8.8", goStr "60", goStr "x"] ∧
      (mapGet attackInfoLookup (goStr "udpflood")).isSome = true ∧
      targetLoop (Split (goStr "8.8.8.8") 44) [] = .ok [(0x08080808, 32)] ∧
      digitsValue (goStr "60") = 60 ∧
      NewAttack (goStr "udpflood 8.8.8.8 60 x") 0
        = .error (goStr "Invalid key=value Flag Combination Near x") := by
  decide

/-- C12, amended. Duration boundary: on a line whose first argument is an attack of
the catalog, whose second is a target argument the parser accepts and whose third
is an unsigned decimal numeral `ds` of value `d`: when `d` is outside 1..86400,
`NewAttack` fails with the message that holds the numeral and the range; when
`d` is within 1..86400 the duration is accepted and the result of `NewAttack` is
that of the flag stage; `NewAttack` succeeds if and only if `d` is within
1..86400 and the flag stage accepts the arguments after the duration (the loop
over them returns a map of at most 255 flags), and the Attack then has
`Duration = d`; in particular it succeeds with `Duration = d` when `d` is within
1..86400 and no argument follows the duration. -/
theorem duration_boundary (str : List Nat) (admin : Int) (name targets ds : List Nat)
    (flagArgs : List (List Nat)) (atkInfo : AttackInfo) (atkTargets : List (Nat × Nat))
    (hparse : shellwordsParse str = some (name :: targets :: ds :: flagArgs))
    (hinfo : mapGet attackInfoLookup name = some atkInfo)
    (hcount : (Split targets 44).length ≤ 255)
    (htl : targetLoop (Split targets 44) [] = .ok atkTargets)
    (hne : ds ≠ []) (hdig : ∀ c ∈ ds, 48 ≤ c ∧ c ≤ 57) :
    (¬ (1 ≤ digitsValue ds ∧ digitsValue ds ≤ 86400) →
      NewAttack str admin = .error (goStr "Invalid Attack Duration, Near " ++ ds
        ++ goStr ". Duration Must Be Between 0 And 86400 Seconds")) ∧
    (1 ≤ digitsValue ds ∧ digitsValue ds ≤ 86400 →
      NewAttack str admin =
        match flagLoop atkInfo admin flagArgs [] with
        | .error msg => .error msg
        | .panic => .panic
        | .ok atkFlags =>
          if atkFlags.length > 255 then .error (goStr "Cannot Have More Than 255 Flags")
          else .ok ⟨digitsValue ds, atkInfo.attackID, atkTargets, atkFlags⟩) ∧
    (∀ atk, NewAttack str admin = .ok atk ↔
      (1 ≤ digitsValue ds ∧ digitsValue ds ≤ 86400) ∧
        ∃ atkFlags, flagLoop atkInfo admin flagArgs [] = .ok atkFlags ∧
          atkFlags.length ≤ 255 ∧
          atk = ⟨digitsValue ds, atkInfo.attackID, atkTargets, atkFlags⟩) ∧
    (1 ≤ digitsValue ds ∧ digitsValue ds ≤ 86400 → flagArgs = [] →
      NewAttack str admin = .ok ⟨digitsValue ds, atkInfo.attackID, atkTargets, []⟩) := by
  have hdq : ds ≠ goStr "?" := by
    intro h
    subst h
    have := hdig 63 (by decide)
    omega
  have hatoi := Atoi_digits ds hne hdig
  have hNA : NewAttack str admin = NewAttackArgs (name :: targets :: ds :: flagArgs) admin := by
    unfold NewAttack
    rw [hparse]
    rfl
  have hbad : ¬ (1 ≤ digitsValue ds ∧ digitsValue ds ≤ 86400) →
      NewAttack str admin = .error (goStr "Invalid Attack Duration, Near " ++ ds
        ++ goStr ". Duration Must Be Between 0 And 86400 Seconds") := by
    intro hout
    rw [hNA]
    apply NewAttackArgs_bad_duration name targets ds flagArgs admin atkInfo atkTargets hinfo
      hcount htl hdq
    by_cases hbig : digitsValue ds < 2 ^ 63
    · right
      rw [if_pos hbig] at hatoi
      refine ⟨_, hatoi, ?_⟩
      omega
    · left
      rw [if_neg hbig] at hatoi
      exact hatoi
  have hgood : 1 ≤ digitsValue ds ∧ digitsValue ds ≤ 86400 →
      NewAttack str admin =
        match flagLoop atkInfo admin flagArgs [] with
        | .error msg => .error msg
        | .panic => .panic
        | .ok atkFlags =>
          if atkFlags.length > 255 then .error (goStr "Cannot Have More Than 255 Flags")
          else .ok ⟨digitsValue ds, atkInfo.attackID, atkTargets, atkFlags⟩ := by
    intro hin
    rw [if_pos (by omega)] at hatoi
    have e := NewAttackArgs_of name targets ds flagArgs admin atkInfo (digitsValue ds : Int)
      atkTargets (name_ne_question name atkInfo hinfo) hinfo (targets_ne_question _ _ htl)
      hcount htl hdq hatoi (by omega) (by omega)
    rw [toUint32_of_small _ (by omega)] at e
    rw [hNA]
    exact e
  refine ⟨hbad, hgood, ?_, ?_⟩
  · intro atk
    by_cases hin : 1 ≤ digitsValue ds ∧ digitsValue ds ≤ 86400
    · rw [hgood hin, flagStage_ok_iff]
      exact ⟨fun h => ⟨hin, h⟩, fun h => h.2⟩
    · rw [hbad hin]
      constructor
      · intro h
        cases h
      · intro h
        exact absurd h.1 hin
  · intro hin hnil
    rw [hgood hin, hnil]
    rfl

/-- Instance of the amended C12: the durations 0 and 86401 are refused, 1 and 86400
are accepted, and so is 60 before a flag argument the flag stage accepts. -/
theorem duration_boundary_witness :
    NewAttack (goStr "udpflood 8.8.8.8 0") 0
        = .error (goStr "Invalid Attack Duration, Near " ++ goStr "0"
          ++ goStr ". Duration Must Be Between 0 And 86400 Seconds") ∧
      NewAttack (goStr "udpflood 8.8.8.8 86401") 0
        = .error (goStr "Invalid Attack Duration, Near " ++ goStr "86401"
          ++ goStr ". Duration Must Be Between 0 And 86400 Seconds") ∧
      NewAttack (goStr "udpflood 8.8.8.8 1") 0
        = .ok ⟨digitsValue (goStr "1"), 0, [(0x08080808, 32)], []⟩ ∧
      NewAttack (goStr "udpflood 8.8.8.8 86400") 0
        = .ok ⟨digitsValue (goStr "86400"), 0, [(0x08080808, 32)], []⟩ ∧
      NewAttack (goStr "udpflood 8.8.8.8 60 len=5") 0
        = .ok ⟨digitsValue (goStr "60"), 0, [(0x08080808, 32)], [(0, goStr "5")]⟩ :=
  ⟨(duration_boundary (goStr "udpflood 8.8.8.8 0") 0 (goStr "udpflood") (goStr "8.8.8.8")
      (goStr "0") [] ⟨0, [2, 3, 4, 0, 1, 5, 6, 7, 25], goStr "UDP flood"⟩ [(0x08080808, 32)]
      (by decide) (by decide) (by decide) (by decide) (by decide) (by decide)).1 (by decide),
    (duration_boundary (goStr "udpflood 8.8.8.8 86401") 0 (goStr "udpflood") (goStr "8.8.8.8")
      (goStr "86401") [] ⟨0, [2, 3, 4, 0, 1, 5, 6, 7, 25], goStr "UDP flood"⟩ [(0x08080808, 32)]
      (by decide) (by decide) (by decide) (by decide) (by decide) (by decide)).1 (by decide),
    (duration_boundary (goStr "udpflood 8.8.8.8 1") 0 (goStr "udpflood") (goStr "8.8.8.8")
      (goStr "1") [] ⟨0, [2, 3, 4, 0, 1, 5, 6, 7, 25], goStr "UDP flood"⟩ [(0x08080808, 32)]
      (by decide) (by decide) (by decide) (by decide) (by decide) (by decide)).2.2.2
      (by decide) rfl,
    (duration_boundary (goStr "udpflood 8.8.8.8 86400") 0 (goStr "udpflood") (goStr "8.8.8.8")
      (goStr "86400") [] ⟨0, [2, 3, 4, 0, 1, 5, 6, 7, 25], goStr "UDP flood"⟩ [(0x08080808, 32)]
      (by decide) (by decide) (by decide) (by decide) (by decide) (by decide)).2.2.2
      (by decide) rfl,
    ((duration_boundary (goStr "udpflood 8.8.8.8 60 len=5") 0 (goStr "udpflood")
      (goStr "8.8.8.8") (goStr "60") [goStr "len=5"]
      ⟨0, [2, 3, 4, 0, 1, 5, 6, 7, 25], goStr "UDP flood"⟩ [(0x08080808, 32)]
      (by decide) (by decide) (by decide) (by decide) (by decide) (by decide)).2.2.1 _).mpr
      ⟨by decide, [(0, goStr "5")], by decide, by decide, rfl⟩⟩

/-! ## Claims about the targets -/

/-- C14. Target map semantics: on an accepted line whose target argument is the
comma-joined list of valid sub-tokens `ts` (dotted-decimal addresses, bare or with
a netmask of at most 32), `Targets` is the map obtained by assigning the
sub-tokens in order: its keys are exactly the addresses that occur in the list,
each key occurs once, each address is mapped to the netmask of its last
occurrence (32 for a bare address), and the number of targets is the number of
distinct addresses. -/
theorem target_map_semantics (str : List Nat) (admin : Int) (atk : Attack) (name : List Nat)
    (rest : List (List Nat)) (ts : List Cidr)
    (hparse : shellwordsParse str = some (name :: joinCommas (ts.map Cidr.text) :: rest))
    (hts : ∀ t ∈ ts, t.Valid) (hne : ts ≠ [])
    (hok : NewAttack str admin = .ok atk) :
    atk.Targets = targetMap ts ∧
      (atk.Targets.map Prod.fst).Nodup ∧
      (∀ k, k ∈ atk.Targets.map Prod.fst ↔ k ∈ ts.map Cidr.address) ∧
      (∀ k, mapGet atk.Targets k = lastNetmask ts k) ∧
      atk.Targets.length = (ts.map Cidr.address).dedup.length := by
  obtain ⟨args, hp, hargs⟩ := NewAttack_ok str admin atk hok
  rw [hparse] at hp
  cases hp
  obtain ⟨name', targets', durationArg, flagArgs, atkInfo, duration, hshape, _, _, _, _, htl, _⟩ :=
    NewAttackArgs_ok _ admin atk hargs
  simp only [List.cons.injEq] at hshape
  obtain ⟨_, rfl, _⟩ := hshape
  rw [Split_targets ts hne, targetLoop_valid ts [] hts] at htl
  have hT : atk.Targets = targetMap ts := by
    simp only [Outcome.ok.injEq] at htl
    exact htl.symm
  rw [hT]
  exact ⟨rfl, targetMap_spec ts⟩

/-- Instance of C14: the line `udpflood 10.0.0.0/8,8.8.8.8 120 len=100 rand=0`. -/
theorem target_map_semantics_witness :
    NewAttack (goStr "udpflood 10.0.0.0/8,8.8.8.8 120 len=100 rand=0") 0
        = .ok ⟨120, 0, [(0x0A000000, 8), (0x08080808, 32)],
            [(0, goStr "100"), (1, goStr "0")]⟩ ∧
      [((0x0A000000 : Nat), (8 : Nat)), (0x08080808, 32)]
        = targetMap [⟨10, 0, 0, 0, some 8⟩, ⟨8, 8, 8, 8, none⟩] :=
  ⟨by decide,
    (target_map_semantics (goStr "udpflood 10.0.0.0/8,8.8.8.8 120 len=100 rand=0") 0
      ⟨120, 0, [(0x0A000000, 8), (0x08080808, 32)], [(0, goStr "100"), (1, goStr "0")]⟩
      (goStr "udpflood") [goStr "120", goStr "len=100", goStr "rand=0"]
      [⟨10, 0, 0, 0, some 8⟩, ⟨8, 8, 8, 8, none⟩] (by decide) (by decide) (by decide)
      (by decide)).1⟩

/-- C15, the code at two failing inputs. `net.ParseIP` also reads IPv6 text, and
line 269 keeps the last four of the sixteen bytes it returns: the lines
`udpflood ::1 60` and `udpflood 2001:db8::1 60` are accepted, each with the single
target 0.0.0.1 (the integer 1) and netmask 32, an address written in neither
line. -/
theorem NewAttack_accepts_ipv6 :
    NewAttack (goStr "udpflood ::1 60") 1 = .ok ⟨60, 0, [(1, 32)], []⟩ ∧
      NewAttack (goStr "udpflood 2001:db8::1 60") 1 = .ok ⟨60, 0, [(1, 32)], []⟩ := by
  decide

/-! ## Claims about the line reader and `attackSender` -/

/-- C16. Plain line reading: on a stream made of ordinary bytes, at most 1023 of
them, interleaved with any number of carriage returns and tabs, followed by a
terminator (0x0A or 0x00) and by whatever comes after, `ReadLine`, not masked,
returns exactly the ordinary bytes in their order, with a nil error; it leaves
every byte after the terminator unread and writes nothing to the connection.
This holds however the stream arrives in pieces (for every `short`). -/
theorem ReadLine_plain_line (short : List Nat → Bool) (body rest output : List Nat) (term : Nat)
    (hterm : term = 10 ∨ term = 0) (hbytes : ∀ b ∈ body, Ordinary b ∨ b = 13 ∨ b = 9)
    (hcount : (body.filter (fun b => decide (Ordinary b))).length ≤ 1023) :
    ReadLine false short ⟨body ++ term :: rest, output⟩
      = (.returned (body.filter (fun b => decide (Ordinary b))) false, ⟨rest, output⟩) := by
  have hfold : ∀ pre, pre <+: body →
      pre.foldl editStep [] = pre.filter (fun b => decide (Ordinary b)) := by
    intro pre hpre
    rw [foldl_editStep_plain pre [] (fun b hb => hbytes b (hpre.subset hb)), List.nil_append]
  rw [ReadLine_edit_line short body rest output term hterm, hfold body (List.prefix_refl _)]
  · intro b hb
    rcases hbytes b hb with h | h | h
    · exact editable_of_ordinary b h
    · subst h
      decide
    · subst h
      decide
  · intro pre hpre
    rw [hfold pre hpre]
    exact Nat.le_trans (filter_prefix_length body pre _ hpre) hcount

/-- Instance of C16: `a`, CR, `b`, tab, `c`, then a line feed and one more byte,
on a connection that delivers one byte at a time. -/
theorem ReadLine_plain_line_witness :
    ReadLine false (fun _ => true) ⟨[97, 13, 98, 9, 99] ++ 10 :: [100], []⟩
      = (.returned ([97, 13, 98, 9, 99].filter (fun b => decide (Ordinary b))) false,
          ⟨[100], []⟩) ∧
      [97, 13, 98, 9, 99].filter (fun b => decide (Ordinary b)) = [97, 98, 99] :=
  ⟨ReadLine_plain_line (fun _ => true) [97, 13, 98, 9, 99] [100] [] 10 (by decide) (by decide) (by decide),
    by decide⟩

/-- C17. Backspace editing: on a stream made of ordinary bytes and of backspace
bytes (0x7F or 0x08), followed by a terminator, along which the line never holds
more than 1023 bytes (after each initial part `pre` of the stream), `ReadLine` returns the line of the reference fold, in which
an ordinary byte is appended and a backspace removes the last byte if there is
one and does nothing on an empty line.  It does not panic: no buffer access
happens at a negative position, however many backspaces arrive on an empty
line.  This holds however the stream arrives in pieces (for every `short`). -/
theorem ReadLine_backspace (short : List Nat → Bool) (body rest output : List Nat) (term : Nat)
    (hterm : term = 10 ∨ term = 0) (hbytes : ∀ b ∈ body, Ordinary b ∨ b = 127 ∨ b = 8)
    (hfit : ∀ pre ∈ body.inits, (pre.foldl backspaceStep []).length ≤ 1023) :
    ReadLine false short ⟨body ++ term :: rest, output⟩
      = (.returned (body.foldl backspaceStep []) false, ⟨rest, output⟩) := by
  have hfold : ∀ pre, pre <+: body → pre.foldl editStep [] = pre.foldl backspaceStep [] := by
    intro pre hpre
    exact foldl_editStep_backspace pre [] (fun b hb => hbytes b (hpre.subset hb))
  rw [ReadLine_edit_line short body rest output term hterm, hfold body (List.prefix_refl _)]
  · intro b hb
    rcases hbytes b hb with h | h | h
    · exact editable_of_ordinary b h
    · subst h
      decide
    · subst h
      decide
  · intro pre hpre
    rw [hfold pre hpre]
    exact hfit pre ((List.mem_inits pre body).mpr hpre)

/-- Instance of C17: `a`, `b`, 0x7F, `c` gives `ac`; 0x08, 0x08, `x` gives `x`. -/
theorem ReadLine_backspace_witness :
    ReadLine false (fun _ => true) ⟨[97, 98, 127, 99] ++ 10 :: [], []⟩
        = (.returned ([97, 98, 127, 99].foldl backspaceStep []) false, ⟨[], []⟩) ∧
      [97, 98, 127, 99].foldl backspaceStep [] = [97, 99] ∧
      ReadLine false (fun _ => true) ⟨[8, 8, 120] ++ 10 :: [], []⟩
        = (.returned ([8, 8, 120].foldl backspaceStep []) false, ⟨[], []⟩) ∧
      [8, 8, 120].foldl backspaceStep [] = [120] :=
  ⟨ReadLine_backspace (fun _ => true) [97, 98, 127, 99] [] [] 10 (by decide) (by decide) (by decide),
    by decide,
    ReadLine_backspace (fun _ => true) [8, 8, 120] [] [] 10 (by decide) (by decide) (by decide),
    by decide⟩

/-- C18, counterexample. First, on a connection that delivers both bytes to every
read of two bytes, with `u` the single byte 0xFF, `x = a`, `y = b` and `v` the
bytes `c`, `d`, line feed: on `u ++ [0xFF, x, y] ++ v` the first 0xFF swallows the
second 0xFF and `a`, so that `b` is read as an ordinary byte and the line is
`bcd`; on `u ++ v` the 0xFF swallows `c` and `d` and the line is empty.  Second,
with `u` empty, `x = a`, `y = b` and `v` the bytes `c`, line feed, on a
connection on which `b` has not arrived when the two bytes after the 0xFF are
read: the read returns `a` alone and `ReadLine` returns the empty line with a nil
error, leaving `b`, `c` and the line feed unread, while on `u ++ v` the line is
`c`. -/
theorem escape_swallowing_counterexample :
    (ReadLine false (fun _ => false) ⟨[255] ++ [255, 97, 98] ++ [99, 100, 10], []⟩
        = (.returned [98, 99, 100] false, ⟨[], []⟩) ∧
      ReadLine false (fun _ => false) ⟨[255] ++ [99, 100, 10], []⟩
        = (.returned [] false, ⟨[], []⟩)) ∧
    (ReadLine false (fun bs => decide (bs = [97, 98, 99, 10]))
          ⟨[] ++ [255, 97, 98] ++ [99, 10], []⟩
        = (.returned [] false, ⟨[98, 99, 10], []⟩) ∧
      ReadLine false (fun bs => decide (bs = [97, 98, 99, 10])) ⟨[] ++ [99, 10], []⟩
        = (.returned [99] false, ⟨[], []⟩)) := by
  decide

/-- C18, amended. Let `u` be a sequence of bytes that `ReadLine` reads completely
and after which it stands at the head of its loop, with the buffer `buf`, at a
position `bufPos` between 0 and 1022: whatever the stream goes on with, reading
`u` and what follows is running the loop on what follows from that state.  Let
the read of two bytes that follows the 0xFF return both `x` and `y` (the
connection does not deliver `x` alone: `short (x :: y :: v) = false`).  Then for
all bytes `x` and `y` and every `v`, `ReadLine` on `u ++ [0xFF, x, y] ++ v`
returns what it returns on `u ++ v`: the same line, the same error status, and
the same connection. -/
theorem escape_swallowed (masked : Bool) (short : List Nat → Bool) (u v : List Nat) (x y : Nat)
    (output buf : List Nat) (bufPos : Int) (output' : List Nat)
    (hu : ∀ w, ReadLine masked short ⟨u ++ w, output⟩
      = ReadLine.loop masked short w buf bufPos output')
    (h0 : 0 ≤ bufPos) (hpos : bufPos ≤ 1022) (hboth : short (x :: y :: v) = false) :
    ReadLine masked short ⟨u ++ [255, x, y] ++ v, output⟩
      = ReadLine masked short ⟨u ++ v, output⟩ := by
  rw [List.append_assoc, hu, hu v]
  have e : [255, x, y] ++ v = 255 :: x :: y :: v := rfl
  rw [e, ReadLine_loop_escape masked short x y v buf bufPos output' h0 hpos hboth]
  apply ReadLine_loop_agree
  have hrefl : AgreeTo bufPos.toNat buf buf := ⟨rfl, rfl⟩
  exact ((hrefl.set_left (Nat.le_refl _) 255).set_left (Nat.le_refl _) x).set_left
    (Nat.le_succ _) y

/-- Instance of the amended C18: after `ab` an escape holding a line feed and a
backspace, both returned by the read of two bytes, changes nothing; the
connection of the instance cuts the stream everywhere else. -/
theorem escape_swallowed_witness :
    (fun bs => decide (bs ≠ [10, 127, 99, 10])) (10 :: 127 :: [99, 10]) = false ∧
    ReadLine false (fun bs => decide (bs ≠ [10, 127, 99, 10]))
        ⟨[97, 98] ++ [255, 10, 127] ++ [99, 10], []⟩
      = ReadLine false (fun bs => decide (bs ≠ [10, 127, 99, 10]))
          ⟨[97, 98] ++ [99, 10], []⟩ := by
  obtain ⟨buf', _, _, h⟩ := ReadLine_ordinary_prefix
    (fun bs => decide (bs ≠ [10, 127, 99, 10])) [97, 98] (by decide) (by decide)
  exact ⟨by decide, escape_swallowed false (fun bs => decide (bs ≠ [10, 127, 99, 10]))
    [97, 98] [99, 10] 10 127 [] buf' (([97, 98] : List Nat).length) []
    (fun w => h w []) (by decide) (by decide) (by decide)⟩

/-- C19, the code at three failing inputs. After 1024 ordinary bytes without a
terminator the slice expression of line 387 is out of range; an ESC byte read at
position 1023 makes line 416 index the buffer at 1024; a 0xFF byte read at
position 1023 makes the slice expression of line 392 end at 1025.  `ReadLine`
panics on each of them and returns no failure, however the stream arrives in
pieces (for every `short`). -/
theorem ReadLine_overflow_panics (short : List Nat → Bool) :
    (ReadLine false short ⟨List.replicate 1023 97 ++ [97], []⟩).1 = .panic ∧
      (ReadLine false short ⟨List.replicate 1023 97 ++ [27], []⟩).1 = .panic ∧
      (ReadLine false short ⟨List.replicate 1023 97 ++ [255, 1, 2], []⟩).1 = .panic := by
  obtain ⟨buf', _, _, h⟩ := ReadLine_ordinary_prefix short (List.replicate 1023 97)
    (ordinary_replicate 1023) (by rw [List.length_replicate])
  have hl : ((List.replicate 1023 97).length : Int) = 1023 := by
    rw [List.length_replicate]
    rfl
  refine ⟨?_, ?_, ?_⟩
  · rw [h [97] [], hl, ReadLine_loop_cons _ _ _ _ _ _ _ (by omega) (by omega)]
    simp only [show ¬ ((97 : Nat) = 127 ∨ (97 : Nat) = 8) by omega,
      show ¬ ((97 : Nat) = 13 ∨ (97 : Nat) = 9) by omega,
      show ¬ ((97 : Nat) = 10 ∨ (97 : Nat) = 0) by omega,
      show ¬ ((97 : Nat) = 3) by omega, show ¬ ((97 : Nat) = 27) by omega, if_false,
      Bool.false_eq_true]
    rw [ReadLine_loop_outside _ _ _ _ _ _ (by omega)]
  · rw [h [27] [], hl, ReadLine_loop_cons _ _ _ _ _ _ _ (by omega) (by omega)]
    simp only [show ¬ ((27 : Nat) = 127 ∨ (27 : Nat) = 8) by omega,
      show ¬ ((27 : Nat) = 13 ∨ (27 : Nat) = 9) by omega,
      show ¬ ((27 : Nat) = 10 ∨ (27 : Nat) = 0) by omega,
      show ¬ ((27 : Nat) = 3) by omega, if_false, if_true]
    rw [if_pos (by omega)]
  · rw [h [255, 1, 2] [], hl, ReadLine.loop, if_neg (by omega), if_pos rfl, if_pos (by omega)]

/-- C20, the code at a failing input. On the line `udpflood 8.8.8.8 60 len=<256
letters>` `ReadLine` returns the line, `NewAttack` succeeds, so that `err` is nil,
and `Build` fails; line 445 then calls `err.Error()` on the nil `err` instead of
`exx`, and `attackSender` ends in a panic: nothing has been written, and the
deferred close has run.  This holds however the line arrives in pieces (for
every `short`). -/
theorem attackSender_aborts (short : List Nat → Bool) :
    attackSender short ⟨lineOf [goStr "udpflood", goStr "8.8.8.8", goStr "60"]
        (goStr "len=" ++ List.replicate 256 97) ++ [10], []⟩
      = ⟨[], true, true⟩ := by
  obtain ⟨hread, hparse, hbuild⟩ := attackSender_overlong_steps short
  unfold attackSender
  rw [hread]
  simp only [Bool.false_eq_true, if_false, hparse, hbuild]

end Botnet
